import Mathlib

/-!
Debian Code Search: the query manager of `dcs-web`.

A shallow embedding of `cmd/dcs-web/querymanager.go`.  One query is followed at a time: the
entry `state[queryid]` of the global registry is a value of `queryState`, and every Go function
that reads and writes that entry becomes a function from the old entry to the new one.  A Go
run-time panic (slice or index out of range) is the result `none`.

Conventions of the embedding:

* a Go `string` is the list of its bytes (`GoString`);
* `float32` is a type parameter `F` with the operations the file uses (`GoFloat32`): a linear
  order (no NaN, the two zeros identified), addition, multiplication and the constant `0.1`;
* `int`, `int64` are `Int`, lengths and indices that are never negative are `Nat`;
* a Go `map` is an association list whose order is the iteration order of `range`;
* calls of `addEventMarshal` and `addEvent` (defined in another file of the package) are
  recorded in the event log `queryState.events`.
-/

namespace Dcs

/-! ## Strings -/

/-- A Go string, as the sequence of its bytes. -/
abbrev GoString := List Nat

/-- The bytes of an ASCII literal. -/
def str (s : String) : GoString := s.toList.map Char.toNat

/-- Go `strings.Index(s, sep)` counted from position `i`: the index of the first occurrence of
`sep` in `s`, or `-1`. -/
def stringsIndexFrom (sep : GoString) : GoString → Nat → Int
  | [], i => if sep = [] then (i : Int) else -1
  | c :: cs, i =>
    if sep.isPrefixOf (c :: cs) then (i : Int) else stringsIndexFrom sep cs (i + 1)

/-- Go `strings.Index(s, sep)`. -/
def stringsIndex (s sep : GoString) : Int := stringsIndexFrom sep s 0

/-- The slice expression `s[:hi]`; `none` is the out-of-range panic. -/
def sliceTo (s : GoString) (hi : Int) : Option GoString :=
  if 0 ≤ hi ∧ hi ≤ (s.length : Int) then some (s.take hi.toNat) else none

/-- The slice expression `s[lo:]`; `none` is the out-of-range panic. -/
def sliceFrom (s : GoString) (lo : Int) : Option GoString :=
  if 0 ≤ lo ∧ lo ≤ (s.length : Int) then some (s.drop lo.toNat) else none

/-! ## Maps -/

/-- The map read `m[k]` with the comma-ok form: the value stored under `k`, if any. -/
def mapGet? {V : Type} : List (GoString × V) → GoString → Option V
  | [], _ => none
  | (k', v) :: rest, k => if k' = k then some v else mapGet? rest k

/-- The map read `m[k]`: the value stored under `k`, or the zero value `d`. -/
def mapGetD {V : Type} (m : List (GoString × V)) (k : GoString) (d : V) : V :=
  (mapGet? m k).getD d

/-- The map write `m[k] = v`. -/
def mapSet {V : Type} : List (GoString × V) → GoString → V → List (GoString × V)
  | [], k, v => [(k, v)]
  | (k', v') :: rest, k, v =>
    if k' = k then (k', v) :: rest else (k', v') :: mapSet rest k v

/-- The write `m[k] = true` on a `map[string]bool` used as a set. -/
def setInsert (m : List GoString) (k : GoString) : List GoString :=
  if k ∈ m then m else m ++ [k]

/-! ## Numbers -/

/-- The `float32` operations used by the query manager. -/
class GoFloat32 (F : Type) extends LinearOrder F where
  /-- the zero value -/
  zero : F
  /-- the operator `+` -/
  add : F → F → F
  /-- the operator `*` -/
  mul : F → F → F
  /-- the constant `0.1` converted to `float32` -/
  tenth : F

/-- Decimal fixed-point numbers with one fractional digit (`val / 10`), a small instance of
the `float32` interface on which the definitions can be evaluated. -/
structure Fixed where
  /-- ten times the number -/
  val : Int
deriving DecidableEq, Repr

instance : LinearOrder Fixed :=
  LinearOrder.lift' Fixed.val (fun a b h => by cases a; cases b; simp_all)

instance : GoFloat32 Fixed where
  zero := ⟨0⟩
  add a b := ⟨a.val + b.val⟩
  mul a b := ⟨a.val * b.val / 10⟩
  tenth := ⟨1⟩

/-- A finite non-negative `float64`: the number `mant * 2 ^ exp`. -/
structure Float64 where
  /-- significand -/
  mant : Nat
  /-- binary exponent -/
  exp : Int
deriving DecidableEq, Repr

/-- The quotient `P / Q` rounded to the nearest integer, ties to even. -/
def rneDiv (P Q : Nat) : Nat :=
  let q := P / Q
  let r := P % Q
  if 2 * r < Q then q else if Q < 2 * r then q + 1 else if q % 2 = 0 then q else q + 1

/-- The first `s` among `s, s + 1, ...` (at most `fuel` of them) at which `p` holds. -/
def findShift (p : Nat → Bool) : Nat → Nat → Option Nat
  | 0, _ => none
  | fuel + 1, s => if p s then some s else findShift p fuel (s + 1)

/-- IEEE 754 binary64 rounding (to nearest, ties to even) of the positive quotient `P / Q`:
the quotient is scaled by the power of two that brings it into `[2 ^ 52, 2 ^ 53)` and rounded
to an integer significand.  Zero, and quotients outside the normal range, give zero. -/
def roundQuot (P Q : Nat) : Float64 :=
  if P = 0 then { mant := 0, exp := 0 }
  else
    match findShift (fun s => 2 ^ 52 * Q ≤ P * 2 ^ s ∧ P * 2 ^ s < 2 ^ 53 * Q) 1075 0 with
    | some s => { mant := rneDiv (P * 2 ^ s) Q, exp := -(s : Int) }
    | none =>
      match findShift (fun s => 2 ^ 52 * (Q * 2 ^ s) ≤ P ∧ P < 2 ^ 53 * (Q * 2 ^ s)) 972 0 with
      | some s => { mant := rneDiv P (Q * 2 ^ s), exp := (s : Int) }
      | none => { mant := 0, exp := 0 }

/-- The conversion `float64(n)` of a non-negative integer. -/
def float64 (n : Nat) : Float64 := roundQuot n 1

/-- The `float64` division `x / y`. -/
def Float64.div (x y : Float64) : Float64 :=
  roundQuot (x.mant * 2 ^ (x.exp - y.exp).toNat) (y.mant * 2 ^ (y.exp - x.exp).toNat)

/-- Go `math.Ceil`. -/
def mathCeil (x : Float64) : Float64 :=
  if 0 ≤ x.exp then x
  else roundQuot ((x.mant + 2 ^ x.exp.natAbs - 1) / 2 ^ x.exp.natAbs) 1

/-- The conversion `int(x)`, which truncates. -/
def Float64.toInt (x : Float64) : Int :=
  if 0 ≤ x.exp then ((x.mant * 2 ^ x.exp.toNat : Nat) : Int)
  else ((x.mant / 2 ^ x.exp.natAbs : Nat) : Int)

/-! ## `sort.Sort` -/

/-- Go `sort.Sort` driven by `Less`, as an insertion sort: an element is placed before the
first element that is not `Less` than it. -/
def sortSort {α : Type} (less : α → α → Bool) (l : List α) : List α :=
  l.insertionSort (fun a b => less b a = false)

/-! ## Data model -/

/-- NB: All of these constants needs to match those in static/instant.js. -/
def packagesPerPage : Nat := 5

/-- Number of results kept per package. -/
def resultsPerPackage : Nat := 2

/-- Number of results on one page. -/
def resultsPerPage : Nat := 10

/-- The struct `Result`; of the embedded `dcsregexp.Match` the fields `Path`, `PathRank` and
`Ranking` are kept. -/
structure Result (F : Type) where
  /-- the field `Type` -/
  Type_ : GoString
  /-- the path `pkg_version/file` of the match -/
  Path : GoString
  /-- the ranking of the path, known before the file is searched -/
  PathRank : F
  /-- the ranking of the match -/
  Ranking : F
  /-- the package part of the path -/
  Package : GoString
  /-- progress messages: files processed -/
  FilesProcessed : Int
  /-- progress messages: files total -/
  FilesTotal : Int
deriving DecidableEq, Repr

/-- The zero value of `Result`. -/
def Result.zero (F : Type) [GoFloat32 F] : Result F :=
  { Type_ := [], Path := [], PathRank := GoFloat32.zero, Ranking := GoFloat32.zero,
    Package := [], FilesProcessed := 0, FilesTotal := 0 }

/-- `ByRanking.Less` on the two elements `s[i]`, `s[j]`. -/
def ByRanking.Less {F : Type} [GoFloat32 F] (a b : Result F) : Bool :=
  if a.Ranking = b.Ranking then
    -- On a tie, we use the path to make the order of results stable
    decide (a.Path > b.Path)
  else decide (a.Ranking > b.Ranking)

/-- The struct `resultPointer`; `packageName` is the string the pool pointer refers to. -/
structure resultPointer (F : Type) where
  /-- index of the backend, and of its spill file -/
  backendidx : Nat
  /-- final ranking of the result -/
  ranking : F
  /-- start of the encoded result in the spill file -/
  offset : Int
  /-- length of the encoded result -/
  length : Int
  /-- tie-breaker when sorting by ranking -/
  pathHash : Nat
  /-- package of the result -/
  packageName : GoString
deriving DecidableEq, Repr

/-- `pointerByRanking.Less` on the two elements `s[i]`, `s[j]`. -/
def pointerByRanking.Less {F : Type} [GoFloat32 F] (a b : resultPointer F) : Bool :=
  if a.ranking = b.ranking then decide (a.pathHash > b.pathHash)
  else decide (a.ranking > b.ranking)

/-- An open `*os.File`: the bytes of the file and the position of the handle. -/
structure File where
  /-- contents -/
  data : List Nat
  /-- offset of the next read or write -/
  pos : Nat
deriving DecidableEq, Repr

/-- `f.Write(b)` at the current position: bytes from the position on are overwritten, a hole
before the position is filled with zero bytes. -/
def File.write (f : File) (b : List Nat) : File :=
  { data := f.data.take f.pos ++ List.replicate (f.pos - f.data.length) 0 ++ b ++
      f.data.drop (f.pos + b.length),
    pos := f.pos + b.length }

/-- The events handed to `addEventMarshal` and `addEvent`. -/
inductive Event (F : Type) where
  /-- a result that entered the top 10 -/
  | result (r : Result F)
  /-- the struct `Pagination` -/
  | pagination (QueryId : GoString) (ResultPages : Int)
  /-- the struct `ProgressUpdate` -/
  | progressUpdate (Type_ QueryId : GoString) (FilesProcessed FilesTotal Results : Int)
  /-- the struct `Error` -/
  | error (ErrorType : GoString)
  /-- the empty event `addEvent(queryid, []byte{}, nil)` of `finishQuery` -/
  | finished
deriving DecidableEq, Repr

/-- The struct `queryState`, without clocks, locks and condition variables. -/
structure queryState (F : Type) where
  /-- event log -/
  events : List (Event F)
  /-- the array `[10]Result` -/
  results : { l : List (Result F) // l.length = 10 }
  /-- per backend: total number of files, `-1` while unknown -/
  filesTotal : List Int
  /-- per backend: number of files processed -/
  filesProcessed : List Int
  /-- number of result pages -/
  resultPages : Int
  /-- number of results -/
  numResults : Int
  /-- one spill file per backend -/
  tempFiles : List File
  /-- pointers to the results in the spill files -/
  resultPointers : List (resultPointer F)
  /-- pointers per package name -/
  resultPointersByPkg : List (GoString × List (resultPointer F))
  /-- the set of packages seen -/
  allPackages : List GoString
  /-- package names, in the order used for the per-package pages -/
  allPackagesSorted : List GoString
  /-- path ranking of the first result -/
  FirstPathRank : F
deriving DecidableEq, Repr

/-- The state that `maybeStartQuery` stores for a new query with `n` backends. -/
def freshQueryState (F : Type) [GoFloat32 F] (n : Nat) : queryState F :=
  { events := []
    results := ⟨List.replicate 10 (Result.zero F), by simp⟩
    filesTotal := List.replicate n (-1)
    filesProcessed := List.replicate n 0
    resultPages := 0
    numResults := 0
    tempFiles := List.replicate n { data := [], pos := 0 }
    resultPointers := []
    resultPointersByPkg := []
    allPackages := []
    allPackagesSorted := []
    FirstPathRank := GoFloat32.zero }

/-- `addEventMarshal(queryid, ev)`: the event is appended to the log of the query. -/
def addEventMarshal {F : Type} (g : queryState F) (ev : Event F) : queryState F :=
  { g with events := g.events ++ [ev] }

/-- `finishQuery`: the empty event that ends the stream of the query. -/
def finishQuery {F : Type} (g : queryState F) : queryState F :=
  addEventMarshal g Event.finished

/-- `failQuery`: an error event of type `failed`, then `finishQuery`. -/
def failQuery {F : Type} (g : queryState F) : queryState F :=
  finishQuery (addEventMarshal g (Event.error (str "failed")))

/-! ## Finalization: `writeToDisk` -/

/-- The two slice expressions `pkg[:underscore]` and `pkg[underscore+1:]` with
`underscore := strings.Index(pkg, "_")`: the name and the version of a package. -/
def splitPackage (pkg : GoString) : Option (GoString × GoString) :=
  let underscore := stringsIndex pkg (str "_")
  match sliceTo pkg underscore with
  | none => none
  | some name =>
    match sliceFrom pkg (underscore + 1) with
    | none => none
    | some version => some (name, version)

/-- The loop `for pkg, _ := range s.allPackages` of `writeToDisk`, over the packages in
iteration order: for each full package (i3-wm_4.8-1), store only the newest version. -/
def packageVersionsLoop :
    List GoString → List (GoString × GoString) → Option (List (GoString × GoString))
  | [], packageVersions => some packageVersions
  | pkg :: rest, packageVersions =>
    match splitPackage pkg with
    | none => none
    | some (name, version) =>
      match mapGet? packageVersions name with
      | some bestversion =>
        if version > bestversion then
          packageVersionsLoop rest (mapSet packageVersions name version)
        else packageVersionsLoop rest packageVersions
      | none => packageVersionsLoop rest (mapSet packageVersions name version)

/-- The loop `for _, pointer := range pointers` of `writeToDisk`, which saves the results into
their package-specific lists. -/
def byPkgLoop {F : Type} (packageVersions : List (GoString × GoString)) :
    List (resultPointer F) → List (GoString × List (resultPointer F)) →
      Option (List (GoString × List (resultPointer F)))
  | [], bypkg => some bypkg
  | pointer :: rest, bypkg =>
    match splitPackage pointer.packageName with
    | none => none
    | some (name, version) =>
      -- Skip this result if it is not in the newest version of the package.
      if mapGetD packageVersions name [] ≠ version then byPkgLoop packageVersions rest bypkg
      else
        let pkgresults := mapGetD bypkg name []
        if pkgresults.length ≥ resultsPerPackage then byPkgLoop packageVersions rest bypkg
        else byPkgLoop packageVersions rest (mapSet bypkg name (pkgresults ++ [pointer]))

/-- `sendPaginationUpdate(queryid, s)`, acting on the registry entry `g`. -/
def sendPaginationUpdate {F : Type} (queryid : GoString) (s g : queryState F) : queryState F :=
  if s.resultPages > 0 then addEventMarshal g (Event.pagination queryid s.resultPages) else g

/-- `writeToDisk(queryid)`.  Every return of the Go function returns the error `nil`; `none`
is a slice-out-of-range panic.  The call of `ensureEnoughSpaceAvailable` acts on the results
file system only and leaves the query state alone. -/
def writeToDisk {F : Type} [GoFloat32 F] (queryid : GoString) (g : queryState F) :
    Option (queryState F) :=
  let s := g
  let pointers := s.resultPointers
  if pointers.length = 0 then some g
  else
    let s := { s with resultPointers := [] }
    match packageVersionsLoop s.allPackages [] with
    | none => none
    | some packageVersions =>
      let packages := packageVersions.map Prod.fst
      let s := { s with allPackagesSorted := packages }
      let pointers := sortSort pointerByRanking.Less pointers
      let pages := (mathCeil ((float64 pointers.length).div (float64 resultsPerPage))).toInt
      match byPkgLoop packageVersions pointers [] with
      | none => none
      | some bypkg =>
        let s := { s with
          resultPointers := pointers, resultPointersByPkg := bypkg, resultPages := pages }
        some (sendPaginationUpdate queryid s s)

/-! ## Ingest: `storeResult` -/

/-- Go `fnv.New64()`, `Write`, `Sum64()`: the 64-bit FNV-1 hash of `data` (multiply by the
prime, then xor the byte). -/
def fnv64 (data : GoString) : Nat :=
  data.foldl (fun hash c => ((hash * 1099511628211) % 2 ^ 64) ^^^ c) 14695981039346656037

/-- What the file system does during one call of `storeResult`. -/
inductive IOOutcome where
  /-- both `Seek` calls and `Encode` succeed -/
  | ok
  /-- the first `Seek` returns an error -/
  | seekBeforeFails
  /-- `Encode` returns an error after `written` bytes reached the file -/
  | encodeFails (written : Nat)
  /-- the second `Seek` returns an error -/
  | seekAfterFails
deriving DecidableEq, Repr

/-- The first part of `storeResult`, up to the computation of the final ranking: the result
with `Type`, `Package` and `Ranking` set, and the local copy `s` of the query state.  `none` is
the panic of `result.Path[:strings.Index(result.Path, "/")]` on a path without `/`. -/
def storeResult.ranked {F : Type} [GoFloat32 F] (g : queryState F) (result : Result F) :
    Option (Result F × queryState F) :=
  let result := { result with Type_ := str "result" }
  match sliceTo result.Path (stringsIndex result.Path (str "/")) with
  | none => none
  | some pkg =>
    let result := { result with Package := pkg }
    let s := g
    if s.FirstPathRank > GoFloat32.zero then
      -- Now store the combined ranking of PathRanking (pre) and Ranking (post).
      some ({ result with
        Ranking := GoFloat32.add result.PathRank
          (GoFloat32.mul (GoFloat32.mul s.FirstPathRank GoFloat32.tenth) result.Ranking) }, s)
    else some (result, { s with FirstPathRank := result.PathRank })

/-- The statements `combined := append(s.results[:], result)`,
`sort.Sort(ByRanking(combined))`, `copy(s.results[:], combined[:10])`. -/
def storeResult.top10 {F : Type} [GoFloat32 F] (results : { l : List (Result F) // l.length = 10 })
    (result : Result F) : { l : List (Result F) // l.length = 10 } :=
  ⟨(sortSort ByRanking.Less (results.val ++ [result])).take 10, by
    simp [sortSort, List.length_insertionSort, results.property]⟩

/-- The element `s.results[9]`, the worst of the top 10. -/
def queryState.worst {F : Type} (s : queryState F) : Result F :=
  s.results.val.get ⟨9, by simp [s.results.property]⟩

/-- The middle part of `storeResult`: the result is considered for the top 10.  `g` is the
registry entry, `s` the local copy made at the start of the call; `state[queryid] = s` is
executed only when the result enters the top 10. -/
def storeResult.consider {F : Type} [GoFloat32 F] (g s : queryState F) (result : Result F) :
    queryState F :=
  let worst := s.worst
  if result.Ranking > worst.Ranking then
    -- The result entered the top 10, so send it to the client(s).
    addEventMarshal { s with results := storeResult.top10 s.results result }
      (Event.result result)
  else g

/-- The last part of `storeResult`: the result is written to the spill file of its backend
and the pointer to it is recorded.  `encode` is the JSON encoding written by
`json.NewEncoder(file).Encode`, `io` says which of the file operations fail; `none` is the
panic of `tempFiles[backendidx]`. -/
def storeResult.spill {F : Type} (encode : Result F → List Nat) (backendidx : Nat)
    (result : Result F) (io : IOOutcome) (g : queryState F) : Option (queryState F) :=
  match g.tempFiles[backendidx]? with
  | none => none
  | some file =>
    match io with
    | IOOutcome.seekBeforeFails => some (failQuery g)
    | IOOutcome.encodeFails written =>
      some (failQuery { g with
        tempFiles := g.tempFiles.set backendidx (file.write ((encode result).take written)) })
    | IOOutcome.seekAfterFails =>
      some (failQuery { g with
        tempFiles := g.tempFiles.set backendidx (file.write (encode result)) })
    | IOOutcome.ok =>
      let tmpOffset : Int := file.pos
      let file := file.write (encode result)
      let offsetAfterWriting : Int := file.pos
      let s := { g with tempFiles := g.tempFiles.set backendidx file }
      some { s with
        resultPointers := s.resultPointers ++
          [{ backendidx := backendidx
             ranking := result.Ranking
             offset := tmpOffset
             length := offsetAfterWriting - tmpOffset
             pathHash := fnv64 result.Path
             packageName := result.Package }]
        allPackages := setInsert s.allPackages result.Package
        numResults := s.numResults + 1 }

/-- `storeResult(queryid, backendidx, result)` on the registry entry `g` of the query; `none`
is a panic. -/
def storeResult {F : Type} [GoFloat32 F] (encode : Result F → List Nat) (backendidx : Nat)
    (result : Result F) (io : IOOutcome) (g : queryState F) : Option (queryState F) :=
  match storeResult.ranked g result with
  | none => none
  | some (result, s) =>
    storeResult.spill encode backendidx result io (storeResult.consider g s result)

/-! ## Progress: `storeProgress` -/

/-- The loop `for i := 0; i < len(backends); i++` of `storeProgress` from index `i` with `n`
rounds left: `allSet`, or `none` for an index out of range. -/
def storeProgress.allSet (filesTotal : List Int) : Nat → Nat → Option Bool
  | 0, _ => some true
  | n + 1, i =>
    match filesTotal[i]? with
    | none => none
    | some total => if total = -1 then some false else storeProgress.allSet filesTotal n (i + 1)

/-- `storeProgress(queryid, backendidx, progress)` on the registry entry `g`; `backends` is
`len(strings.Split(*common.SourceBackends, ","))`. -/
def storeProgress {F : Type} [GoFloat32 F] (backends : Nat) (queryid : GoString)
    (backendidx : Nat) (progress : Result F) (g : queryState F) : Option (queryState F) :=
  let s := g
  if s.filesTotal.length ≤ backendidx then none
  else
    let g := { g with filesTotal := g.filesTotal.set backendidx progress.FilesTotal }
    match storeProgress.allSet g.filesTotal backends 0 with
    | none => none
    | some allSet =>
      if g.filesProcessed.length ≤ backendidx then none
      else
        let g := { g with
          filesProcessed := g.filesProcessed.set backendidx progress.FilesProcessed }
        let filesProcessed := g.filesProcessed.sum
        let filesTotal := g.filesTotal.sum
        let written :=
          if allSet = true ∧ filesProcessed = filesTotal then writeToDisk queryid g else some g
        match written with
        | none => none
        | some g =>
          if allSet = true then
            let g := addEventMarshal g (Event.progressUpdate progress.Type_ queryid
              filesProcessed filesTotal s.numResults)
            if filesProcessed = filesTotal then some (finishQuery g) else some g
          else some g

/-! ## Pages: `writeFromPointers` -/

/-- What `writeFromPointers` leaves behind: the spill files with their handles moved, the
bytes written to `f`, and whether an error is returned. -/
structure Written where
  /-- the spill files after the call -/
  tempFiles : List File
  /-- everything written to the writer `f` -/
  out : List Nat
  /-- whether the returned error is non-nil -/
  err : Bool
deriving DecidableEq, Repr

/-- The loop `for idx, pointer := range pointers` of `writeFromPointers`.  The writer `f` is a
buffer whose `Write` succeeds. -/
def writeFromPointers.loop {F : Type} (tempFiles : List File) (f : List Nat) :
    List (resultPointer F) → Nat → Option Written
  | [], _ => some { tempFiles := tempFiles, out := f, err := false }
  | pointer :: rest, idx =>
    match tempFiles[pointer.backendidx]? with
    | none => none
    | some src =>
      -- src.Seek(pointer.offset, os.SEEK_SET)
      if pointer.offset < 0 then some { tempFiles := tempFiles, out := f, err := true }
      else
        let src := { src with pos := pointer.offset.toNat }
        let f := if idx > 0 then f ++ str "," else f
        -- io.CopyN(f, src, pointer.length)
        let copied := (src.data.drop src.pos).take pointer.length.toNat
        let src := { src with pos := src.pos + copied.length }
        let tempFiles := tempFiles.set pointer.backendidx src
        let f := f ++ copied
        if (copied.length : Int) < pointer.length then
          some { tempFiles := tempFiles, out := f, err := true }
        else writeFromPointers.loop tempFiles f rest (idx + 1)

/-- `writeFromPointers(queryid, f, pointers)` with the spill files `tempFiles` of the query
and the bytes `f` already written to the writer; `none` is a panic. -/
def writeFromPointers {F : Type} (tempFiles : List File) (f : List Nat)
    (pointers : List (resultPointer F)) : Option Written :=
  match writeFromPointers.loop tempFiles (f ++ str "[") pointers 0 with
  | none => none
  | some w => if w.err then some w else some { w with out := w.out ++ str "]\n" }

/-! ## Predicates and sample data used in the statements -/

/-- Every package of the query has the form `name_version`: it contains the byte `_`. -/
def PackagesWellFormed {F : Type} (g : queryState F) : Prop :=
  (∀ pkg ∈ g.allPackages, 95 ∈ pkg) ∧ (∀ p ∈ g.resultPointers, 95 ∈ p.packageName)

/-- The state that `writeToDisk` stores before it sends the pagination update. -/
def writtenState {F : Type} [GoFloat32 F] (g : queryState F)
    (pv : List (GoString × GoString)) (bypkg : List (GoString × List (resultPointer F))) :
    queryState F :=
  { g with
    allPackagesSorted := pv.map Prod.fst
    resultPointers := sortSort pointerByRanking.Less g.resultPointers
    resultPointersByPkg := bypkg
    resultPages :=
      (mathCeil ((float64 g.resultPointers.length).div (float64 resultsPerPage))).toInt }

/-- The order of two result pointers in the sorted list: ranking descending, ties broken by
pathHash descending. -/
def RankedBefore {F : Type} [GoFloat32 F] (p q : resultPointer F) : Prop :=
  p.ranking > q.ranking ∨ (p.ranking = q.ranking ∧ p.pathHash ≥ q.pathHash)

/-- A query with three results in two packages, on the fixed-point numbers. -/
def sampleState : queryState Fixed :=
  { freshQueryState Fixed 2 with
    resultPointers :=
      [ { backendidx := 0, ranking := ⟨5⟩, offset := 0, length := 2, pathHash := 7,
          packageName := str "foo_9" },
        { backendidx := 1, ranking := ⟨8⟩, offset := 0, length := 3, pathHash := 3,
          packageName := str "foo_10" },
        { backendidx := 0, ranking := ⟨5⟩, offset := 2, length := 2, pathHash := 9,
          packageName := str "foo_9" } ]
    allPackages := [str "foo_9", str "foo_10"]
    tempFiles := [{ data := [1, 2, 3, 4], pos := 4 }, { data := [5, 6, 7], pos := 3 }]
    numResults := 3 }

/-- A sample JSON encoding: the path between braces, followed by a newline. -/
def sampleEncode (r : Result Fixed) : List Nat := [123] ++ r.Path ++ [125, 10]

/-- A sample result of the package `foo_9`. -/
def sampleResult : Result Fixed :=
  { Type_ := [], Path := str "foo_9/a.c", PathRank := ⟨20⟩, Ranking := ⟨70⟩, Package := [],
    FilesProcessed := 0, FilesTotal := 0 }

/-- A query with two backends whose first path rank is recorded. -/
def sampleRunning : queryState Fixed :=
  { freshQueryState Fixed 2 with FirstPathRank := ⟨30⟩ }

/-- The rankings `l` in descending order. -/
def sortDescending {F : Type} [LinearOrder F] (l : List F) : List F :=
  l.insertionSort (fun a b => a ≥ b)

/-- Whether an event is a `result` event. -/
def Event.isResult {F : Type} : Event F → Bool
  | Event.result _ => true
  | _ => false

/-- The record of one call of `storeResult`: the backend, the result as ranked by the call,
and what the file system did. -/
structure Call (F : Type) where
  /-- the argument `backendidx` -/
  backendidx : Nat
  /-- the result with `Type`, `Package` and the final `Ranking` set -/
  ranked : Result F
  /-- the outcome of the file operations -/
  io : IOOutcome

/-- The states that calls of `storeResult`, executed one after another, reach from the state
of a new query, together with the records of the calls (the newest first). -/
inductive Handled {F : Type} [GoFloat32 F] (encode : Result F → List Nat) :
    queryState F → List (Call F) → Prop where
  /-- the state of a new query with `n` backends -/
  | fresh (n : Nat) : Handled encode (freshQueryState F n) []
  /-- one more call of `storeResult`, which ranks `result` as `ranked` -/
  | store {g g' s : queryState F} {calls : List (Call F)} {backendidx : Nat}
      {result ranked : Result F} {io : IOOutcome} :
      Handled encode g calls →
      storeResult.ranked g result = some (ranked, s) →
      storeResult encode backendidx result io g = some g' →
      Handled encode g' ({ backendidx := backendidx, ranked := ranked, io := io } :: calls)

/-- The final rankings of the results handled by the calls. -/
def Call.rankings {F : Type} (calls : List (Call F)) : List F :=
  calls.map (fun c => c.ranked.Ranking)

/-- The calls that recorded a pointer, the oldest first. -/
def Call.stored {F : Type} (calls : List (Call F)) : List (Call F) :=
  calls.reverse.filter (fun c => decide (c.io = IOOutcome.ok))

/-- The sample result as ranked by the first call of `storeResult` of a query. -/
def sampleRanked : Result Fixed :=
  { sampleResult with Type_ := str "result", Package := str "foo_9" }

/-- The state after `storeResult` has handled the sample result on a new query with two
backends, for the backend 1. -/
def sampleStored : queryState Fixed :=
  (storeResult sampleEncode 1 sampleResult IOOutcome.ok (freshQueryState Fixed 2)).getD
    (freshQueryState Fixed 2)

/-- The registry entry after `storeProgress` has recorded the update of one backend. -/
def recordProgress {F : Type} (backendidx : Nat) (progress : Result F) (g : queryState F) :
    queryState F :=
  { g with
    filesTotal := g.filesTotal.set backendidx progress.FilesTotal
    filesProcessed := g.filesProcessed.set backendidx progress.FilesProcessed }

/-- A progress message of a backend: 5 of 5 files. -/
def sampleProgress : Result Fixed :=
  { Result.zero Fixed with Type_ := str "progress", FilesProcessed := 5, FilesTotal := 5 }

/-- The versions of the packages of the list `pkgs` with the name `name`, in list order. -/
def versionsOf (pkgs : List GoString) (name : GoString) : List GoString :=
  pkgs.filterMap (fun pkg =>
    match splitPackage pkg with
    | some (n, v) => if n = name then some v else none
    | none => none)

/-- One round of the loop over the packages, for one name: the best version so far is
replaced by a version that is greater. -/
def pickVersion (best : Option GoString) (version : GoString) : Option GoString :=
  match best with
  | some bestversion => if version > bestversion then some version else some bestversion
  | none => some version

/-- Whether the pointer `p` passes the test of the per-package loop of `writeToDisk` for the
package name `name`: its package has that name and the version stored for the name. -/
def inNewestVersion {F : Type} (packageVersions : List (GoString × GoString))
    (name : GoString) (p : resultPointer F) : Bool :=
  match splitPackage p.packageName with
  | some (n, v) => decide (n = name ∧ mapGetD packageVersions n [] = v)
  | none => false

/-- Whether the pointer `p` belongs to the package `name` in the version selected as newest
for that name. -/
def inSelectedVersion {F : Type} (packageVersions : List (GoString × GoString))
    (name : GoString) (p : resultPointer F) : Bool :=
  match mapGet? packageVersions name with
  | some version => decide (splitPackage p.packageName = some (name, version))
  | none => false

/-- The progress message of a backend that has nothing to search: 0 of 0 files. -/
def sampleDone : Result Fixed :=
  { Result.zero Fixed with Type_ := str "progress" }

/-- The bytes of the spill file of `p` in the range of `p`. -/
def regionOf {F : Type} (tempFiles : List File) (p : resultPointer F) : List Nat :=
  match tempFiles[p.backendidx]? with
  | some file => (file.data.drop p.offset.toNat).take p.length.toNat
  | none => []

/-- The byte range of `p` lies inside the spill file of its backend. -/
def InsideFile {F : Type} (tempFiles : List File) (p : resultPointer F) : Prop :=
  ∃ file, tempFiles[p.backendidx]? = some file ∧ 0 ≤ p.offset ∧ 0 ≤ p.length ∧
    p.offset + p.length ≤ (file.data.length : Int)

/-- The byte range of `p` is not empty and extends past the end of the spill file of its
backend. -/
def PastEnd {F : Type} (tempFiles : List File) (p : resultPointer F) : Prop :=
  ∃ file, tempFiles[p.backendidx]? = some file ∧ 0 ≤ p.offset ∧ 0 < p.length ∧
    (file.data.length : Int) < p.offset + p.length

/-- The regions `rs`, with a `,` before each one except the one of index 0, where `idx` is
the index of the first. -/
def commaJoined (idx : Nat) : List (List Nat) → List Nat
  | [] => []
  | r :: rs => (if idx > 0 then str "," else []) ++ r ++ commaJoined (idx + 1) rs

/-- The record of the call that leads to `sampleStored`. -/
def sampleCalls : List (Call Fixed) :=
  [{ backendidx := 1, ranked := sampleRanked, io := IOOutcome.ok }]

/-- The pointer `p` is the record of the call `c`: it names the backend of the call, and its
byte range lies inside the spill file of that backend, has the length of the encoding of the
result and holds that encoding. -/
def PointsTo {F : Type} (encode : Result F → List Nat) (tempFiles : List File)
    (p : resultPointer F) (c : Call F) : Prop :=
  p.backendidx = c.backendidx ∧ p.ranking = c.ranked.Ranking ∧ InsideFile tempFiles p ∧
    p.length = ((encode c.ranked).length : Int) ∧ regionOf tempFiles p = encode c.ranked

/-- The byte range of `p` ends before the byte range of `q` starts, when both belong to the
same backend. -/
def EndsBefore {F : Type} (p q : resultPointer F) : Prop :=
  p.backendidx = q.backendidx → p.offset + p.length ≤ q.offset

/-- The handle of every spill file stands at the end of the file. -/
def AtEnd (tempFiles : List File) : Prop :=
  ∀ file ∈ tempFiles, file.pos = file.data.length

/-- Go `fnv.New64a()`, `Write`, `Sum64()`: the 64-bit FNV-1a hash of `data` (xor the byte, then
multiply by the prime). -/
def fnv64a (data : GoString) : Nat :=
  data.foldl (fun hash c => ((hash ^^^ c) * 1099511628211) % 2 ^ 64) 14695981039346656037

/-- A result pointer with the ranking `ranking` and the hash that `storeResult` records for
the path `path`. -/
def pointerAt {F : Type} (ranking : F) (path : GoString) : resultPointer F :=
  { backendidx := 0, ranking := ranking, offset := 0, length := 0, pathHash := fnv64 path,
    packageName := [] }

/-- The state after `storeResult` has handled the sample result three times on a new query
with two backends: two more matches in the file of the first. -/
def sampleStoredThrice : queryState Fixed :=
  ((storeResult sampleEncode 1 sampleResult IOOutcome.ok sampleStored).bind
    (storeResult sampleEncode 1 sampleResult IOOutcome.ok)).getD (freshQueryState Fixed 2)

/-- A first result whose content ranking is 0: path rank 2.0. -/
def sampleUnranked : Result Fixed :=
  { Type_ := [], Path := str "foo_9/a.c", PathRank := ⟨20⟩, Ranking := ⟨0⟩, Package := [],
    FilesProcessed := 0, FilesTotal := 0 }

/-- A second result: path rank 3.0, content ranking 7.0. -/
def sampleSecond : Result Fixed :=
  { Type_ := [], Path := str "foo_9/b.c", PathRank := ⟨30⟩, Ranking := ⟨70⟩, Package := [],
    FilesProcessed := 0, FilesTotal := 0 }

/-! ## Backends: `queryBackend` -/

/-- How the connection of `queryBackend` to its backend goes: the dial fails, sending the
query fails, or the messages `messages` are decoded and handled before the loop ends (by the
end of the stream, a decoding error, or the `done` flag of the query); each message has the
outcome of the file operations of its `storeResult` call. -/
inductive Connection (F : Type) where
  /-- `net.DialTimeout` returns an error -/
  | dialFails
  /-- `conn.Write(sourceQuery)` returns an error -/
  | writeFails
  /-- the messages handled by the loop -/
  | stream (messages : List (Result F × IOOutcome))

/-- The deferred function of `queryBackend`: when exiting, check that all results were
processed; if not, send a progress update to prevent the query from running forever. -/
def queryBackend.deferred {F : Type} [GoFloat32 F] (backends : Nat) (queryid : GoString)
    (backendidx : Nat) (g : queryState F) : Option (queryState F) :=
  match g.filesTotal[backendidx]? with
  | none => none
  | some filesTotal =>
    match g.filesProcessed[backendidx]? with
    | none => none
    | some processed =>
      if processed = filesTotal then some g
      else
        let filesTotal := if filesTotal = -1 then 0 else filesTotal
        match storeProgress backends queryid backendidx
            { Result.zero F with
              Type_ := str "progress", FilesProcessed := filesTotal, FilesTotal := filesTotal }
            g with
        | none => none
        | some g => some (addEventMarshal g (Event.error (str "backendunavailable")))

/-- The loop of `queryBackend` over the decoded messages: results go to `storeResult`,
progress messages to `storeProgress`. -/
def queryBackend.receive {F : Type} [GoFloat32 F] (encode : Result F → List Nat)
    (backends : Nat) (queryid : GoString) (backendidx : Nat) :
    List (Result F × IOOutcome) → queryState F → Option (queryState F)
  | [], g => some g
  | (r, io) :: rest, g =>
    if r.Type_ = str "result" then
      match storeResult encode backendidx r io g with
      | none => none
      | some g => queryBackend.receive encode backends queryid backendidx rest g
    else if r.Type_ = str "progress" then
      match storeProgress backends queryid backendidx r g with
      | none => none
      | some g => queryBackend.receive encode backends queryid backendidx rest g
    else queryBackend.receive encode backends queryid backendidx rest g

/-- The body of `queryBackend`, up to its return. -/
def queryBackend.body {F : Type} [GoFloat32 F] (encode : Result F → List Nat)
    (backends : Nat) (queryid : GoString) (backendidx : Nat) (conn : Connection F)
    (g : queryState F) : Option (queryState F) :=
  match conn with
  | Connection.dialFails => some g
  | Connection.writeFails => some g
  | Connection.stream messages =>
    queryBackend.receive encode backends queryid backendidx messages g

/-- `queryBackend(queryid, backend, backendidx, sourceQuery)` on the registry entry `g`: the
body, then the deferred function. -/
def queryBackend {F : Type} [GoFloat32 F] (encode : Result F → List Nat) (backends : Nat)
    (queryid : GoString) (backendidx : Nat) (conn : Connection F) (g : queryState F) :
    Option (queryState F) :=
  match queryBackend.body encode backends queryid backendidx conn g with
  | none => none
  | some g => queryBackend.deferred backends queryid backendidx g

/-- The progress message that the deferred function of `queryBackend` synthesizes for a
backend whose total is `total`. -/
def synthesizedProgress (F : Type) [GoFloat32 F] (total : Int) : Result F :=
  { Result.zero F with
    Type_ := str "progress"
    FilesProcessed := if total = -1 then 0 else total
    FilesTotal := if total = -1 then 0 else total }

/-! ## The query registry: `maybeStartQuery` -/

/-- Modelled from the spec: the flag `done` of a query, which `addEvent` (in another file of
the package) sets when `finishQuery` hands it the empty event ("a cancel request marks the
query done"). -/
def queryState.done {F : Type} [GoFloat32 F] (s : queryState F) : Bool :=
  decide (Event.finished ∈ s.events)

/-- An entry of the registry `state`: the fields `started` (in nanoseconds) and `query` of
`queryState`, and the rest of it. -/
structure registryEntry (F : Type) where
  /-- the time `started`, in nanoseconds -/
  started : Int
  /-- the search query -/
  query : GoString
  /-- the other fields -/
  s : queryState F
deriving DecidableEq, Repr

/-- The statement `delete(m, k)`. -/
def mapDelete {V : Type} (m : List (GoString × V)) (k : GoString) : List (GoString × V) :=
  m.filter (fun kv => decide (kv.1 ≠ k))

/-- The duration `30*time.Minute`, in nanoseconds. -/
def thirtyMinutes : Int := 30 * 60 * 1000000000

/-- The state that `maybeStartQuery` stores at first for a new query with `n` backends, before
the totals are set to `-1` and the spill files are created.  A handle that is still nil is
shown as the empty file at position 0. -/
def startedQueryState (F : Type) [GoFloat32 F] (n : Nat) : queryState F :=
  { freshQueryState F n with filesTotal := List.replicate n 0 }

/-- What the environment does during one call of `maybeStartQuery`. -/
structure StartEnv where
  /-- `os.MkdirAll(dir)` returns an error -/
  mkdirFails : Bool
  /-- `ensureEnoughSpaceAvailable` ends the process with `log.Fatal` -/
  spaceCheckFatal : Bool
  /-- the index of the backend whose `os.Create(path)` returns an error, if any -/
  createFailsAt : Option Nat
  /-- `url.Parse` or `json.Marshal` returns an error, and `log.Fatal` ends the process -/
  rewriteFatal : Bool
deriving DecidableEq, Repr

/-- How a call of `maybeStartQuery` ends. -/
inductive Started (F : Type) where
  /-- the call returns `running` and leaves the registry `state`, after `go queryBackend(...)`
  for the backends `backends` -/
  | returned (running : Bool) (state : List (GoString × registryEntry F))
      (backends : List Nat)
  /-- the process is ended by `log.Fatal` -/
  | fatal
  /-- the call never returns: it waits for `stateMu`, which it holds itself; `state` is the
  registry at that time -/
  | blocked (state : List (GoString × registryEntry F))
deriving DecidableEq, Repr

/-- The garbage collection loop `for queryid, s := range state` of `maybeStartQuery` over the
entries still to visit, in iteration order; `state` is the registry as it is now. -/
def maybeStartQuery.collect {F : Type} [GoFloat32 F] :
    List (GoString × registryEntry F) → List (GoString × registryEntry F) →
      List (GoString × registryEntry F)
  | [], state => state
  | (queryid, s) :: rest, state =>
    if state.length < 10 then state
    else if !s.s.done then maybeStartQuery.collect rest state
    else maybeStartQuery.collect rest (mapDelete state queryid)

/-- The loop `for i := 0; i < len(backends); i++` of `maybeStartQuery` from index `i` with `n`
rounds left: the state of the query, and whether all files were created. -/
def maybeStartQuery.createFiles {F : Type} (createFailsAt : Option Nat) :
    Nat → Nat → queryState F → queryState F × Bool
  | 0, _, s => (s, true)
  | n + 1, i, s =>
    let s := { s with filesTotal := s.filesTotal.set i (-1) }
    if createFailsAt = some i then (s, false)
    else
      maybeStartQuery.createFiles createFailsAt n (i + 1)
        { s with tempFiles := s.tempFiles.set i { data := [], pos := 0 } }

/-- `maybeStartQuery(queryid, src, query)` at the time `now` with `backends` backends, on the
registry `state`.  The function holds `stateMu` from its first statement to its return; the
iteration order of `range state` is the order of the list. -/
def maybeStartQuery {F : Type} [GoFloat32 F] (backends : Nat) (now : Int) (env : StartEnv)
    (queryid query : GoString) (state : List (GoString × registryEntry F)) : Started F :=
  let running := (mapGet? state queryid).isSome
  let stale :=
    match mapGet? state queryid with
    | some querystate => decide (now - querystate.started > thirtyMinutes)
    | none => false
  if !running || stale then
    -- See if we can garbage-collect old queries.
    let state :=
      if !running && decide (state.length ≥ 10) then maybeStartQuery.collect state state
      else state
    let entry : registryEntry F :=
      { started := now, query := query, s := startedQueryState F backends }
    if env.mkdirFails then
      -- failQuery(queryid): finishQuery locks stateMu, which this call holds
      Started.blocked (mapSet state queryid entry)
    else if env.spaceCheckFatal then Started.fatal
    else
      match maybeStartQuery.createFiles env.createFailsAt backends 0 entry.s with
      | (s, false) =>
        -- failQuery(queryid): finishQuery locks stateMu, which this call holds
        Started.blocked (mapSet state queryid { entry with s := s })
      | (s, true) =>
        if env.rewriteFatal then Started.fatal
        else Started.returned false (mapSet state queryid { entry with s := s })
          (List.range backends)
  else Started.returned true state []

/-- An environment in which nothing fails. -/
def StartEnv.ok : StartEnv :=
  { mkdirFails := false, spaceCheckFatal := false, createFailsAt := none, rewriteFatal := false }

/-- A registry entry started at `started` that is finished (`done`) or not. -/
def sampleEntry (started : Int) (done : Bool) : registryEntry Fixed :=
  { started := started, query := str "i3Font"
    s := if done then finishQuery (freshQueryState Fixed 2) else freshQueryState Fixed 2 }

/-- A registry with ten entries: the finished queries `b`, started at 2, and `a`, started
at 1, which come first and second when the map is iterated, and eight running queries. -/
def sampleRegistry : List (GoString × registryEntry Fixed) :=
  [(str "b", sampleEntry 2 true), (str "a", sampleEntry 1 true)] ++
    (List.range 8).map (fun i => ([i], sampleEntry 3 false))

/-- The keys of the first `state.length - 9` finished queries of the registry, in iteration
order. -/
def collected {F : Type} [GoFloat32 F] (state : List (GoString × registryEntry F)) :
    List GoString :=
  ((state.filter (fun kv => kv.2.s.done)).map (fun kv => kv.1)).take (state.length - 9)

/-! ## Space management: `ensureEnoughSpaceAvailable` -/

/-- The `float64` multiplication `x * y`. -/
def Float64.mul (x y : Float64) : Float64 :=
  roundQuot (x.mant * y.mant * 2 ^ (x.exp + y.exp).toNat) (2 ^ (-(x.exp + y.exp)).toNat)

/-- The constant `0.2` as a `float64`: the decimal `2/10`, rounded. -/
def fifth : Float64 := roundQuot 2 10

/-- The expression `uint64(0.2 * float64(total))`; the product is below `2 ^ 64` for every
`uint64` total, so the conversion only truncates. -/
def headroom (total : Nat) : Nat :=
  (fifth.mul (float64 total)).toInt.toNat

/-- The fields of `syscall.Statfs_t` that `fsBytes` reads. -/
structure Statfs_t where
  /-- free blocks available to unprivileged users -/
  Bavail : Nat
  /-- total data blocks in the file system -/
  Blocks : Nat
  /-- block size -/
  Bsize : Nat
deriving DecidableEq, Repr

/-- The fields of `os.FileInfo` that `ensureEnoughSpaceAvailable` reads. -/
structure FileInfo where
  /-- `Name()` -/
  name : GoString
  /-- `IsDir()` -/
  isDir : Bool
  /-- `ModTime()`, in nanoseconds -/
  modTime : Int
deriving DecidableEq, Repr

/-- `ByModTime.Less`: `s[i].ModTime().Before(s[j].ModTime())`. -/
def ByModTime.Less (a b : FileInfo) : Bool :=
  decide (a.modTime < b.modTime)

/-- The file system of the results path, as `ensureEnoughSpaceAvailable` sees it. -/
structure SpaceEnv where
  /-- `syscall.Statfs(path, &stat)` after the directories named have been removed, in the
  order of their removal; `none` is an error -/
  statfs : List GoString → Option Statfs_t
  /-- `os.Open(*queryResultsPath)` and `dir.Readdir(-1)`; `none` is an error of either -/
  readdir : Option (List FileInfo)
  /-- `os.RemoveAll` returns an error for the directory of this name -/
  removeFails : GoString → Bool

/-- `fsBytes(path)` after the directories `removed` have been removed: available and total
bytes (in `uint64`); `none` is the end of the process by `log.Fatal`. -/
def fsBytes (env : SpaceEnv) (removed : List GoString) : Option (Nat × Nat) :=
  match env.statfs removed with
  | none => none
  | some stat =>
    some ((stat.Bavail * stat.Bsize) % 2 ^ 64, (stat.Blocks * stat.Bsize) % 2 ^ 64)

/-- How a call of `ensureEnoughSpaceAvailable` ends. -/
structure Cleanup where
  /-- the names of the directories removed, in the order of their removal -/
  deleted : List GoString
  /-- the call returns; `false` is the end of the process by `log.Fatal` -/
  returned : Bool
deriving DecidableEq, Repr

/-- The loop `for _, info := range infos` of `ensureEnoughSpaceAvailable`, after the
directories `deleted` have been removed. -/
def ensureEnoughSpaceAvailable.loop (env : SpaceEnv) (headroom : Nat) :
    List FileInfo → List GoString → Cleanup
  | [], deleted => { deleted := deleted, returned := true }
  | info :: rest, deleted =>
    if !info.isDir then ensureEnoughSpaceAvailable.loop env headroom rest deleted
    else if env.removeFails info.name then { deleted := deleted, returned := false }
    else
      match fsBytes env (deleted ++ [info.name]) with
      | none => { deleted := deleted ++ [info.name], returned := false }
      | some (available, _) =>
        if available ≥ headroom then { deleted := deleted ++ [info.name], returned := true }
        else ensureEnoughSpaceAvailable.loop env headroom rest (deleted ++ [info.name])

/-- `ensureEnoughSpaceAvailable()`: makes sure 20% of the filesystem backing
-query_results_path are available, cleans up old query results otherwise. -/
def ensureEnoughSpaceAvailable (env : SpaceEnv) : Cleanup :=
  match fsBytes env [] with
  | none => { deleted := [], returned := false }
  | some (available, total) =>
    let headroom := headroom total
    if available ≥ headroom then { deleted := [], returned := true }
    else
      match env.readdir with
      | none => { deleted := [], returned := false }
      | some infos =>
        ensureEnoughSpaceAvailable.loop env headroom (sortSort ByModTime.Less infos) []

/-- The available bytes that `fsBytes` reports after the directories `removed` have been
removed (0 if it fails). -/
def availableAfter (env : SpaceEnv) (removed : List GoString) : Nat :=
  ((fsBytes env removed).map Prod.fst).getD 0

/-- The names of the directories among `infos`, in the order of the list. -/
def directories (infos : List FileInfo) : List GoString :=
  (infos.filter (fun info => info.isDir)).map (fun info => info.name)

/-- The entries of a results path: the file `f` and the directories `new`, `old` and `mid`,
modified at 30, 10 and 20. -/
def sampleInfos : List FileInfo :=
  [{ name := str "new", isDir := true, modTime := 30 },
   { name := str "f", isDir := false, modTime := 5 },
   { name := str "old", isDir := true, modTime := 10 },
   { name := str "mid", isDir := true, modTime := 20 }]

/-- A results path with the sample entries on a file system of 1000 blocks of 4096 bytes, of
which 100 are available at first and 60 more after each removal. -/
def sampleSpace : SpaceEnv :=
  { statfs := fun removed =>
      some { Bavail := 100 + 60 * removed.length, Blocks := 1000, Bsize := 4096 }
    readdir := some sampleInfos
    removeFails := fun _ => false }

/-! ## The importer: `server.Merge` -/

/-- The error text of a `Merge` request that finds the semaphore taken. -/
def mergeBusy : GoString := str "Merge already in progress, please try again later."

/-- Where a call of `server.Merge` stands. -/
inductive MergeCall where
  /-- the send on `mergesem` was chosen; `mergeToShard` has not started yet -/
  | acquired
  /-- `mergeToShard` is running -/
  | merging
  /-- `mergeToShard` has returned `err`; the deferred release has not run yet -/
  | merged (err : Option GoString)
  /-- the call has returned `err` -/
  | replied (err : Option GoString)
deriving DecidableEq, Repr

/-- The call holds the semaphore: it has sent on `mergesem` and not yet received. -/
def MergeCall.holds : MergeCall → Bool
  | MergeCall.acquired => true
  | MergeCall.merging => true
  | MergeCall.merged _ => true
  | MergeCall.replied _ => false

/-- The importer `server` with its `Merge` calls. -/
structure server where
  /-- the number of elements in the channel `mergesem`, which `main` makes with capacity 1 -/
  mergesem : Nat
  /-- the calls of `Merge` so far, in the order of their arrival -/
  merges : List MergeCall
deriving DecidableEq, Repr

/-- The server that `main` registers: `mergesem: make(chan struct{}, 1)`, no call yet. -/
def server.new : server := { mergesem := 0, merges := [] }

/-- What happens next in the importer. -/
inductive MergeAction where
  /-- a `Merge` request arrives and executes its `select` -/
  | request
  /-- the call number `i` calls `mergeToShard` -/
  | start (i : Nat)
  /-- `mergeToShard` returns `err` to the call number `i` -/
  | mergeReturns (i : Nat) (err : Option GoString)
  /-- the call number `i` runs its deferred `<-s.mergesem` and returns -/
  | release (i : Nat)
deriving DecidableEq, Repr

/-- The `select` of `Merge`: the send on `mergesem` if the channel has room, else the
`default` case, which returns the error at once. -/
def server.Merge.select (s : server) : server :=
  if s.mergesem < 1 then
    { mergesem := s.mergesem + 1, merges := s.merges ++ [MergeCall.acquired] }
  else { s with merges := s.merges ++ [MergeCall.replied (some mergeBusy)] }

/-- One step of the importer; `none` when the action cannot happen in this state (a receive
on the empty channel would block). -/
def server.step (s : server) : MergeAction → Option server
  | MergeAction.request => some (server.Merge.select s)
  | MergeAction.start i =>
    if s.merges[i]? = some MergeCall.acquired then
      some { s with merges := s.merges.set i MergeCall.merging }
    else none
  | MergeAction.mergeReturns i err =>
    if s.merges[i]? = some MergeCall.merging then
      some { s with merges := s.merges.set i (MergeCall.merged err) }
    else none
  | MergeAction.release i =>
    match s.merges[i]? with
    | some (MergeCall.merged err) =>
      if 0 < s.mergesem then
        some { mergesem := s.mergesem - 1, merges := s.merges.set i (MergeCall.replied err) }
      else none
    | _ => none

/-- The states of the importer that can be reached from the new server. -/
inductive Reachable : server → Prop where
  /-- the server as `main` registers it -/
  | new : Reachable server.new
  /-- one more step -/
  | step (s : server) (a : MergeAction) (s' : server) :
      Reachable s → s.step a = some s' → Reachable s'

/-- The steps `actions`, one after the other. -/
def server.run : List MergeAction → server → Option server
  | [], s => some s
  | a :: rest, s =>
    match s.step a with
    | none => none
    | some s' => server.run rest s'

/-- An importer in which the first `Merge` call runs `mergeToShard` and a second one has been
turned away. -/
def sampleServer : server :=
  { mergesem := 1, merges := [MergeCall.merging, MergeCall.replied (some mergeBusy)] }

/-! ## The command line tool: `dcs search` -/

/-- The flags of `dcs search`. -/
structure searchFlags where
  /-- path to the index file to work with -/
  idx : GoString
  /-- search query -/
  query : GoString
  /-- do a positional query for identifier searches -/
  pos : Bool
deriving DecidableEq, Repr

/-- An `error` value of the `dcs` tool. -/
inductive DcsError where
  /-- the value `fmt.Errorf("regexp.Compile(%q): %v", query, err)` -/
  | regexpCompile (query err : GoString)
  /-- any other error -/
  | other (err : GoString)
deriving DecidableEq, Repr

/-- How a function of the tool ends. -/
inductive Ended where
  /-- it returns `err` -/
  | returned (err : Option DcsError)
  /-- it ends the process with `os.Exit(status)` -/
  | exited (status : Nat)
deriving DecidableEq, Repr

/-- The libraries and the files outside this development that `search` and `main` call. -/
structure DcsEnv where
  /-- `fset.Parse(args)` with `flag.ExitOnError`: the flags, or `none` when the arguments do
  not parse (the flag set then ends the process with status 2) -/
  parse : List GoString → Option searchFlags
  /-- `regexp.Compile(query)`: the error, if the query does not compile -/
  compile : GoString → Option GoString
  /-- the rest of `search`, from `index.Open` on: the error it returns, if any -/
  lookup : searchFlags → Option DcsError
  /-- the command `du` -/
  du : List GoString → Option DcsError
  /-- the command `raw` -/
  raw : List GoString → Option DcsError

/-- `search(args)`. -/
def search (env : DcsEnv) (args : List GoString) : Ended :=
  match env.parse args with
  | none => Ended.exited 2
  | some flags =>
    if flags.idx = [] ∨ flags.query = [] then Ended.exited 1
    else
      match env.compile flags.query with
      | some err => Ended.returned (some (DcsError.regexpCompile flags.query err))
      | none => Ended.returned (env.lookup flags)

/-- How the process ends. -/
structure ProcessEnd where
  /-- the exit status -/
  status : Nat
  /-- the error that `log.Fatal(err)` has reported, if any -/
  reported : Option DcsError
deriving DecidableEq, Repr

/-- The commands of `main` that are called without a use of their result, `search` apart;
they are defined in other files and taken to return. -/
def plainCommands : List GoString :=
  [str "trigram", str "docids", str "posting", str "matches", str "create", str "merge",
   str "replay", str "help"]

/-- The `switch cmd` of `main` and the `if err != nil { log.Fatal(err) }` after it: the
variable `err` is assigned by the commands `du` and `raw` only. -/
def main (env : DcsEnv) (cmd : GoString) (args : List GoString) : ProcessEnd :=
  let err : Ended :=
    if cmd = str "du" then Ended.returned (env.du args)
    else if cmd = str "raw" then Ended.returned (env.raw args)
    else if cmd = str "search" then
      match search env args with
      | Ended.exited status => Ended.exited status
      | Ended.returned _ => Ended.returned none
    else if cmd ∈ plainCommands then Ended.returned none
    else Ended.exited 1
  match err with
  | Ended.exited status => { status := status, reported := none }
  | Ended.returned (some err) => { status := 1, reported := some err }
  | Ended.returned none => { status := 0, reported := none }

/-- An environment in which the query `(` does not compile, the command line
`-idx=/srv/dcs/full -query=(` parses, and the command `du` fails. -/
def sampleDcs : DcsEnv :=
  { parse := fun args =>
      if args = [str "-idx=/srv/dcs/full", str "-query=("] then
        some { idx := str "/srv/dcs/full", query := str "(", pos := false }
      else none
    compile := fun query => if query = str "(" then some (str "missing closing )") else none
    lookup := fun _ => none
    du := fun _ => some (DcsError.other (str "no such file"))
    raw := fun _ => none }

/-! ## The importer: `indexPackage` -/

/-- The files that `indexPackage` can touch, each a map from names to contents: the directory
`idx` of the shard (by file name), the tree `src` of the shard (by the path below it), and
the temporary directory (by path). -/
structure Shard where
  /-- the files of `*shardPath/idx` -/
  idx : List (GoString × List Nat)
  /-- the files below `*shardPath/src` -/
  src : List (GoString × List Nat)
  /-- the files below `tmpdir` -/
  tmp : List (GoString × List Nat)
deriving DecidableEq, Repr

/-- A file after a write: `some content`, or `none` when there is no such file. -/
def setFile (m : List (GoString × List Nat)) (name : GoString) :
    Option (List Nat) → List (GoString × List Nat)
  | none => mapDelete m name
  | some content => mapSet m name content

/-- Modelled from the spec: a call of the index writer ("`Create(out_path)` returns a writer",
"`Flush()` materializes the index and returns success or a write error"): the error it
returns, if any, and the file it leaves at `out_path`, the only file it writes. -/
structure WriterCall where
  /-- the error returned -/
  err : Option GoString
  /-- the file at `out_path` after the call -/
  out : Option (List Nat)
deriving DecidableEq, Repr

/-- What goes wrong in the callback that copies an accepted file. -/
inductive CopyFault where
  /-- `os.MkdirAll(filepath.Dir(outputPath))` fails -/
  | mkdir (err : GoString)
  /-- `os.Create(outputPath)` fails -/
  | create (err : GoString)
  /-- `os.Open(path)` fails -/
  | openInput (err : GoString)
  /-- `io.Copy(output, input)` fails after `written` -/
  | copy (written : List Nat) (err : GoString)
deriving DecidableEq, Repr

/-- An entry that `AddDir` visits below its root `tmpdir/pkg/pkg`. -/
structure WalkEntry where
  /-- the path of the entry below `tmpdir/pkg/` -/
  rel : GoString
  /-- `info.IsDir()` -/
  isDir : Bool
  /-- the ignore predicate `filter.Ignored` accepts the entry, so it is skipped -/
  ignored : Bool
  /-- `os.Remove` or `os.RemoveAll` fails in the callback for a skipped entry -/
  removeFails : Option GoString
  /-- what goes wrong in the callback for an accepted entry -/
  copyFault : Option CopyFault
deriving DecidableEq, Repr

/-- What the environment of one call of `indexPackage` does. -/
structure IndexEnv where
  /-- the path `tmpdir` -/
  tmpdir : GoString
  /-- the error of `os.MkdirAll(filepath.Join(*shardPath, "idx"))` -/
  mkdirAll : Option GoString
  /-- the call `index.Create(tmpIndexPath)` -/
  create : WriterCall
  /-- the entries that `index.AddDir` visits, in order -/
  walk : List WalkEntry
  /-- the call `index.AddDir(...)`, its callbacks apart -/
  addDir : WriterCall
  /-- the call `index.Flush()` -/
  flush : WriterCall
  /-- the error of `os.Rename(tmpIndexPath, finalIndexPath)` -/
  rename : Option GoString
deriving DecidableEq, Repr

/-- The fourth argument of `AddDir` in `indexPackage`: the callback for a skipped entry
removes it from the temporary directory. -/
def indexPackage.onSkip (path : GoString) (entry : WalkEntry) (fs : Shard) :
    Shard × Option GoString :=
  match entry.removeFails with
  | some err => (fs, some err)
  | none =>
    if entry.isDir then
      -- os.RemoveAll(path)
      let kept := fs.tmp.filter
        (fun kv => !(decide (kv.1 = path) || (path ++ str "/").isPrefixOf kv.1))
      ({ fs with tmp := kept }, none)
    else
      -- os.Remove(path)
      ({ fs with tmp := mapDelete fs.tmp path }, none)

/-- The fifth argument of `AddDir` in `indexPackage`: the callback for an accepted file
copies this file out of /tmp to the unpacked directory `*shardPath/src`. -/
def indexPackage.onAccept (stripLen : Nat) (path : GoString) (entry : WalkEntry)
    (fs : Shard) : Shard × Option GoString :=
  let outputPath := path.drop stripLen
  match entry.copyFault with
  | some (CopyFault.mkdir err) =>
    (fs, some (str "Could not create directory: " ++ err ++ str "\n"))
  | some (CopyFault.create err) =>
    (fs, some (str "Could not create output file: " ++ err ++ str "\n"))
  | some (CopyFault.openInput err) =>
    ({ fs with src := mapSet fs.src outputPath [] },
      some (str "Could not open input file: " ++ err ++ str "\n"))
  | some (CopyFault.copy written err) =>
    ({ fs with src := mapSet fs.src outputPath written },
      some (str "Could not copy: " ++ err ++ str "\n"))
  | none => ({ fs with src := mapSet fs.src outputPath (mapGetD fs.tmp path []) }, none)

/-- Modelled from the spec: the traversal of `AddDir` ("for each file entry: if the ignore
predicate accepts it, skip it and invoke `on_skip`; otherwise ... invoke `on_accept`"), which
ends with the first error of a callback. -/
def AddDir (stripPrefix : GoString) (onSkip onAccept : GoString → WalkEntry → Shard →
    Shard × Option GoString) : List WalkEntry → Shard → Shard × Option GoString
  | [], fs => (fs, none)
  | entry :: rest, fs =>
    match (if entry.ignored then onSkip else onAccept) (stripPrefix ++ entry.rel) entry fs with
    | (fs, some err) => (fs, some err)
    | (fs, none) => AddDir stripPrefix onSkip onAccept rest fs

/-- `indexPackage(pkg)` for a package name `pkg` (a file name): the files afterwards and the
error returned. -/
def indexPackage (env : IndexEnv) (pkg : GoString) (fs : Shard) : Shard × Option GoString :=
  match env.mkdirAll with
  | some err => (fs, some err)
  | none =>
    -- Write to a temporary file first so that merges can happen at the same time.
    let tmpIndexPath := pkg ++ str ".tmp"
    let fs := { fs with idx := setFile fs.idx tmpIndexPath env.create.out }
    match env.create.err with
    | some err => (fs, some err)
    | none =>
      -- +1 because of the / that should not be included in the index.
      let stripLen := (env.tmpdir ++ str "/" ++ pkg).length + 1
      match AddDir (env.tmpdir ++ str "/" ++ pkg ++ str "/") indexPackage.onSkip
          (indexPackage.onAccept stripLen) env.walk fs with
      | (fs, some err) => (fs, some err)
      | (fs, none) =>
        let fs := { fs with idx := setFile fs.idx tmpIndexPath env.addDir.out }
        match env.addDir.err with
        | some err => (fs, some err)
        | none =>
          let fs := { fs with idx := setFile fs.idx tmpIndexPath env.flush.out }
          match env.flush.err with
          | some err => (fs, some err)
          | none =>
            let finalIndexPath := pkg
            match env.rename with
            | some err => (fs, some err)
            | none =>
              match mapGet? fs.idx tmpIndexPath with
              | none => (fs, some (str "rename: no such file or directory"))
              | some content =>
                let renamed := mapDelete (mapSet fs.idx finalIndexPath content) tmpIndexPath
                ({ fs with idx := renamed }, none)

/-- A shard with an index of the package `i3-wm_4.7.2-1` and the unpacked file
`i3-wm_4.7.2-1/main.c` of this package in the temporary directory. -/
def sampleShard : Shard :=
  { idx := [(str "i3-wm_4.7.2-1", [1, 2, 3])]
    src := []
    tmp := [(str "/tmp/dcs/i3-wm_4.7.2-1/i3-wm_4.7.2-1/main.c", [105, 51])] }

/-- An environment in which everything succeeds and the index written is `[4, 5]`. -/
def sampleIndexing : IndexEnv :=
  { tmpdir := str "/tmp/dcs"
    mkdirAll := none
    create := { err := none, out := some [] }
    walk := [{ rel := str "i3-wm_4.7.2-1/main.c", isDir := false, ignored := false,
               removeFails := none, copyFault := none }]
    addDir := { err := none, out := some [] }
    flush := { err := none, out := some [4, 5] }
    rename := none }

/-- The result of the call of `AddDir` in `indexPackage`, with its callbacks, after
`index.Create`. -/
def indexPackage.added (env : IndexEnv) (pkg : GoString) (fs : Shard) :
    Shard × Option GoString :=
  AddDir (env.tmpdir ++ str "/" ++ pkg ++ str "/") indexPackage.onSkip
    (indexPackage.onAccept ((env.tmpdir ++ str "/" ++ pkg).length + 1)) env.walk
    { fs with idx := setFile fs.idx (pkg ++ str ".tmp") env.create.out }

/-! ## The importer: `server.GarbageCollect` -/

/-- What the environment of one call of `GarbageCollect` does. -/
structure CollectEnv where
  /-- the error of `os.Open(filepath.Join(*shardPath, "src"))`, unless it is that the
  directory does not exist -/
  openFails : Option GoString
  /-- the error of `file.Readdirnames(-1)` -/
  readdirnames : Option GoString
  /-- the error of `os.RemoveAll(filepath.Join(*shardPath, "src", pkg))` -/
  removeAll : Option GoString
  /-- the error of `os.Remove(filepath.Join(*shardPath, "idx", pkg))` on a file that exists -/
  remove : Option GoString
deriving DecidableEq, Repr

/-- The entry of the directory `src` below which the path `path` lies: the path up to its
first `/`. -/
def topName (path : GoString) : GoString :=
  path.takeWhile (fun c => decide (c ≠ 47))

/-- `packageNames()`: the names of the entries of `*shardPath/src`; if the directory does not
yet exist, an empty list of packages. -/
def packageNames (env : CollectEnv) (fs : Shard) : Except GoString (List GoString) :=
  match env.openFails with
  | some err => Except.error err
  | none =>
    match env.readdirnames with
    | some err => Except.error err
    | none => Except.ok (fs.src.map (fun kv => topName kv.1)).dedup

/-- The loop `for _, name := range names` of `GarbageCollect`: the value of `found`. -/
def server.GarbageCollect.found (pkg : GoString) : List GoString → Bool
  | [] => false
  | name :: rest => if name = pkg then true else server.GarbageCollect.found pkg rest

/-- The error of `os.Remove` on a file that does not exist. -/
def removeMissing (pkg : GoString) : GoString :=
  str "remove idx/" ++ pkg ++ str ": no such file or directory"

/-- `GarbageCollect(ctx, req)` for the source package `pkg`: the files afterwards, and the
error returned (`none` with the reply). -/
def server.GarbageCollect (env : CollectEnv) (pkg : GoString) (fs : Shard) :
    Shard × Option GoString :=
  if pkg = [] then (fs, some (str "no source_package provided"))
  else
    match packageNames env fs with
    | Except.error err => (fs, some err)
    | Except.ok names =>
      if !server.GarbageCollect.found pkg names then (fs, some (str "no such package"))
      else
        match env.removeAll with
        | some err => (fs, some err)
        | none =>
          let kept := fs.src.filter
            (fun kv => !(decide (kv.1 = pkg) || (pkg ++ str "/").isPrefixOf kv.1))
          let fs := { fs with src := kept }
          match mapGet? fs.idx pkg with
          | none => (fs, some (removeMissing pkg))
          | some _ =>
            match env.remove with
            | some err => (fs, some err)
            | none => ({ fs with idx := mapDelete fs.idx pkg }, none)

/-- An environment in which no operation of `GarbageCollect` fails by itself. -/
def CollectEnv.ok : CollectEnv :=
  { openFails := none, readdirnames := none, removeAll := none, remove := none }

/-- The sample shard without an index, after `indexPackage` has copied the sources of the
package `i3-wm_4.7.2-1` and failed in `Flush`: the package is unpacked but not indexed. -/
def sampleNotIndexed : Shard :=
  (indexPackage
    { sampleIndexing with flush := { err := some (str "no space left on device"), out := none } }
    (str "i3-wm_4.7.2-1") { sampleShard with idx := [] }).1

/-! ## The bounds of the slice expressions -/

/-- The string `s` has the byte `c`, and its first `c` stands between `before` and `after`:
`strings.Index` gives the length of `before`, so that the slice expressions `s[:index]` and
`s[index+1:]` are in bounds. -/
def SplitsAt (c : Nat) (s before after : GoString) : Prop :=
  s = before ++ c :: after ∧ c ∉ before ∧ stringsIndex s [c] = (before.length : Int) ∧
    (0 : Int) ≤ stringsIndex s [c] ∧ stringsIndex s [c] + 1 ≤ (s.length : Int)

/-! ## Lemmas on strings -/

theorem str_underscore : str "_" = [95] := by decide

theorem stringsIndexFrom_single_not_mem (c : Nat) (s : GoString) (i : Nat) (h : c ∉ s) :
    stringsIndexFrom [c] s i = -1 := by
  induction s generalizing i with
  | nil => simp [stringsIndexFrom]
  | cons x xs ih =>
    have hx : c ≠ x := fun e => h (by simp [e])
    have hxs : c ∉ xs := fun e => h (by simp [e])
    simp [stringsIndexFrom, List.isPrefixOf, hx, ih _ hxs]

theorem stringsIndexFrom_single_append (c : Nat) (pre post : GoString) (i : Nat)
    (h : c ∉ pre) : stringsIndexFrom [c] (pre ++ c :: post) i = ((i + pre.length : Nat) : Int) := by
  induction pre generalizing i with
  | nil => simp [stringsIndexFrom, List.isPrefixOf]
  | cons x xs ih =>
    have hx : c ≠ x := fun e => h (by simp [e])
    have hxs : c ∉ xs := fun e => h (by simp [e])
    simp [stringsIndexFrom, List.isPrefixOf, hx, ih _ hxs]
    omega

theorem exists_first_occurrence (c : Nat) (s : GoString) (h : c ∈ s) :
    ∃ pre post, s = pre ++ c :: post ∧ c ∉ pre := by
  induction s with
  | nil => simp at h
  | cons x xs ih =>
    by_cases hx : c = x
    · exact ⟨[], xs, by simp [hx], by simp⟩
    · have hxs : c ∈ xs := by
        rcases List.mem_cons.mp h with e | e
        · exact absurd e hx
        · exact e
      obtain ⟨pre, post, e, hn⟩ := ih hxs
      refine ⟨x :: pre, post, by simp [e], ?_⟩
      simp [hx, hn]

theorem splitPackage_append (name version : GoString) (h : 95 ∉ name) :
    splitPackage (name ++ 95 :: version) = some (name, version) := by
  simp only [splitPackage, str_underscore, stringsIndex, stringsIndexFrom_single_append _ _ _ _ h]
  have h1 : (0:Int) ≤ (version.length : Int) + 1 := by omega
  have h2 : (0:Int) ≤ (name.length : Int) + 1 := by omega
  simp [sliceTo, sliceFrom, h1, h2]

theorem splitPackage_not_mem (pkg : GoString) (h : 95 ∉ pkg) : splitPackage pkg = none := by
  simp [splitPackage, str_underscore, stringsIndex, stringsIndexFrom_single_not_mem _ _ _ h, sliceTo]

theorem splitPackage_of_mem (pkg : GoString) (h : 95 ∈ pkg) :
    ∃ name version, splitPackage pkg = some (name, version) ∧ pkg = name ++ 95 :: version ∧
      95 ∉ name := by
  obtain ⟨name, version, e, hn⟩ := exists_first_occurrence 95 pkg h
  exact ⟨name, version, e ▸ splitPackage_append name version hn, e, hn⟩

theorem splitPackage_eq_some {pkg name version : GoString}
    (h : splitPackage pkg = some (name, version)) :
    pkg = name ++ 95 :: version ∧ 95 ∉ name := by
  by_cases hm : 95 ∈ pkg
  · obtain ⟨n, v, e, hp, hn⟩ := splitPackage_of_mem pkg hm
    rw [e] at h
    cases h
    exact ⟨hp, hn⟩
  · rw [splitPackage_not_mem pkg hm] at h
    cases h

/-! ## Lemmas on `sort.Sort` -/

theorem sortSort_perm {α : Type} (less : α → α → Bool) (l : List α) :
    (sortSort less l).Perm l :=
  List.perm_insertionSort _ l

theorem sortSort_sorted {α : Type} (less : α → α → Bool)
    (htotal : ∀ a b, less b a = false ∨ less a b = false)
    (htrans : ∀ a b c, less b a = false → less c b = false → less c a = false)
    (l : List α) : (sortSort less l).Pairwise (fun a b => less b a = false) :=
  @List.sorted_insertionSort α (fun a b => less b a = false) _ ⟨htotal⟩ ⟨htrans⟩ l

theorem pointerLess_eq_false {F : Type} [GoFloat32 F] (a b : resultPointer F) :
    pointerByRanking.Less b a = false ↔
      (a.ranking > b.ranking ∨ (a.ranking = b.ranking ∧ a.pathHash ≥ b.pathHash)) := by
  unfold pointerByRanking.Less
  by_cases h : b.ranking = a.ranking
  · simp [h]
  · rcases lt_or_gt_of_ne h with h1 | h1
    · simp [h, h1, Ne.symm h, le_of_lt h1]
    · simp [h, h1, Ne.symm h, not_lt.mpr (le_of_lt h1)]

theorem pointerLess_total {F : Type} [GoFloat32 F] (a b : resultPointer F) :
    pointerByRanking.Less b a = false ∨ pointerByRanking.Less a b = false := by
  rw [pointerLess_eq_false, pointerLess_eq_false]
  rcases lt_trichotomy a.ranking b.ranking with h | h | h
  · exact Or.inr (Or.inl h)
  · rcases le_total a.pathHash b.pathHash with h1 | h1
    · exact Or.inr (Or.inr ⟨h.symm, h1⟩)
    · exact Or.inl (Or.inr ⟨h, h1⟩)
  · exact Or.inl (Or.inl h)

theorem pointerLess_trans {F : Type} [GoFloat32 F] (a b c : resultPointer F)
    (hab : pointerByRanking.Less b a = false) (hbc : pointerByRanking.Less c b = false) :
    pointerByRanking.Less c a = false := by
  rw [pointerLess_eq_false] at *
  rcases hab with h | ⟨h, h'⟩ <;> rcases hbc with k | ⟨k, k'⟩
  · exact Or.inl (lt_trans k h)
  · exact Or.inl (k ▸ h)
  · exact Or.inl (h ▸ k)
  · exact Or.inr ⟨h.trans k, le_trans k' h'⟩

/-! ## Lemmas on `writeToDisk` -/

theorem packageVersionsLoop_isSome (pkgs : List GoString) (h : ∀ pkg ∈ pkgs, 95 ∈ pkg)
    (pv : List (GoString × GoString)) : ∃ m, packageVersionsLoop pkgs pv = some m := by
  induction pkgs generalizing pv with
  | nil => exact ⟨pv, rfl⟩
  | cons pkg rest ih =>
    obtain ⟨name, version, e, -, -⟩ := splitPackage_of_mem pkg (h pkg (by simp))
    have hrest : ∀ p ∈ rest, 95 ∈ p := fun p hp => h p (by simp [hp])
    simp only [packageVersionsLoop, e]
    cases mapGet? pv name with
    | none => exact ih hrest _
    | some best =>
      by_cases hv : version > best
      · simp only [hv, if_true]; exact ih hrest _
      · simp only [hv, if_false]; exact ih hrest _

theorem byPkgLoop_isSome {F : Type} (pv : List (GoString × GoString))
    (ps : List (resultPointer F)) (h : ∀ p ∈ ps, 95 ∈ p.packageName)
    (acc : List (GoString × List (resultPointer F))) : ∃ m, byPkgLoop pv ps acc = some m := by
  induction ps generalizing acc with
  | nil => exact ⟨acc, rfl⟩
  | cons p rest ih =>
    obtain ⟨name, version, e, -, -⟩ := splitPackage_of_mem p.packageName (h p (by simp))
    have hrest : ∀ q ∈ rest, 95 ∈ q.packageName := fun q hq => h q (by simp [hq])
    simp only [byPkgLoop, e]
    split_ifs
    · exact ih hrest _
    · exact ih hrest _
    · exact ih hrest _

theorem sortSort_length {α : Type} (less : α → α → Bool) (l : List α) :
    (sortSort less l).length = l.length :=
  List.length_insertionSort _ l

theorem writeToDisk_eq {F : Type} [GoFloat32 F] (queryid : GoString) (g : queryState F)
    (hne : g.resultPointers ≠ []) (hwf : PackagesWellFormed g) :
    ∃ pv bypkg, packageVersionsLoop g.allPackages [] = some pv ∧
      byPkgLoop pv (sortSort pointerByRanking.Less g.resultPointers) [] = some bypkg ∧
      writeToDisk queryid g =
        some (sendPaginationUpdate queryid (writtenState g pv bypkg) (writtenState g pv bypkg)) := by
  obtain ⟨pv, hpv⟩ := packageVersionsLoop_isSome g.allPackages hwf.1 []
  have hs : ∀ p ∈ sortSort pointerByRanking.Less g.resultPointers, 95 ∈ p.packageName :=
    fun p hp => hwf.2 p ((sortSort_perm _ _).mem_iff.mp hp)
  obtain ⟨bypkg, hby⟩ := byPkgLoop_isSome pv _ hs []
  refine ⟨pv, bypkg, hpv, hby, ?_⟩
  have hlen : g.resultPointers.length ≠ 0 := by
    simpa [List.length_eq_zero] using hne
  simp only [writeToDisk, hlen, if_false, hpv, hby, writtenState, sortSort_length]

theorem sendPaginationUpdate_resultPointers {F : Type} (queryid : GoString)
    (s g : queryState F) : (sendPaginationUpdate queryid s g).resultPointers = g.resultPointers := by
  unfold sendPaginationUpdate addEventMarshal
  split_ifs <;> rfl

/-- C1: for a query with at least one recorded result pointer (and packages of the form
name_version), writeToDisk returns, and the resultPointers it stores are a permutation of the
pointers recorded before the call, ordered by ranking descending with ties broken by pathHash
descending: every pointer p before a pointer q, and so every adjacent pair, has
p.ranking > q.ranking, or p.ranking = q.ranking and p.pathHash >= q.pathHash. -/
theorem writeToDisk_sorts_resultPointers {F : Type} [GoFloat32 F] (queryid : GoString)
    (g : queryState F) (hne : g.resultPointers ≠ []) (hwf : PackagesWellFormed g) :
    ∃ g', writeToDisk queryid g = some g' ∧
      g'.resultPointers.Perm g.resultPointers ∧
      g'.resultPointers.Pairwise RankedBefore ∧
      g'.resultPointers.Chain' RankedBefore := by
  obtain ⟨pv, bypkg, -, -, h⟩ := writeToDisk_eq queryid g hne hwf
  refine ⟨_, h, ?_⟩
  rw [sendPaginationUpdate_resultPointers]
  have hsorted : (sortSort pointerByRanking.Less g.resultPointers).Pairwise RankedBefore := by
    have := sortSort_sorted pointerByRanking.Less pointerLess_total pointerLess_trans
      g.resultPointers
    exact this.imp (fun {a b} hab => (pointerLess_eq_false a b).mp hab)
  exact ⟨sortSort_perm _ _, hsorted, List.Pairwise.chain' hsorted⟩

theorem sampleState_wellFormed : PackagesWellFormed sampleState := by
  constructor
  · decide
  · decide

/-- C1 at the sample query. -/
theorem writeToDisk_sorts_resultPointers_witness :
    ∃ g', writeToDisk (str "q") sampleState = some g' ∧
      g'.resultPointers.Perm sampleState.resultPointers ∧
      g'.resultPointers.Pairwise RankedBefore ∧
      g'.resultPointers.Chain' RankedBefore :=
  writeToDisk_sorts_resultPointers (str "q") sampleState (by decide) sampleState_wellFormed

/-! ## Lemmas on `storeResult` -/

theorem str_slash : str "/" = [47] := by decide

theorem slicePath_of_mem (path : GoString) (h : 47 ∈ path) :
    ∃ pkg rest, sliceTo path (stringsIndex path (str "/")) = some pkg ∧
      path = pkg ++ 47 :: rest ∧ 47 ∉ pkg := by
  obtain ⟨pkg, rest, e, hn⟩ := exists_first_occurrence 47 path h
  refine ⟨pkg, rest, ?_, e, hn⟩
  subst e
  simp only [str_slash, stringsIndex, stringsIndexFrom_single_append _ _ _ _ hn]
  have h1 : (0:Int) ≤ (rest.length : Int) + 1 := by omega
  simp [sliceTo, h1]

theorem slicePath_not_mem (path : GoString) (h : 47 ∉ path) :
    sliceTo path (stringsIndex path (str "/")) = none := by
  simp [str_slash, stringsIndex, stringsIndexFrom_single_not_mem _ _ _ h, sliceTo]

theorem ranked_of_first {F : Type} [GoFloat32 F] (g : queryState F) (result : Result F)
    (pkg : GoString) (hpkg : sliceTo result.Path (stringsIndex result.Path (str "/")) = some pkg)
    (hfirst : g.FirstPathRank > GoFloat32.zero) :
    storeResult.ranked g result =
      some ({ result with
        Type_ := str "result", Package := pkg,
        Ranking := GoFloat32.add result.PathRank
          (GoFloat32.mul (GoFloat32.mul g.FirstPathRank GoFloat32.tenth) result.Ranking) }, g) := by
  simp only [storeResult.ranked, hpkg, hfirst, if_true]

theorem ranked_of_not_first {F : Type} [GoFloat32 F] (g : queryState F) (result : Result F)
    (pkg : GoString) (hpkg : sliceTo result.Path (stringsIndex result.Path (str "/")) = some pkg)
    (hfirst : ¬ g.FirstPathRank > GoFloat32.zero) :
    storeResult.ranked g result =
      some ({ result with Type_ := str "result", Package := pkg },
        { g with FirstPathRank := result.PathRank }) := by
  simp only [storeResult.ranked, hpkg, hfirst, if_false]

theorem spill_ok {F : Type} (encode : Result F → List Nat) (backendidx : Nat)
    (result : Result F) (g : queryState F) (file : File)
    (hfile : g.tempFiles[backendidx]? = some file) :
    storeResult.spill encode backendidx result IOOutcome.ok g =
      some { g with
        tempFiles := g.tempFiles.set backendidx (file.write (encode result))
        resultPointers := g.resultPointers ++
          [{ backendidx := backendidx
             ranking := result.Ranking
             offset := (file.pos : Int)
             length := ((encode result).length : Int)
             pathHash := fnv64 result.Path
             packageName := result.Package }]
        allPackages := setInsert g.allPackages result.Package
        numResults := g.numResults + 1 } := by
  simp [storeResult.spill, hfile, File.write]

theorem spill_isSome {F : Type} (encode : Result F → List Nat) (backendidx : Nat)
    (result : Result F) (io : IOOutcome) (g : queryState F)
    (hidx : backendidx < g.tempFiles.length) :
    ∃ g', storeResult.spill encode backendidx result io g = some g' := by
  have hfile : g.tempFiles[backendidx]? = some (g.tempFiles[backendidx]) :=
    List.getElem?_eq_getElem hidx
  cases io <;> simp [storeResult.spill, hfile]

theorem consider_tempFiles {F : Type} [GoFloat32 F] (g s : queryState F) (result : Result F)
    (hs : s.tempFiles = g.tempFiles) : (storeResult.consider g s result).tempFiles = g.tempFiles := by
  simp only [storeResult.consider, addEventMarshal]
  split_ifs <;> simp [hs]

theorem consider_resultPointers {F : Type} [GoFloat32 F] (g s : queryState F)
    (result : Result F) (hs : s.resultPointers = g.resultPointers) :
    (storeResult.consider g s result).resultPointers = g.resultPointers := by
  simp only [storeResult.consider, addEventMarshal]
  split_ifs <;> simp [hs]

theorem byRankingLess_eq_false {F : Type} [GoFloat32 F] (a b : Result F) :
    ByRanking.Less b a = false ↔
      (a.Ranking > b.Ranking ∨ (a.Ranking = b.Ranking ∧ a.Path ≥ b.Path)) := by
  unfold ByRanking.Less
  by_cases h : b.Ranking = a.Ranking
  · simp [h]
  · rcases lt_or_gt_of_ne h with h1 | h1
    · simp [h, h1, Ne.symm h, le_of_lt h1]
    · simp [h, h1, Ne.symm h, not_lt.mpr (le_of_lt h1)]

theorem byRankingLess_total {F : Type} [GoFloat32 F] (a b : Result F) :
    ByRanking.Less b a = false ∨ ByRanking.Less a b = false := by
  rw [byRankingLess_eq_false, byRankingLess_eq_false]
  rcases lt_trichotomy a.Ranking b.Ranking with h | h | h
  · exact Or.inr (Or.inl h)
  · rcases le_total a.Path b.Path with h1 | h1
    · exact Or.inr (Or.inr ⟨h.symm, h1⟩)
    · exact Or.inl (Or.inr ⟨h, h1⟩)
  · exact Or.inl (Or.inl h)

theorem byRankingLess_trans {F : Type} [GoFloat32 F] (a b c : Result F)
    (hab : ByRanking.Less b a = false) (hbc : ByRanking.Less c b = false) :
    ByRanking.Less c a = false := by
  rw [byRankingLess_eq_false] at *
  rcases hab with h | ⟨h, h'⟩ <;> rcases hbc with k | ⟨k, k'⟩
  · exact Or.inl (lt_trans k h)
  · exact Or.inl (k ▸ h)
  · exact Or.inl (h ▸ k)
  · exact Or.inr ⟨h.trans k, le_trans k' h'⟩

theorem byRankingLess_of_gt {F : Type} [GoFloat32 F] (a b : Result F)
    (h : a.Ranking > b.Ranking) : ByRanking.Less a b = true := by
  have hne : a.Ranking ≠ b.Ranking := ne_of_gt h
  simp [ByRanking.Less, hne, h]

theorem top10_sorted {F : Type} [GoFloat32 F] (l : List (Result F)) :
    (sortSort ByRanking.Less l).Pairwise (fun a b => ByRanking.Less b a = false) :=
  sortSort_sorted ByRanking.Less byRankingLess_total byRankingLess_trans l

/-- An element that `ByRanking.Less` puts before one of ten others is among the first ten
of the eleven after sorting. -/
theorem mem_top10_of_less {F : Type} [GoFloat32 F]
    (results : { l : List (Result F) // l.length = 10 }) (result worst : Result F)
    (hworst : worst ∈ results.val) (hless : ByRanking.Less result worst = true) :
    result ∈ (storeResult.top10 results result).val := by
  show result ∈ (sortSort ByRanking.Less (results.val ++ [result])).take 10
  have hsorted := top10_sorted (results.val ++ [result])
  have hlen : (sortSort ByRanking.Less (results.val ++ [result])).length = 11 := by
    simp [sortSort_length, results.property]
  have hr : result ∈ sortSort ByRanking.Less (results.val ++ [result]) :=
    (sortSort_perm _ _).mem_iff.mpr (by simp)
  have hw : worst ∈ sortSort ByRanking.Less (results.val ++ [result]) :=
    (sortSort_perm _ _).mem_iff.mpr (by simp [hworst])
  generalize sortSort ByRanking.Less (results.val ++ [result]) = X at hsorted hlen hr hw
  rw [← List.take_append_drop 10 X] at hr hw hsorted
  rcases List.mem_append.mp hr with h | h
  · exact h
  · exfalso
    have hd : (X.drop 10).length = 1 := by simp [hlen]
    obtain ⟨z, hz⟩ := List.length_eq_one.mp hd
    rw [hz] at h hw hsorted
    have hrz : result = z := by simpa using h
    rcases List.mem_append.mp hw with k | k
    · have := (List.pairwise_append.mp hsorted).2.2 worst k z (by simp)
      rw [← hrz, hless] at this
      cases this
    · have hwz : worst = z := by simpa using k
      rw [hwz, ← hrz] at hless
      simp [ByRanking.Less] at hless

theorem spill_results {F : Type} (encode : Result F → List Nat) (backendidx : Nat)
    (result : Result F) (io : IOOutcome) (g g' : queryState F)
    (h : storeResult.spill encode backendidx result io g = some g') : g'.results = g.results := by
  unfold storeResult.spill at h
  cases hf : g.tempFiles[backendidx]? with
  | none => simp [hf] at h
  | some file =>
    cases io <;> simp [hf, failQuery, finishQuery, addEventMarshal] at h <;> rw [← h]

theorem spill_events {F : Type} (encode : Result F → List Nat) (backendidx : Nat)
    (result : Result F) (io : IOOutcome) (g g' : queryState F)
    (h : storeResult.spill encode backendidx result io g = some g') :
    g'.events = g.events ++
      (if io = IOOutcome.ok then [] else [Event.error (str "failed"), Event.finished]) := by
  unfold storeResult.spill at h
  cases hf : g.tempFiles[backendidx]? with
  | none => simp [hf] at h
  | some file =>
    cases io <;> simp [hf, failQuery, finishQuery, addEventMarshal] at h <;> rw [← h] <;> simp

theorem consider_of_gt {F : Type} [GoFloat32 F] (g s : queryState F) (result : Result F)
    (h : result.Ranking > s.worst.Ranking) :
    storeResult.consider g s result =
      addEventMarshal { s with results := storeResult.top10 s.results result }
        (Event.result result) := by
  simp only [storeResult.consider, h, if_true]

theorem consider_of_not_gt {F : Type} [GoFloat32 F] (g s : queryState F) (result : Result F)
    (h : ¬ result.Ranking > s.worst.Ranking) : storeResult.consider g s result = g := by
  simp only [storeResult.consider, h, if_false]

theorem worst_mem {F : Type} (s : queryState F) : s.worst ∈ s.results.val :=
  List.get_mem _ _ _

/-- C2: while the query's FirstPathRank is already recorded (greater than 0), storeResult
(on a path with a slash and an existing backend) returns, and the final ranking of the result
is PathRank + (FirstPathRank * 0.1) * Ranking: the result with this ranking is the one stored
in the top 10 and sent as event when it beats the worst slot, the one whose encoding is
written to the spill file, and its ranking is the one recorded in the result pointer. -/
theorem storeResult_blends_ranking {F : Type} [GoFloat32 F] (encode : Result F → List Nat)
    (backendidx : Nat) (result : Result F) (io : IOOutcome) (g : queryState F)
    (hpath : 47 ∈ result.Path) (hidx : backendidx < g.tempFiles.length)
    (hfirst : g.FirstPathRank > GoFloat32.zero) :
    ∃ g' pkg file ranked,
      storeResult encode backendidx result io g = some g' ∧
      sliceTo result.Path (stringsIndex result.Path (str "/")) = some pkg ∧
      g.tempFiles[backendidx]? = some file ∧
      ranked = { result with
        Type_ := str "result", Package := pkg,
        Ranking := GoFloat32.add result.PathRank
          (GoFloat32.mul (GoFloat32.mul g.FirstPathRank GoFloat32.tenth) result.Ranking) } ∧
      (ranked.Ranking > g.worst.Ranking →
        ranked ∈ g'.results.val ∧ Event.result ranked ∈ g'.events) ∧
      (io = IOOutcome.ok →
        g'.tempFiles[backendidx]? = some (file.write (encode ranked)) ∧
        g'.resultPointers = g.resultPointers ++
          [{ backendidx := backendidx
             ranking := ranked.Ranking
             offset := (file.pos : Int)
             length := ((encode ranked).length : Int)
             pathHash := fnv64 result.Path
             packageName := pkg }]) := by
  obtain ⟨pkg, rest, hpkg, -, -⟩ := slicePath_of_mem result.Path hpath
  have hfile : g.tempFiles[backendidx]? = some g.tempFiles[backendidx] :=
    List.getElem?_eq_getElem hidx
  have hrk := ranked_of_first g result pkg hpkg hfirst
  generalize hranked : ({ result with
        Type_ := str "result", Package := pkg,
        Ranking := GoFloat32.add result.PathRank
          (GoFloat32.mul (GoFloat32.mul g.FirstPathRank GoFloat32.tenth) result.Ranking) } :
      Result F) = ranked at hrk
  have hpathEq : ranked.Path = result.Path := by rw [← hranked]
  have hpkgEq : ranked.Package = pkg := by rw [← hranked]
  have hstore : storeResult encode backendidx result io g =
      storeResult.spill encode backendidx ranked io (storeResult.consider g g ranked) := by
    simp only [storeResult, hrk]
  have hct := consider_tempFiles g g ranked rfl
  have hcp := consider_resultPointers g g ranked rfl
  obtain ⟨g', hg'⟩ := spill_isSome encode backendidx ranked io (storeResult.consider g g ranked)
    (by rw [hct]; exact hidx)
  refine ⟨g', pkg, _, ranked, hstore.trans hg', hpkg, hfile, hranked.symm, ?_, ?_⟩
  · intro hbeat
    have hres := spill_results _ _ _ _ _ _ hg'
    have hev := spill_events _ _ _ _ _ _ hg'
    rw [consider_of_gt g g ranked hbeat] at hres hev
    constructor
    · rw [hres]
      exact mem_top10_of_less g.results ranked g.worst (worst_mem g)
        (byRankingLess_of_gt _ _ hbeat)
    · rw [hev]
      simp [addEventMarshal]
  · intro hio
    subst hio
    rw [spill_ok encode backendidx ranked _ g.tempFiles[backendidx] (by rw [hct]; exact hfile)]
      at hg'
    have hg'' := (Option.some.inj hg').symm
    subst hg''
    simp only [hct, hcp, hpathEq, hpkgEq]
    simp [hidx]

/-- C2 at a sample result, on the fixed-point numbers: path rank 2.0, first path rank 3.0 and
content ranking 7.0 give the final ranking 2.0 + (3.0 * 0.1) * 7.0 = 4.1. -/
theorem storeResult_blends_ranking_witness :
    ∃ g' pkg file ranked,
      storeResult sampleEncode 1 sampleResult IOOutcome.ok sampleRunning = some g' ∧
      sliceTo sampleResult.Path (stringsIndex sampleResult.Path (str "/")) = some pkg ∧
      sampleRunning.tempFiles[1]? = some file ∧
      ranked = { sampleResult with
        Type_ := str "result", Package := pkg,
        Ranking := GoFloat32.add sampleResult.PathRank
          (GoFloat32.mul (GoFloat32.mul sampleRunning.FirstPathRank GoFloat32.tenth)
            sampleResult.Ranking) } ∧
      (ranked.Ranking > sampleRunning.worst.Ranking →
        ranked ∈ g'.results.val ∧ Event.result ranked ∈ g'.events) ∧
      (IOOutcome.ok = IOOutcome.ok →
        g'.tempFiles[1]? = some (file.write (sampleEncode ranked)) ∧
        g'.resultPointers = sampleRunning.resultPointers ++
          [{ backendidx := 1
             ranking := ranked.Ranking
             offset := (file.pos : Int)
             length := ((sampleEncode ranked).length : Int)
             pathHash := fnv64 sampleResult.Path
             packageName := pkg }]) :=
  storeResult_blends_ranking sampleEncode 1 sampleResult IOOutcome.ok sampleRunning
    (by decide) (by decide) (by decide)

/-! ## The top 10 -/

theorem take_orderedInsert_take {α : Type} (r : α → α → Prop) [DecidableRel r] (x : α) :
    ∀ (k : Nat) (S : List α),
      (List.orderedInsert r x (S.take k)).take k = (List.orderedInsert r x S).take k
  | 0, S => by simp
  | k + 1, [] => by simp
  | k + 1, b :: S => by
    by_cases h : r x b
    · have htt : ∀ (j : Nat) (T : List α), (b :: T.take j).take j = (b :: T).take j := by
        intro j T
        cases j with
        | zero => simp
        | succ j => simp [List.take_take]
      simp [List.orderedInsert, h, htt]
    · simp [List.orderedInsert, h, take_orderedInsert_take r x k S]

theorem take_length_orderedInsert_of_le {α : Type} [LinearOrder α] (x : α) :
    ∀ (R : List α), R.Pairwise (fun a b => a ≥ b) → (∀ b ∈ R, x ≤ b) →
      (List.orderedInsert (fun a b : α => a ≥ b) x R).take R.length = R
  | [], _, _ => by simp
  | b :: R, hs, hle => by
    have hb : x ≤ b := hle b (by simp)
    have hR : ∀ c ∈ R, x ≤ c := fun c hc => hle c (by simp [hc])
    have hs' := List.pairwise_cons.mp hs
    by_cases h : x ≥ b
    · have hxb : x = b := le_antisymm hb h
      have hall : ∀ c ∈ R, c = b := fun c hc =>
        le_antisymm (hs'.1 c hc) (hxb ▸ hR c hc)
      have hrep : R = List.replicate R.length b := List.eq_replicate_iff.mpr ⟨rfl, hall⟩
      simp only [List.orderedInsert, h, if_true, List.length_cons, List.take_succ_cons, hxb]
      rw [hrep]
      simp [← List.replicate_succ, List.take_replicate]
    · simp only [List.orderedInsert, h, if_false, List.length_cons, List.take_succ_cons]
      rw [take_length_orderedInsert_of_le x R hs'.2 hR]

theorem ranked_local_copy {F : Type} [GoFloat32 F] (g s : queryState F)
    (result ranked : Result F) (h : storeResult.ranked g result = some (ranked, s)) :
    s.results = g.results ∧ s.events = g.events := by
  unfold storeResult.ranked at h
  cases hp : sliceTo result.Path (stringsIndex result.Path (str "/")) with
  | none => simp [hp] at h
  | some pkg =>
    simp only [hp] at h
    split_ifs at h
    · simp only [Option.some.injEq, Prod.mk.injEq] at h
      rw [← h.2]
      exact ⟨rfl, rfl⟩
    · simp only [Option.some.injEq, Prod.mk.injEq] at h
      rw [← h.2]
      exact ⟨rfl, rfl⟩

theorem spill_events_filter {F : Type} (encode : Result F → List Nat) (backendidx : Nat)
    (result : Result F) (io : IOOutcome) (g g' : queryState F)
    (h : storeResult.spill encode backendidx result io g = some g') :
    g'.events.filter Event.isResult = g.events.filter Event.isResult := by
  rw [spill_events encode backendidx result io g g' h]
  split_ifs <;> simp [Event.isResult]

/-- One call of `storeResult`: the top 10 and the result events after it. -/
theorem storeResult_step {F : Type} [GoFloat32 F] (encode : Result F → List Nat)
    (backendidx : Nat) (result ranked : Result F) (io : IOOutcome) (g s g' : queryState F)
    (hrk : storeResult.ranked g result = some (ranked, s))
    (h : storeResult encode backendidx result io g = some g') :
    (ranked.Ranking > g.worst.Ranking →
      g'.results = storeResult.top10 g.results ranked ∧ ranked ∈ g'.results.val ∧
      g'.events.filter Event.isResult = g.events.filter Event.isResult ++ [Event.result ranked]) ∧
    (¬ ranked.Ranking > g.worst.Ranking →
      g'.results = g.results ∧
      g'.events.filter Event.isResult = g.events.filter Event.isResult) := by
  obtain ⟨hres, hev⟩ := ranked_local_copy g s result ranked hrk
  have hworst : s.worst = g.worst := by simp [queryState.worst, hres]
  simp only [storeResult, hrk] at h
  have h1 := spill_results _ _ _ _ _ _ h
  have h2 := spill_events_filter _ _ _ _ _ _ h
  constructor
  · intro hgt
    rw [consider_of_gt g s ranked (hworst ▸ hgt)] at h1 h2
    have h1' : g'.results = storeResult.top10 g.results ranked := by
      rw [h1]; simp [addEventMarshal, hres]
    refine ⟨h1', ?_, ?_⟩
    · rw [h1']
      exact mem_top10_of_less g.results ranked g.worst (worst_mem g)
        (byRankingLess_of_gt _ _ hgt)
    · rw [h2]; simp [addEventMarshal, hev, Event.isResult]
  · intro hgt
    rw [consider_of_not_gt g s ranked (hworst ▸ hgt)] at h1 h2
    exact ⟨h1, h2⟩

theorem sortDescending_sorted {F : Type} [LinearOrder F] (l : List F) :
    (sortDescending l).Pairwise (fun a b => a ≥ b) :=
  List.sorted_insertionSort (fun a b : F => a ≥ b) l

theorem rankings_top10 {F : Type} [GoFloat32 F]
    (results : { l : List (Result F) // l.length = 10 }) (ranked : Result F)
    (hs : (results.val.map Result.Ranking).Pairwise (fun a b => a ≥ b)) :
    (storeResult.top10 results ranked).val.map Result.Ranking =
      (List.orderedInsert (fun a b : F => a ≥ b) ranked.Ranking
        (results.val.map Result.Ranking)).take 10 := by
  show ((sortSort ByRanking.Less (results.val ++ [ranked])).take 10).map Result.Ranking = _
  rw [List.map_take]
  congr 1
  have hX := top10_sorted (results.val ++ [ranked])
  have hY : ((sortSort ByRanking.Less (results.val ++ [ranked])).map Result.Ranking).Pairwise
      (fun a b => a ≥ b) := by
    rw [List.pairwise_map]
    refine hX.imp ?_
    intro a b hab
    rcases (byRankingLess_eq_false a b).mp hab with h | h
    · exact le_of_lt h
    · exact le_of_eq h.1.symm
  have hperm : ((sortSort ByRanking.Less (results.val ++ [ranked])).map Result.Ranking).Perm
      (List.orderedInsert (fun a b : F => a ≥ b) ranked.Ranking
        (results.val.map Result.Ranking)) := by
    refine ((sortSort_perm _ _).map _).trans ?_
    rw [List.map_append, List.map_singleton]
    refine List.perm_append_comm.trans ?_
    exact (List.perm_orderedInsert _ _ _).symm
  exact List.eq_of_perm_of_sorted hperm hY (List.Sorted.orderedInsert _ _ hs)

theorem worst_le {F : Type} [GoFloat32 F] (g : queryState F)
    (hs : (g.results.val.map Result.Ranking).Pairwise (fun a b => a ≥ b)) :
    ∀ b ∈ g.results.val.map Result.Ranking, g.worst.Ranking ≤ b := by
  intro b hb
  rw [List.pairwise_map] at hs
  obtain ⟨a, ha, rfl⟩ := List.mem_map.mp hb
  obtain ⟨i, hi⟩ := List.get_of_mem ha
  have hlen := g.results.property
  by_cases h9 : i.val = 9
  · have : g.results.val.get i = g.worst := by
      unfold queryState.worst
      congr 1
      exact Fin.ext h9
    rw [← hi, this]
  · have hlt : i < (⟨9, by simp [hlen]⟩ : Fin g.results.val.length) := by
      have := i.isLt
      rw [Fin.lt_def]
      simp only
      omega
    have := List.pairwise_iff_get.mp hs i ⟨9, by simp [hlen]⟩ hlt
    rw [← hi]
    exact this

/-- The rankings in the ten slots are the ten highest among ten zeros and the final rankings
of the results handled so far. -/
theorem top10_invariant {F : Type} [GoFloat32 F] (encode : Result F → List Nat)
    (g : queryState F) (calls : List (Call F)) (h : Handled encode g calls) :
    g.results.val.map Result.Ranking =
      (sortDescending (Call.rankings calls ++ List.replicate 10 GoFloat32.zero)).take 10 := by
  induction h with
  | fresh n =>
    have hsorted : (List.replicate 10 (GoFloat32.zero : F)).Sorted (fun a b => a ≥ b) := by
      simp [List.Sorted, List.pairwise_replicate]
    simp only [sortDescending, Call.rankings, List.map_nil, List.nil_append,
      hsorted.insertionSort_eq]
    simp [freshQueryState, Result.zero]
  | @store g g' s calls backendidx result ranked io _ hrk hst ih =>
    have hsorted : (g.results.val.map Result.Ranking).Pairwise (fun a b => a ≥ b) := by
      rw [ih]
      exact (sortDescending_sorted _).sublist (List.take_sublist _ _)
    have hlen : (g.results.val.map Result.Ranking).length = 10 := by
      simp [g.results.property]
    have hstep := storeResult_step encode backendidx result ranked io g s g' hrk hst
    have hgoal : (sortDescending (Call.rankings
        ({ backendidx := backendidx, ranked := ranked, io := io } :: calls) ++
        List.replicate 10 GoFloat32.zero)).take 10 =
        (List.orderedInsert (fun a b : F => a ≥ b) ranked.Ranking
          (g.results.val.map Result.Ranking)).take 10 := by
      rw [ih, take_orderedInsert_take]
      simp [sortDescending, Call.rankings]
    rw [hgoal]
    by_cases hgt : ranked.Ranking > g.worst.Ranking
    · rw [(hstep.1 hgt).1]
      exact rankings_top10 g.results ranked hsorted
    · rw [(hstep.2 hgt).1]
      have hle : ∀ b ∈ g.results.val.map Result.Ranking, ranked.Ranking ≤ b :=
        fun b hb => le_trans (not_lt.mp hgt) (worst_le g hsorted b hb)
      have := take_length_orderedInsert_of_le ranked.Ranking _ hsorted hle
      rw [hlen] at this
      exact this.symm

theorem sampleStored_handled : Handled sampleEncode sampleStored sampleCalls :=
  @Handled.store Fixed _ sampleEncode (freshQueryState Fixed 2) sampleStored
    { freshQueryState Fixed 2 with FirstPathRank := ⟨20⟩ } [] 1 sampleResult sampleRanked
    IOOutcome.ok (Handled.fresh 2) (by decide) (by decide)

/-- C3: in every state reached by storeResult calls executed one after another on a new
query, the ten slots are in descending order of final ranking and hold the ten highest final
rankings among ten zero-valued placeholders and all results handled so far; the next result
is inserted exactly when its final ranking is strictly greater than that of results[9] (else
the slots stay as they are), and a result event is emitted exactly when it is inserted. -/
theorem storeResult_maintains_top10 {F : Type} [GoFloat32 F] (encode : Result F → List Nat)
    (g : queryState F) (calls : List (Call F)) (h : Handled encode g calls) :
    (g.results.val.map Result.Ranking).Pairwise (fun a b => a ≥ b) ∧
    g.results.val.map Result.Ranking =
      (sortDescending (Call.rankings calls ++ List.replicate 10 GoFloat32.zero)).take 10 ∧
    ∀ (backendidx : Nat) (result ranked : Result F) (io : IOOutcome) (s g' : queryState F),
      storeResult.ranked g result = some (ranked, s) →
      storeResult encode backendidx result io g = some g' →
      (ranked.Ranking > g.worst.Ranking →
        g'.results = storeResult.top10 g.results ranked ∧ ranked ∈ g'.results.val ∧
        g'.events.filter Event.isResult =
          g.events.filter Event.isResult ++ [Event.result ranked]) ∧
      (¬ ranked.Ranking > g.worst.Ranking →
        g'.results = g.results ∧
        g'.events.filter Event.isResult = g.events.filter Event.isResult) := by
  have hinv := top10_invariant encode g calls h
  refine ⟨?_, hinv, ?_⟩
  · rw [hinv]
    exact (sortDescending_sorted _).sublist (List.take_sublist _ _)
  · intro backendidx result ranked io s g' hrk hst
    exact storeResult_step encode backendidx result ranked io g s g' hrk hst

/-- C3 after one call of storeResult on a new query. -/
theorem storeResult_maintains_top10_witness :
    (sampleStored.results.val.map Result.Ranking).Pairwise (fun a b => a ≥ b) ∧
    sampleStored.results.val.map Result.Ranking =
      (sortDescending (Call.rankings sampleCalls ++ List.replicate 10 GoFloat32.zero)).take 10 ∧
    ∀ (backendidx : Nat) (result ranked : Result Fixed) (io : IOOutcome)
      (s g' : queryState Fixed),
      storeResult.ranked sampleStored result = some (ranked, s) →
      storeResult sampleEncode backendidx result io sampleStored = some g' →
      (ranked.Ranking > sampleStored.worst.Ranking →
        g'.results = storeResult.top10 sampleStored.results ranked ∧ ranked ∈ g'.results.val ∧
        g'.events.filter Event.isResult =
          sampleStored.events.filter Event.isResult ++ [Event.result ranked]) ∧
      (¬ ranked.Ranking > sampleStored.worst.Ranking →
        g'.results = sampleStored.results ∧
        g'.events.filter Event.isResult = sampleStored.events.filter Event.isResult) :=
  storeResult_maintains_top10 sampleEncode sampleStored sampleCalls sampleStored_handled

/-! ## Progress and finalization -/

theorem allSet_eq (filesTotal : List Int) :
    ∀ (n i : Nat), i + n = filesTotal.length →
      storeProgress.allSet filesTotal n i = some (decide (∀ t ∈ filesTotal.drop i, t ≠ -1))
  | 0, i, h => by
    have : filesTotal.drop i = [] := List.drop_eq_nil_of_le (by omega)
    simp [storeProgress.allSet, this]
  | n + 1, i, h => by
    have hi : i < filesTotal.length := by omega
    have hd : filesTotal.drop i = filesTotal[i] :: filesTotal.drop (i + 1) :=
      List.drop_eq_getElem_cons hi
    simp only [storeProgress.allSet, List.getElem?_eq_getElem hi, hd, List.mem_cons,
      forall_eq_or_imp]
    by_cases ht : filesTotal[i] = -1
    · simp [ht]
    · simp only [ht, if_false]
      rw [allSet_eq filesTotal n (i + 1) (by omega)]
      simp [ht]

/-- C4: storeProgress records the update of the reporting backend and then finalizes the
query, that is runs writeToDisk and (after the progress event) finishQuery, exactly when every
backend's filesTotal differs from -1 and the sum of filesProcessed over all backends equals
the sum of filesTotal; in every other case the entry is the recorded update with at most a
progress event appended: neither writeToDisk nor finishQuery has run. -/
theorem storeProgress_finalizes_iff_complete {F : Type} [GoFloat32 F] (backends : Nat)
    (queryid : GoString) (backendidx : Nat) (progress : Result F) (g : queryState F)
    (hbackends : g.filesTotal.length = backends)
    (htotal : backendidx < g.filesTotal.length)
    (hprocessed : backendidx < g.filesProcessed.length) :
    ((∀ t ∈ (recordProgress backendidx progress g).filesTotal, t ≠ -1) ∧
        (recordProgress backendidx progress g).filesProcessed.sum =
          (recordProgress backendidx progress g).filesTotal.sum →
      storeProgress backends queryid backendidx progress g =
        (writeToDisk queryid (recordProgress backendidx progress g)).map
          (fun written => finishQuery (addEventMarshal written
            (Event.progressUpdate progress.Type_ queryid
              (recordProgress backendidx progress g).filesProcessed.sum
              (recordProgress backendidx progress g).filesTotal.sum g.numResults)))) ∧
    (¬ ((∀ t ∈ (recordProgress backendidx progress g).filesTotal, t ≠ -1) ∧
        (recordProgress backendidx progress g).filesProcessed.sum =
          (recordProgress backendidx progress g).filesTotal.sum) →
      storeProgress backends queryid backendidx progress g =
        some (if ∀ t ∈ (recordProgress backendidx progress g).filesTotal, t ≠ -1 then
          addEventMarshal (recordProgress backendidx progress g)
            (Event.progressUpdate progress.Type_ queryid
              (recordProgress backendidx progress g).filesProcessed.sum
              (recordProgress backendidx progress g).filesTotal.sum g.numResults)
          else recordProgress backendidx progress g)) := by
  have hall := allSet_eq (g.filesTotal.set backendidx progress.FilesTotal) backends 0
    (by simp [hbackends])
  simp only [List.drop_zero] at hall
  have h1 : ¬ g.filesTotal.length ≤ backendidx := by omega
  have h2 : ¬ g.filesProcessed.length ≤ backendidx := by omega
  have key : ∀ (o : Option (queryState F)) (f : queryState F → queryState F),
      (match o with
        | none => none
        | some w => some (f w)) = o.map f := by
    intro o f; cases o <;> rfl
  constructor
  · rintro ⟨hset, hsum⟩
    have hset' : ∀ t ∈ g.filesTotal.set backendidx progress.FilesTotal, t ≠ -1 := hset
    have hsum' : (g.filesProcessed.set backendidx progress.FilesProcessed).sum =
        (g.filesTotal.set backendidx progress.FilesTotal).sum := hsum
    rw [decide_eq_true hset'] at hall
    rw [hsum]
    simp only [storeProgress, h1, h2, if_false, hall, hsum', and_self, if_true]
    exact key _ _
  · intro hnot
    by_cases hset : ∀ t ∈ g.filesTotal.set backendidx progress.FilesTotal, t ≠ -1
    · have hsum : ¬ (g.filesProcessed.set backendidx progress.FilesProcessed).sum =
          (g.filesTotal.set backendidx progress.FilesTotal).sum := fun e => hnot ⟨hset, e⟩
      have hset' : ∀ t ∈ (recordProgress backendidx progress g).filesTotal, t ≠ -1 := hset
      rw [decide_eq_true hset] at hall
      simp only [storeProgress, h1, h2, if_false, hall, hsum, and_false, if_true]
      rw [if_pos hset']
      rfl
    · have hset' : ¬ ∀ t ∈ (recordProgress backendidx progress g).filesTotal, t ≠ -1 := hset
      rw [decide_eq_false hset] at hall
      simp only [storeProgress, h1, h2, if_false, hall, false_and, Bool.false_eq_true]
      rw [if_neg hset']
      rfl

/-- C4 at the sample query, whose second backend has not reported its total. -/
theorem storeProgress_finalizes_iff_complete_witness :
    ((∀ t ∈ (recordProgress 0 sampleProgress sampleState).filesTotal, t ≠ -1) ∧
        (recordProgress 0 sampleProgress sampleState).filesProcessed.sum =
          (recordProgress 0 sampleProgress sampleState).filesTotal.sum →
      storeProgress 2 (str "q") 0 sampleProgress sampleState =
        (writeToDisk (str "q") (recordProgress 0 sampleProgress sampleState)).map
          (fun written => finishQuery (addEventMarshal written
            (Event.progressUpdate sampleProgress.Type_ (str "q")
              (recordProgress 0 sampleProgress sampleState).filesProcessed.sum
              (recordProgress 0 sampleProgress sampleState).filesTotal.sum
              sampleState.numResults)))) ∧
    (¬ ((∀ t ∈ (recordProgress 0 sampleProgress sampleState).filesTotal, t ≠ -1) ∧
        (recordProgress 0 sampleProgress sampleState).filesProcessed.sum =
          (recordProgress 0 sampleProgress sampleState).filesTotal.sum) →
      storeProgress 2 (str "q") 0 sampleProgress sampleState =
        some (if ∀ t ∈ (recordProgress 0 sampleProgress sampleState).filesTotal, t ≠ -1 then
          addEventMarshal (recordProgress 0 sampleProgress sampleState)
            (Event.progressUpdate sampleProgress.Type_ (str "q")
              (recordProgress 0 sampleProgress sampleState).filesProcessed.sum
              (recordProgress 0 sampleProgress sampleState).filesTotal.sum
              sampleState.numResults)
          else recordProgress 0 sampleProgress sampleState)) :=
  storeProgress_finalizes_iff_complete 2 (str "q") 0 sampleProgress sampleState
    (by decide) (by decide) (by decide)

/-! ## The newest version of a package -/

theorem mapGet?_mapSet {V : Type} (m : List (GoString × V)) (k k' : GoString) (v : V) :
    mapGet? (mapSet m k v) k' = if k = k' then some v else mapGet? m k' := by
  induction m with
  | nil => simp [mapSet, mapGet?]
  | cons kv rest ih =>
    obtain ⟨k0, v0⟩ := kv
    by_cases h0 : k0 = k
    · subst h0
      by_cases h1 : k0 = k' <;> simp [mapSet, mapGet?, h1]
    · by_cases h1 : k0 = k'
      · have h2 : ¬ k = k' := fun e => h0 (h1.trans e.symm)
        have h3 : ¬ k' = k := fun e => h2 e.symm
        subst h1
        simp [mapSet, mapGet?, h2, h3]
      · simp [mapSet, mapGet?, h0, h1, ih]

theorem mapGetD_mapSet {V : Type} (m : List (GoString × V)) (k k' : GoString) (v d : V) :
    mapGetD (mapSet m k v) k' d = if k = k' then v else mapGetD m k' d := by
  unfold mapGetD
  rw [mapGet?_mapSet]
  split_ifs <;> rfl

theorem versionsOf_cons (pkg : GoString) (rest : List GoString) (name n v : GoString)
    (h : splitPackage pkg = some (n, v)) :
    versionsOf (pkg :: rest) name = if n = name then v :: versionsOf rest name
      else versionsOf rest name := by
  unfold versionsOf
  by_cases hn : n = name <;> simp [List.filterMap_cons, h, hn]

theorem packageVersionsLoop_eq (pkgs : List GoString) :
    ∀ (pv m : List (GoString × GoString)), packageVersionsLoop pkgs pv = some m →
      ∀ name, mapGet? m name = (versionsOf pkgs name).foldl pickVersion (mapGet? pv name) := by
  induction pkgs with
  | nil =>
    intro pv m h name
    simp only [packageVersionsLoop, Option.some.injEq] at h
    simp [versionsOf, h]
  | cons pkg rest ih =>
    intro pv m h name
    cases hs : splitPackage pkg with
    | none => simp [packageVersionsLoop, hs] at h
    | some nv =>
      obtain ⟨n, v⟩ := nv
      rw [versionsOf_cons pkg rest name n v hs]
      simp only [packageVersionsLoop, hs] at h
      cases hb : mapGet? pv n with
      | none =>
        simp only [hb] at h
        rw [ih _ _ h name, mapGet?_mapSet]
        by_cases hn : n = name
        · subst hn
          simp [hb, pickVersion]
        · simp [hn]
      | some best =>
        simp only [hb] at h
        by_cases hv : v > best
        · simp only [hv, if_true] at h
          rw [ih _ _ h name, mapGet?_mapSet]
          by_cases hn : n = name
          · subst hn
            simp [hb, pickVersion, hv]
          · simp [hn]
        · simp only [hv, if_false] at h
          rw [ih _ _ h name]
          by_cases hn : n = name
          · subst hn
            simp [hb, pickVersion, hv]
          · simp [hn]

theorem foldl_pickVersion_some (vs : List GoString) :
    ∀ b : GoString, ∃ v, vs.foldl pickVersion (some b) = some v ∧ v ∈ b :: vs ∧
      ∀ w ∈ b :: vs, w ≤ v := by
  induction vs with
  | nil => intro b; exact ⟨b, rfl, by simp, by simp⟩
  | cons x xs ih =>
    intro b
    by_cases hx : x > b
    · obtain ⟨v, hv, hmem, hmax⟩ := ih x
      refine ⟨v, by simp [List.foldl, pickVersion, hx, hv], ?_, ?_⟩
      · rcases List.mem_cons.mp hmem with e | e
        · simp [e]
        · simp [e]
      · intro w hw
        rcases List.mem_cons.mp hw with e | e
        · exact e ▸ le_trans (le_of_lt hx) (hmax x (by simp))
        · exact hmax w e
    · obtain ⟨v, hv, hmem, hmax⟩ := ih b
      refine ⟨v, by simp [List.foldl, pickVersion, hx, hv], ?_, ?_⟩
      · rcases List.mem_cons.mp hmem with e | e
        · simp [e]
        · simp [e]
      · intro w hw
        rcases List.mem_cons.mp hw with e | e
        · exact e ▸ hmax b (by simp)
        · rcases List.mem_cons.mp e with e' | e'
          · exact e' ▸ le_trans (not_lt.mp hx) (hmax b (by simp))
          · exact hmax w (by simp [e'])

theorem foldl_pickVersion_none (vs : List GoString) :
    (vs = [] ∧ vs.foldl pickVersion none = none) ∨
      ∃ v, vs.foldl pickVersion none = some v ∧ v ∈ vs ∧ ∀ w ∈ vs, w ≤ v := by
  cases vs with
  | nil => exact Or.inl ⟨rfl, rfl⟩
  | cons x xs =>
    right
    obtain ⟨v, hv, hmem, hmax⟩ := foldl_pickVersion_some xs x
    exact ⟨v, by simpa [List.foldl, pickVersion] using hv, hmem, hmax⟩

theorem mem_versionsOf (pkgs : List GoString) (name v : GoString) :
    v ∈ versionsOf pkgs name ↔ ∃ pkg ∈ pkgs, splitPackage pkg = some (name, v) := by
  unfold versionsOf
  rw [List.mem_filterMap]
  constructor
  · rintro ⟨pkg, hp, h⟩
    refine ⟨pkg, hp, ?_⟩
    cases hs : splitPackage pkg with
    | none => simp [hs] at h
    | some nv =>
      obtain ⟨n, w⟩ := nv
      simp only [hs] at h
      split_ifs at h with hn
      simp only [Option.some.injEq] at h
      rw [hn, h]
  · rintro ⟨pkg, hp, h⟩
    exact ⟨pkg, hp, by simp [h]⟩

theorem packageVersions_spec (pkgs : List GoString) (pv : List (GoString × GoString))
    (h : packageVersionsLoop pkgs [] = some pv) (name version : GoString) :
    mapGet? pv name = some version ↔
      ((∃ pkg ∈ pkgs, splitPackage pkg = some (name, version)) ∧
        ∀ pkg ∈ pkgs, ∀ v, splitPackage pkg = some (name, v) → v ≤ version) := by
  have heq := packageVersionsLoop_eq pkgs [] pv h name
  simp only [mapGet?] at heq
  rw [heq]
  constructor
  · intro hv
    rcases foldl_pickVersion_none (versionsOf pkgs name) with ⟨-, hnone⟩ | ⟨v, hsome, hmem, hmax⟩
    · rw [hnone] at hv; cases hv
    · rw [hsome] at hv
      have e : v = version := Option.some.inj hv
      subst e
      exact ⟨(mem_versionsOf pkgs name v).mp hmem,
        fun pkg hp w hw => hmax w ((mem_versionsOf pkgs name w).mpr ⟨pkg, hp, hw⟩)⟩
  · rintro ⟨hex, hmax'⟩
    have hmem' : version ∈ versionsOf pkgs name := (mem_versionsOf pkgs name version).mpr hex
    rcases foldl_pickVersion_none (versionsOf pkgs name) with ⟨hnil, -⟩ | ⟨v, hsome, hmem, hmax⟩
    · rw [hnil] at hmem'; cases hmem'
    · rw [hsome]
      obtain ⟨pkg, hp, hs⟩ := (mem_versionsOf pkgs name v).mp hmem
      exact congrArg some (le_antisymm (hmax' pkg hp v hs) (hmax version hmem'))

/-- C6: for every set of packages of the form name_version, the loop of writeToDisk over the
package map returns, and the version it selects for a name is the greatest, under byte-wise
lexicographic comparison, of the versions (the part after the first '_') of all packages with
that name; the selection is the same for every order in which the map is iterated.  Between
foo_10 and foo_9 it selects the version 9, in both orders. -/
theorem writeToDisk_selects_greatest_version (pkgs : List GoString)
    (hwf : ∀ pkg ∈ pkgs, 95 ∈ pkg) :
    ∃ pv, packageVersionsLoop pkgs [] = some pv ∧
      (∀ name version, mapGet? pv name = some version ↔
        ((∃ pkg ∈ pkgs, splitPackage pkg = some (name, version)) ∧
          ∀ pkg ∈ pkgs, ∀ v, splitPackage pkg = some (name, v) → v ≤ version)) ∧
      (∀ pkgs' : List GoString, pkgs'.Perm pkgs →
        ∃ pv', packageVersionsLoop pkgs' [] = some pv' ∧
          ∀ name, mapGet? pv' name = mapGet? pv name) ∧
      packageVersionsLoop [str "foo_10", str "foo_9"] [] = some [(str "foo", str "9")] ∧
      packageVersionsLoop [str "foo_9", str "foo_10"] [] = some [(str "foo", str "9")] := by
  obtain ⟨pv, hpv⟩ := packageVersionsLoop_isSome pkgs hwf []
  refine ⟨pv, hpv, packageVersions_spec pkgs pv hpv, ?_, by decide, by decide⟩
  intro pkgs' hperm
  have hwf' : ∀ pkg ∈ pkgs', 95 ∈ pkg := fun pkg hp => hwf pkg (hperm.mem_iff.mp hp)
  obtain ⟨pv', hpv'⟩ := packageVersionsLoop_isSome pkgs' hwf' []
  refine ⟨pv', hpv', ?_⟩
  intro name
  have transfer : ∀ version, mapGet? pv' name = some version ↔ mapGet? pv name = some version := by
    intro version
    rw [packageVersions_spec pkgs' pv' hpv', packageVersions_spec pkgs pv hpv]
    constructor
    · rintro ⟨⟨pkg, hp, hs⟩, hmax⟩
      exact ⟨⟨pkg, hperm.mem_iff.mp hp, hs⟩,
        fun q hq v hv => hmax q (hperm.mem_iff.mpr hq) v hv⟩
    · rintro ⟨⟨pkg, hp, hs⟩, hmax⟩
      exact ⟨⟨pkg, hperm.mem_iff.mpr hp, hs⟩,
        fun q hq v hv => hmax q (hperm.mem_iff.mp hq) v hv⟩
  cases hv : mapGet? pv name with
  | some version => exact (transfer version).mpr hv
  | none =>
    cases hv' : mapGet? pv' name with
    | none => rfl
    | some version =>
      have := (transfer version).mp hv'
      rw [hv] at this
      cases this

/-- C6 at the packages of the sample query. -/
theorem writeToDisk_selects_greatest_version_witness :
    ∃ pv, packageVersionsLoop sampleState.allPackages [] = some pv ∧
      (∀ name version, mapGet? pv name = some version ↔
        ((∃ pkg ∈ sampleState.allPackages, splitPackage pkg = some (name, version)) ∧
          ∀ pkg ∈ sampleState.allPackages, ∀ v,
            splitPackage pkg = some (name, v) → v ≤ version)) ∧
      (∀ pkgs' : List GoString, pkgs'.Perm sampleState.allPackages →
        ∃ pv', packageVersionsLoop pkgs' [] = some pv' ∧
          ∀ name, mapGet? pv' name = mapGet? pv name) ∧
      packageVersionsLoop [str "foo_10", str "foo_9"] [] = some [(str "foo", str "9")] ∧
      packageVersionsLoop [str "foo_9", str "foo_10"] [] = some [(str "foo", str "9")] :=
  writeToDisk_selects_greatest_version sampleState.allPackages (by decide)

/-! ## Results per package -/

theorem byPkgLoop_eq {F : Type} (pv : List (GoString × GoString))
    (ps : List (resultPointer F)) :
    ∀ (acc m : List (GoString × List (resultPointer F))), byPkgLoop pv ps acc = some m →
      (∀ name, (mapGetD acc name []).length ≤ resultsPerPackage) →
      ∀ name, mapGetD m name [] =
        (mapGetD acc name [] ++ ps.filter (inNewestVersion pv name)).take resultsPerPackage := by
  induction ps with
  | nil =>
    intro acc m h hacc name
    simp only [byPkgLoop, Option.some.injEq] at h
    subst h
    simp [List.take_of_length_le (hacc name)]
  | cons p rest ih =>
    intro acc m h hacc name
    cases hs : splitPackage p.packageName with
    | none => simp [byPkgLoop, hs] at h
    | some nv =>
      obtain ⟨n, v⟩ := nv
      simp only [byPkgLoop, hs] at h
      by_cases hver : mapGetD pv n [] ≠ v
      · rw [if_pos hver] at h
        have hsel : inNewestVersion pv name p = false := by
          simp [inNewestVersion, hs, hver]
        rw [ih acc m h hacc name, List.filter_cons, hsel]
        simp
      · rw [if_neg hver] at h
        have hver' : mapGetD pv n [] = v := not_not.mp hver
        by_cases hfull : (mapGetD acc n []).length ≥ resultsPerPackage
        · rw [if_pos hfull] at h
          rw [ih acc m h hacc name, List.filter_cons]
          by_cases hn : n = name
          · subst hn
            have hlen : (mapGetD acc n []).length = resultsPerPackage :=
              le_antisymm (hacc n) hfull
            have hsel : inNewestVersion pv n p = true := by
              simp [inNewestVersion, hs, hver']
            rw [hsel]
            simp only [if_true]
            rw [List.take_append_of_le_length (le_of_eq hlen.symm),
              List.take_append_of_le_length (le_of_eq hlen.symm)]
          · have hsel : inNewestVersion pv name p = false := by
              simp [inNewestVersion, hs, hn]
            rw [hsel]
            simp
        · rw [if_neg hfull] at h
          have hacc' : ∀ name, (mapGetD (mapSet acc n (mapGetD acc n [] ++ [p])) name []).length ≤
              resultsPerPackage := by
            intro k
            rw [mapGetD_mapSet]
            split_ifs
            · simp only [List.length_append, List.length_singleton]
              omega
            · exact hacc k
          rw [ih _ m h hacc' name, mapGetD_mapSet, List.filter_cons]
          by_cases hn : n = name
          · subst hn
            have hsel : inNewestVersion pv n p = true := by
              simp [inNewestVersion, hs, hver']
            simp [hsel]
          · have hsel : inNewestVersion pv name p = false := by
              simp [inNewestVersion, hs, hn]
            simp [hsel, hn]

theorem packageVersions_isSome_of_mem (pkgs : List GoString)
    (pv : List (GoString × GoString)) (h : packageVersionsLoop pkgs [] = some pv)
    (pkg n v : GoString) (hp : pkg ∈ pkgs) (hs : splitPackage pkg = some (n, v)) :
    ∃ version, mapGet? pv n = some version := by
  have heq := packageVersionsLoop_eq pkgs [] pv h n
  simp only [mapGet?] at heq
  rcases foldl_pickVersion_none (versionsOf pkgs n) with ⟨hnil, -⟩ | ⟨w, hsome, -, -⟩
  · have : v ∈ versionsOf pkgs n := (mem_versionsOf pkgs n v).mpr ⟨pkg, hp, hs⟩
    rw [hnil] at this
    cases this
  · exact ⟨w, heq.trans hsome⟩

theorem inNewestVersion_eq {F : Type} (pkgs : List GoString)
    (pv : List (GoString × GoString)) (h : packageVersionsLoop pkgs [] = some pv)
    (name : GoString) (p : resultPointer F) (hp : p.packageName ∈ pkgs) :
    inNewestVersion pv name p = inSelectedVersion pv name p := by
  unfold inNewestVersion inSelectedVersion
  cases hs : splitPackage p.packageName with
  | none => cases mapGet? pv name <;> simp
  | some nv =>
    obtain ⟨n, v⟩ := nv
    by_cases hn : n = name
    · subst hn
      obtain ⟨version, hv⟩ := packageVersions_isSome_of_mem pkgs pv h _ n v hp hs
      simp [hv, mapGetD, eq_comm]
    · cases mapGet? pv name <;> simp [hn]

theorem writeToDisk_resultPointersByPkg {F : Type} [GoFloat32 F] (queryid : GoString)
    (s : queryState F) : (sendPaginationUpdate queryid s s).resultPointersByPkg =
      s.resultPointersByPkg := by
  unfold sendPaginationUpdate addEventMarshal
  split_ifs <;> rfl

/-- C5: after writeToDisk (on a query with recorded pointers whose packages have the form
name_version and are in the package set), for every source package name the per-package list
has at most resultsPerPackage (2) pointers, every one of them belongs to the version selected
as newest for that name, and the list is exactly the first (up to 2) pointers of that package
version in the ranking-sorted pointer list, in that order. -/
theorem writeToDisk_groups_by_package {F : Type} [GoFloat32 F] (queryid : GoString)
    (g : queryState F) (hne : g.resultPointers ≠ []) (hwf : PackagesWellFormed g)
    (hall : ∀ p ∈ g.resultPointers, p.packageName ∈ g.allPackages) :
    ∃ g' pv, writeToDisk queryid g = some g' ∧
      packageVersionsLoop g.allPackages [] = some pv ∧
      g'.resultPointers = sortSort pointerByRanking.Less g.resultPointers ∧
      ∀ name,
        (mapGetD g'.resultPointersByPkg name []).length ≤ resultsPerPackage ∧
        (∀ p ∈ mapGetD g'.resultPointersByPkg name [], ∃ version,
          mapGet? pv name = some version ∧
          splitPackage p.packageName = some (name, version)) ∧
        mapGetD g'.resultPointersByPkg name [] =
          (g'.resultPointers.filter (inSelectedVersion pv name)).take resultsPerPackage := by
  obtain ⟨pv, bypkg, hpv, hby, h⟩ := writeToDisk_eq queryid g hne hwf
  refine ⟨_, pv, h, hpv, ?_, ?_⟩
  · rw [sendPaginationUpdate_resultPointers]; rfl
  · intro name
    rw [writeToDisk_resultPointersByPkg, sendPaginationUpdate_resultPointers]
    have hloop := byPkgLoop_eq pv _ [] bypkg hby (by intro k; simp [mapGetD, mapGet?]) name
    have hfilter : (sortSort pointerByRanking.Less g.resultPointers).filter
        (inNewestVersion pv name) =
        (sortSort pointerByRanking.Less g.resultPointers).filter
          (inSelectedVersion pv name) := by
      apply List.filter_congr
      intro p hp
      exact inNewestVersion_eq g.allPackages pv hpv name p
        (hall p ((sortSort_perm _ _).mem_iff.mp hp))
    have hlist : mapGetD bypkg name [] =
        ((sortSort pointerByRanking.Less g.resultPointers).filter
          (inSelectedVersion pv name)).take resultsPerPackage := by
      rw [hloop, hfilter]
      simp [mapGetD, mapGet?]
    refine ⟨?_, ?_, hlist⟩
    · show (mapGetD bypkg name []).length ≤ resultsPerPackage
      rw [hlist, List.length_take]
      exact Nat.min_le_left _ _
    · intro p hp
      have hp' : p ∈ mapGetD bypkg name [] := hp
      rw [hlist] at hp'
      have hsel := (List.mem_filter.mp (List.mem_of_mem_take hp')).2
      unfold inSelectedVersion at hsel
      cases hv : mapGet? pv name with
      | none => simp [hv] at hsel
      | some version =>
        simp only [hv, decide_eq_true_eq] at hsel
        exact ⟨version, rfl, hsel⟩

/-- C5 at the sample query: of the package foo the version 9 is selected, and its two
pointers are kept in ranking order. -/
theorem writeToDisk_groups_by_package_witness :
    ∃ g' pv, writeToDisk (str "q") sampleState = some g' ∧
      packageVersionsLoop sampleState.allPackages [] = some pv ∧
      g'.resultPointers = sortSort pointerByRanking.Less sampleState.resultPointers ∧
      ∀ name,
        (mapGetD g'.resultPointersByPkg name []).length ≤ resultsPerPackage ∧
        (∀ p ∈ mapGetD g'.resultPointersByPkg name [], ∃ version,
          mapGet? pv name = some version ∧
          splitPackage p.packageName = some (name, version)) ∧
        mapGetD g'.resultPointersByPkg name [] =
          (g'.resultPointers.filter (inSelectedVersion pv name)).take resultsPerPackage :=
  writeToDisk_groups_by_package (str "q") sampleState (by decide) sampleState_wellFormed
    (by decide)

/-! ## The number of result pages -/

theorem findShift_sound (p : Nat → Bool) :
    ∀ (fuel s0 s : Nat), findShift p fuel s0 = some s → p s = true
  | 0, _, _, h => by simp [findShift] at h
  | fuel + 1, s0, s, h => by
    unfold findShift at h
    by_cases hp : p s0 = true
    · rw [if_pos hp] at h
      cases h
      exact hp
    · rw [if_neg hp] at h
      exact findShift_sound p fuel (s0 + 1) s h

theorem findShift_complete (p : Nat → Bool) :
    ∀ (fuel s0 t : Nat), s0 ≤ t → t < s0 + fuel → p t = true →
      ∃ s, findShift p fuel s0 = some s
  | 0, s0, t, h1, h2, _ => by omega
  | fuel + 1, s0, t, h1, h2, hp => by
    unfold findShift
    by_cases hp0 : p s0 = true
    · exact ⟨s0, by rw [if_pos hp0]⟩
    · rw [if_neg hp0]
      have hne : s0 ≠ t := fun e => hp0 (e ▸ hp)
      exact findShift_complete p fuel (s0 + 1) t (by omega) (by omega) hp

theorem rneDiv_bounds (X Q : Nat) (hQ : 0 < Q) :
    2 * (Q * rneDiv X Q) ≤ 2 * X + Q ∧ 2 * X ≤ 2 * (Q * rneDiv X Q) + Q := by
  have hdm := Nat.div_add_mod X Q
  have hlt := Nat.mod_lt X hQ
  unfold rneDiv
  simp only
  split_ifs with h1 h2 h3
  · generalize Q * (X / Q) = a at hdm ⊢
    omega
  · rw [Nat.mul_add, Nat.mul_one]
    generalize Q * (X / Q) = a at hdm ⊢
    omega
  · generalize Q * (X / Q) = a at hdm ⊢
    omega
  · rw [Nat.mul_add, Nat.mul_one]
    generalize Q * (X / Q) = a at hdm ⊢
    omega

theorem rneDiv_exact (k Q : Nat) (hQ : 0 < Q) : rneDiv (Q * k) Q = k := by
  unfold rneDiv
  simp [Nat.mul_div_cancel_left k hQ, hQ]

theorem exists_shift (c : Nat) (h0 : 0 < c) (h : c < 2 ^ 53) :
    ∃ t, t ≤ 52 ∧ 2 ^ 52 ≤ c * 2 ^ t ∧ c * 2 ^ t < 2 ^ 53 := by
  have hne : c ≠ 0 := Nat.pos_iff_ne_zero.mp h0
  have hL1 : 2 ^ c.log2 ≤ c := Nat.log2_self_le hne
  have hL2 : c < 2 ^ (c.log2 + 1) := Nat.lt_log2_self
  have hL3 : c.log2 < 53 := (Nat.log2_lt hne).mpr h
  refine ⟨52 - c.log2, by omega, ?_, ?_⟩
  · calc 2 ^ 52 = 2 ^ c.log2 * 2 ^ (52 - c.log2) := by
          rw [← Nat.pow_add]; congr 1; omega
      _ ≤ c * 2 ^ (52 - c.log2) := Nat.mul_le_mul_right _ hL1
  · calc c * 2 ^ (52 - c.log2) < 2 ^ (c.log2 + 1) * 2 ^ (52 - c.log2) :=
          Nat.mul_lt_mul_of_pos_right hL2 (Nat.two_pow_pos _)
      _ = 2 ^ 53 := by rw [← Nat.pow_add]; congr 1; omega

theorem roundQuot_up (P Q s : Nat) (hP : P ≠ 0)
    (h : findShift (fun s => 2 ^ 52 * Q ≤ P * 2 ^ s ∧ P * 2 ^ s < 2 ^ 53 * Q) 1075 0 = some s) :
    roundQuot P Q = { mant := rneDiv (P * 2 ^ s) Q, exp := -(s : Int) } := by
  unfold roundQuot
  rw [if_neg hP]
  simp only [h]

/-- The conversion `float64(c)` is exact below `2 ^ 53`. -/
theorem float64_exact (c : Nat) (h0 : 0 < c) (h : c < 2 ^ 53) :
    ∃ s : Nat, float64 c = { mant := c * 2 ^ s, exp := -(s : Int) } := by
  obtain ⟨t, ht, h1, h2⟩ := exists_shift c h0 h
  obtain ⟨s, hs⟩ := findShift_complete
    (fun s => decide (2 ^ 52 * 1 ≤ c * 2 ^ s ∧ c * 2 ^ s < 2 ^ 53 * 1)) 1075 0 t
    (Nat.zero_le _) (by omega) (by simp only [Nat.mul_one]; exact decide_eq_true ⟨h1, h2⟩)
  refine ⟨s, ?_⟩
  unfold float64
  rw [roundQuot_up c 1 s (Nat.pos_iff_ne_zero.mp h0) hs]
  have := rneDiv_exact (c * 2 ^ s) 1 (by decide)
  rw [Nat.one_mul] at this
  rw [this]

theorem toInt_exact (c s : Nat) :
    ({ mant := c * 2 ^ s, exp := -(s : Int) } : Float64).toInt = (c : Int) := by
  unfold Float64.toInt
  by_cases hs : s = 0
  · subst hs
    simp
  · have hneg : ¬ (0 : Int) ≤ -(s : Int) := by omega
    simp only [hneg, if_false, Int.natAbs_neg, Int.natAbs_ofNat]
    rw [Nat.mul_div_cancel _ (Nat.two_pow_pos _)]

theorem float64_toInt (c : Nat) (h : c < 2 ^ 53) : (float64 c).toInt = (c : Int) := by
  by_cases h0 : c = 0
  · subst h0
    decide
  · obtain ⟨s, hs⟩ := float64_exact c (Nat.pos_of_ne_zero h0) h
    rw [hs, toInt_exact]

theorem exists_shift_tenth (n : Nat) (h0 : 0 < n) (h : n < 2 ^ 53) :
    ∃ t, t ≤ 56 ∧ 2 ^ 52 * 10 ≤ n * 2 ^ t ∧ n * 2 ^ t < 2 ^ 53 * 10 := by
  obtain ⟨u, hu, h1, h2⟩ := exists_shift n h0 h
  have e3 : n * 2 ^ (u + 3) = 8 * (n * 2 ^ u) := by rw [Nat.pow_add]; ring
  have e4 : n * 2 ^ (u + 4) = 16 * (n * 2 ^ u) := by rw [Nat.pow_add]; ring
  by_cases hc : 2 ^ 52 * 10 ≤ n * 2 ^ (u + 3)
  · exact ⟨u + 3, by omega, hc, by omega⟩
  · exact ⟨u + 4, by omega, by omega, by omega⟩

/-- The `float64` quotient of `n` and `10` (both scaled by `A`), rounded up to an integer,
is the ceiling of `n / 10`. -/
theorem roundQuot_tenth (n A : Nat) (h0 : 0 < n) (h : n < 2 ^ 53) (hA : 0 < A) :
    ∃ (t m : Nat), roundQuot (n * A) (10 * A) = { mant := m, exp := -(t : Int) } ∧ 0 < t ∧
      (m + 2 ^ t - 1) / 2 ^ t = (n + 9) / 10 := by
  obtain ⟨t0, ht0, h1, h2⟩ := exists_shift_tenth n h0 h
  have hcancel : ∀ s : Nat, (2 ^ 52 * (10 * A) ≤ n * A * 2 ^ s ∧
      n * A * 2 ^ s < 2 ^ 53 * (10 * A)) ↔
      (2 ^ 52 * 10 ≤ n * 2 ^ s ∧ n * 2 ^ s < 2 ^ 53 * 10) := by
    intro s
    have e1 : 2 ^ 52 * (10 * A) = (2 ^ 52 * 10) * A := by ring
    have e2 : n * A * 2 ^ s = (n * 2 ^ s) * A := by ring
    have e3 : 2 ^ 53 * (10 * A) = (2 ^ 53 * 10) * A := by ring
    rw [e1, e2, e3]
    constructor
    · rintro ⟨a, b⟩
      exact ⟨Nat.le_of_mul_le_mul_right a hA, Nat.lt_of_mul_lt_mul_right b⟩
    · rintro ⟨a, b⟩
      exact ⟨Nat.mul_le_mul_right A a, Nat.mul_lt_mul_of_pos_right b hA⟩
  obtain ⟨t, hfind⟩ := findShift_complete
    (fun s => decide (2 ^ 52 * (10 * A) ≤ n * A * 2 ^ s ∧ n * A * 2 ^ s < 2 ^ 53 * (10 * A)))
    1075 0 t0 (Nat.zero_le _) (by omega) (decide_eq_true ((hcancel t0).mpr ⟨h1, h2⟩))
  have hsound := findShift_sound _ _ _ _ hfind
  have hU := (hcancel t).mp (of_decide_eq_true hsound)
  have hnA : n * A ≠ 0 := Nat.pos_iff_ne_zero.mp (Nat.mul_pos h0 hA)
  refine ⟨t, rneDiv (n * A * 2 ^ t) (10 * A), roundQuot_up _ _ t hnA hfind, ?_, ?_⟩
  · rcases Nat.eq_zero_or_pos t with ht | ht
    · subst ht
      simp only [Nat.pow_zero, Nat.mul_one] at hU
      omega
    · exact ht
  · generalize hT : 2 ^ t = T at hU ⊢
    have hT6 : 6 ≤ T := by
      by_contra hlt
      have : n * T ≤ n * 5 := Nat.mul_le_mul_left n (by omega)
      omega
    have hb := rneDiv_bounds (n * A * T) (10 * A) (by omega)
    generalize hm : rneDiv (n * A * T) (10 * A) = m at hb
    have hdm := Nat.div_add_mod n 10
    have hr := Nat.mod_lt n (show 0 < 10 by decide)
    generalize hk : n / 10 = k at hdm
    generalize hrr : n % 10 = r at hdm hr
    have hceil : (n + 9) / 10 = if r = 0 then k else k + 1 := by
      split_ifs <;> omega
    rw [hceil]
    by_cases hr0 : r = 0
    · rw [if_pos hr0]
      have hn : n = 10 * k := by omega
      have hexact : n * A * T = (10 * A) * (k * T) := by rw [hn]; ring
      rw [hexact, rneDiv_exact _ _ (by omega)] at hm
      rw [← hm]
      apply Nat.div_eq_of_lt_le
      · omega
      · rw [Nat.succ_mul]; omega
    · rw [if_neg hr0]
      have hn : n * T = 10 * (k * T) + r * T := by rw [← hdm]; ring
      have hrT1 : T ≤ r * T := Nat.le_mul_of_pos_left T (by omega)
      have hrT2 : r * T ≤ 9 * T := Nat.mul_le_mul_right T (by omega)
      have hb1 : 2 * (10 * m) ≤ 2 * (n * T) + 10 := by
        have e1 : 2 * (10 * A * m) = (2 * (10 * m)) * A := by ring
        have e2 : 2 * (n * A * T) + 10 * A = (2 * (n * T) + 10) * A := by ring
        rw [e1, e2] at hb
        exact Nat.le_of_mul_le_mul_right hb.1 hA
      have hb2 : 2 * (n * T) ≤ 2 * (10 * m) + 10 := by
        have e1 : 2 * (10 * A * m) + 10 * A = (2 * (10 * m) + 10) * A := by ring
        have e2 : 2 * (n * A * T) = (2 * (n * T)) * A := by ring
        rw [e1, e2] at hb
        exact Nat.le_of_mul_le_mul_right hb.2 hA
      apply Nat.div_eq_of_lt_le
      · rw [Nat.succ_mul]; omega
      · rw [Nat.succ_mul, Nat.succ_mul]; omega

theorem float64_ten : float64 resultsPerPage = { mant := 10 * 2 ^ 49, exp := -(49 : Int) } := by
  decide

/-- The page count computed by `writeToDisk` for `n` pointers. -/
theorem pages_eq (n : Nat) (h0 : 0 < n) (h : n < 2 ^ 53) :
    (mathCeil ((float64 n).div (float64 resultsPerPage))).toInt = (((n + 9) / 10 : Nat) : Int) := by
  obtain ⟨s, hs⟩ := float64_exact n h0 h
  have hscale : ∃ A, 0 < A ∧ (float64 n).div (float64 resultsPerPage) =
      roundQuot (n * A) (10 * A) := by
    rw [hs, float64_ten]
    unfold Float64.div
    simp only
    by_cases hle : s ≤ 49
    · refine ⟨2 ^ 49, Nat.two_pow_pos _, ?_⟩
      have e1 : (-(s : Int) - -49).toNat = 49 - s := by omega
      have e2 : (-(49 : Int) - -(s : Int)).toNat = 0 := by omega
      rw [e1, e2, Nat.pow_zero, Nat.mul_one, Nat.mul_assoc, ← Nat.pow_add]
      congr 3
      omega
    · refine ⟨2 ^ s, Nat.two_pow_pos _, ?_⟩
      have e1 : (-(s : Int) - -49).toNat = 0 := by omega
      have e2 : (-(49 : Int) - -(s : Int)).toNat = s - 49 := by omega
      rw [e1, e2, Nat.pow_zero, Nat.mul_one, Nat.mul_assoc, ← Nat.pow_add]
      congr 3
      omega
  obtain ⟨A, hA, hdiv⟩ := hscale
  obtain ⟨t, m, hq, ht, hc⟩ := roundQuot_tenth n A h0 h hA
  rw [hdiv, hq]
  have hneg : ¬ (0 : Int) ≤ -(t : Int) := by omega
  unfold mathCeil
  simp only [hneg, if_false, Int.natAbs_neg, Int.natAbs_ofNat]
  rw [hc]
  exact float64_toInt _ (by omega)

theorem sendPaginationUpdate_resultPages {F : Type} (queryid : GoString)
    (s g : queryState F) : (sendPaginationUpdate queryid s g).resultPages = g.resultPages := by
  unfold sendPaginationUpdate addEventMarshal
  split_ifs <;> rfl

theorem writeToDisk_pages {F : Type} [GoFloat32 F] (queryid : GoString) (g : queryState F)
    (hne : g.resultPointers ≠ []) (hbound : g.resultPointers.length < 2 ^ 53)
    (hwf : PackagesWellFormed g) :
    ∃ g', writeToDisk queryid g = some g' ∧
      g'.resultPages = (((g.resultPointers.length + 9) / 10 : Nat) : Int) ∧
      g'.events = g.events ++ [Event.pagination queryid g'.resultPages] := by
  obtain ⟨pv, bypkg, -, -, h⟩ := writeToDisk_eq queryid g hne hwf
  have hpos : 0 < g.resultPointers.length := List.length_pos.mpr hne
  have hpages : (writtenState g pv bypkg).resultPages =
      (((g.resultPointers.length + 9) / 10 : Nat) : Int) := pages_eq _ hpos hbound
  refine ⟨_, h, ?_, ?_⟩
  · rw [sendPaginationUpdate_resultPages, hpages]
  · rw [sendPaginationUpdate_resultPages]
    have hgt : (writtenState g pv bypkg).resultPages > 0 := by
      rw [hpages]
      have : 0 < (g.resultPointers.length + 9) / 10 := by omega
      exact_mod_cast this
    simp only [sendPaginationUpdate, hgt, if_true, addEventMarshal]
    rfl

/-- C7: for every query with n >= 1 recorded result pointers (n below 2 ^ 53, packages of the
form name_version), writeToDisk returns and sets resultPages to the ceiling of
n / resultsPerPage with resultsPerPage = 10, that is the least integer p with 10 * p >= n. -/
theorem writeToDisk_resultPages_ceil {F : Type} [GoFloat32 F] (queryid : GoString)
    (g : queryState F) (hn : 1 ≤ g.resultPointers.length)
    (hbound : g.resultPointers.length < 2 ^ 53) (hwf : PackagesWellFormed g) :
    ∃ g', writeToDisk queryid g = some g' ∧
      g'.resultPages = ⌈(g.resultPointers.length : ℚ) / (resultsPerPage : ℚ)⌉ ∧
      (resultsPerPage : Int) * g'.resultPages ≥ (g.resultPointers.length : Int) ∧
      ∀ p : Int, (resultsPerPage : Int) * p ≥ (g.resultPointers.length : Int) →
        g'.resultPages ≤ p := by
  have hne : g.resultPointers ≠ [] := List.length_pos.mp hn
  obtain ⟨g', h, hpages, -⟩ := writeToDisk_pages queryid g hne hbound hwf
  refine ⟨g', h, ?_, ?_, ?_⟩
  · rw [hpages, eq_comm, Int.ceil_eq_iff]
    have hdm := Nat.div_add_mod (g.resultPointers.length + 9) 10
    have hr := Nat.mod_lt (g.resultPointers.length + 9) (show 0 < 10 by decide)
    generalize (g.resultPointers.length + 9) / 10 = c at hdm ⊢
    generalize (g.resultPointers.length + 9) % 10 = r at hdm hr
    generalize g.resultPointers.length = n at hdm ⊢
    have hc1 : (n : ℚ) = 10 * c + r - 9 := by
      have : ((n + 9 : Nat) : ℚ) = ((10 * c + r : Nat) : ℚ) := by rw [hdm]
      push_cast at this
      linarith
    have hr' : (r : ℚ) ≤ 9 := by exact_mod_cast (show r ≤ 9 by omega)
    have hr0 : (0 : ℚ) ≤ r := by positivity
    simp only [resultsPerPage, Int.cast_natCast, Nat.cast_ofNat]
    constructor
    · rw [lt_div_iff₀ (by norm_num)]; linarith
    · rw [div_le_iff₀ (by norm_num)]; linarith
  · rw [hpages]
    simp only [resultsPerPage]
    omega
  · intro p hp
    rw [hpages]
    simp only [resultsPerPage] at hp
    omega

/-- C7 at the sample query: three pointers make one page. -/
theorem writeToDisk_resultPages_ceil_witness :
    ∃ g', writeToDisk (str "q") sampleState = some g' ∧
      g'.resultPages = ⌈(sampleState.resultPointers.length : ℚ) / (resultsPerPage : ℚ)⌉ ∧
      (resultsPerPage : Int) * g'.resultPages ≥ (sampleState.resultPointers.length : Int) ∧
      ∀ p : Int, (resultsPerPage : Int) * p ≥ (sampleState.resultPointers.length : Int) →
        g'.resultPages ≤ p :=
  writeToDisk_resultPages_ceil (str "q") sampleState (by decide) (by decide)
    sampleState_wellFormed

/-- C8, as stated, fails for a query without results: the finalization of a new query whose
only backend reports 0 of 0 files runs writeToDisk, which returns at once, and the events of
the query are the progress update and the end of the stream, without a pagination event. -/
theorem finalization_without_results_sends_no_pagination :
    (freshQueryState Fixed 1).resultPointers.length = 0 ∧
    writeToDisk (str "q") (freshQueryState Fixed 1) = some (freshQueryState Fixed 1) ∧
    (storeProgress 1 (str "q") 0 sampleDone (freshQueryState Fixed 1)).map
        (fun g => g.events) =
      some [Event.progressUpdate (str "progress") (str "q") 0 0 0, Event.finished] := by
  decide

/-- C8, amended: writeToDisk on a query with n >= 1 recorded results (n below 2 ^ 53, packages
of the form name_version) emits exactly one event, a pagination event that carries the query
id and the page count computed for the n results, the ceiling of n / 10; on a query without
recorded results it returns at once and emits nothing. -/
theorem writeToDisk_emits_pagination {F : Type} [GoFloat32 F] (queryid : GoString)
    (g : queryState F) (hbound : g.resultPointers.length < 2 ^ 53)
    (hwf : PackagesWellFormed g) :
    (g.resultPointers ≠ [] →
      ∃ g', writeToDisk queryid g = some g' ∧
        g'.resultPages = (((g.resultPointers.length + 9) / 10 : Nat) : Int) ∧
        g'.events = g.events ++ [Event.pagination queryid g'.resultPages]) ∧
    (g.resultPointers = [] → writeToDisk queryid g = some g) := by
  constructor
  · intro hne
    exact writeToDisk_pages queryid g hne hbound hwf
  · intro he
    simp [writeToDisk, he]

/-- C8, amended, at the sample query. -/
theorem writeToDisk_emits_pagination_witness :
    (sampleState.resultPointers ≠ [] →
      ∃ g', writeToDisk (str "q") sampleState = some g' ∧
        g'.resultPages = (((sampleState.resultPointers.length + 9) / 10 : Nat) : Int) ∧
        g'.events = sampleState.events ++ [Event.pagination (str "q") g'.resultPages]) ∧
    (sampleState.resultPointers = [] → writeToDisk (str "q") sampleState = some sampleState) :=
  writeToDisk_emits_pagination (str "q") sampleState (by decide) sampleState_wellFormed

/-! ## Pages from pointers -/

theorem data_getElem?_congr (A B : List File) (h : A.map File.data = B.map File.data)
    (i : Nat) : (A[i]?).map File.data = (B[i]?).map File.data := by
  rw [← List.getElem?_map, ← List.getElem?_map, h]

theorem regionOf_congr {F : Type} (A B : List File) (h : A.map File.data = B.map File.data)
    (p : resultPointer F) : regionOf A p = regionOf B p := by
  have := data_getElem?_congr A B h p.backendidx
  unfold regionOf
  cases ha : A[p.backendidx]? <;> cases hb : B[p.backendidx]? <;> simp [ha, hb] at this ⊢
  rw [this]

theorem insideFile_congr {F : Type} (A B : List File) (h : A.map File.data = B.map File.data)
    (p : resultPointer F) (hp : InsideFile A p) : InsideFile B p := by
  obtain ⟨file, hf, h1, h2, h3⟩ := hp
  have := data_getElem?_congr A B h p.backendidx
  cases hb : B[p.backendidx]? with
  | none => simp [hf, hb] at this
  | some file' =>
    simp only [hf, hb, Option.map_some', Option.some.injEq] at this
    exact ⟨file', hb, h1, h2, by rw [← this]; exact h3⟩

theorem pastEnd_congr {F : Type} (A B : List File) (h : A.map File.data = B.map File.data)
    (p : resultPointer F) (hp : PastEnd A p) : PastEnd B p := by
  obtain ⟨file, hf, h1, h2, h3⟩ := hp
  have := data_getElem?_congr A B h p.backendidx
  cases hb : B[p.backendidx]? with
  | none => simp [hf, hb] at this
  | some file' =>
    simp only [hf, hb, Option.map_some', Option.some.injEq] at this
    exact ⟨file', hb, h1, h2, by rw [← this]; exact h3⟩

theorem map_data_set (A : List File) (i : Nat) (file : File) (pos : Nat)
    (h : A[i]? = some file) :
    (A.set i { file with pos := pos }).map File.data = A.map File.data := by
  apply List.ext_getElem?
  intro j
  rw [List.getElem?_map, List.getElem?_map, List.getElem?_set]
  by_cases hij : i = j
  · subst hij
    have hlt : i < A.length := by
      by_contra hge
      rw [List.getElem?_eq_none (by omega)] at h
      cases h
    simp [hlt, h]
  · simp [hij]

theorem loop_spec {F : Type} (ps : List (resultPointer F)) :
    ∀ (tempFiles : List File) (f : List Nat) (idx : Nat),
      (∀ p ∈ ps, p.backendidx < tempFiles.length) →
      ∃ w, writeFromPointers.loop tempFiles f ps idx = some w ∧
        w.tempFiles.map File.data = tempFiles.map File.data ∧
        ((∀ p ∈ ps, InsideFile tempFiles p) →
          w.err = false ∧ w.out = f ++ commaJoined idx (ps.map (regionOf tempFiles))) ∧
        ((∃ p ∈ ps, PastEnd tempFiles p) → w.err = true) := by
  induction ps with
  | nil =>
    intro tempFiles f idx _
    exact ⟨_, rfl, rfl, fun _ => ⟨rfl, by simp [commaJoined]⟩, by simp⟩
  | cons p rest ih =>
    intro tempFiles f idx hidx
    have hlt : p.backendidx < tempFiles.length := hidx p (by simp)
    have hfile : tempFiles[p.backendidx]? = some tempFiles[p.backendidx] :=
      List.getElem?_eq_getElem hlt
    generalize tempFiles[p.backendidx] = src at hfile
    have hregion : regionOf tempFiles p = (src.data.drop p.offset.toNat).take p.length.toNat := by
      simp [regionOf, hfile]
    simp only [writeFromPointers.loop, hfile]
    by_cases hneg : p.offset < 0
    · rw [if_pos hneg]
      refine ⟨_, rfl, rfl, ?_, fun _ => rfl⟩
      intro hin
      obtain ⟨file, -, h1, -, -⟩ := hin p (by simp)
      omega
    · rw [if_neg hneg]
      have hlen : ((src.data.drop p.offset.toNat).take p.length.toNat).length =
          min p.length.toNat (src.data.length - p.offset.toNat) := by
        simp
      by_cases hshort : (((src.data.drop p.offset.toNat).take p.length.toNat).length : Int) <
          p.length
      · rw [if_pos hshort]
        refine ⟨_, rfl, map_data_set _ _ _ _ hfile, ?_, fun _ => rfl⟩
        intro hin
        obtain ⟨file, hf, h1, h2, h3⟩ := hin p (by simp)
        rw [hfile] at hf
        cases hf
        rw [hlen] at hshort
        omega
      · rw [if_neg hshort]
        have hdata := map_data_set tempFiles p.backendidx src
          (p.offset.toNat + ((src.data.drop p.offset.toNat).take p.length.toNat).length) hfile
        have hidx' : ∀ q ∈ rest, q.backendidx <
            (tempFiles.set p.backendidx { src with pos := p.offset.toNat +
              ((src.data.drop p.offset.toNat).take p.length.toNat).length }).length := by
          intro q hq
          rw [List.length_set]
          exact hidx q (by simp [hq])
        obtain ⟨w, hw, hwdata, hgood, hbad⟩ := ih _
          ((if idx > 0 then f ++ str "," else f) ++
            (src.data.drop p.offset.toNat).take p.length.toNat) (idx + 1) hidx'
        refine ⟨w, hw, hwdata.trans hdata, ?_, ?_⟩
        · intro hin
          have hin' : ∀ q ∈ rest, InsideFile _ q := fun q hq =>
            insideFile_congr _ _ hdata.symm q (hin q (by simp [hq]))
          obtain ⟨he, ho⟩ := hgood hin'
          refine ⟨he, ?_⟩
          rw [ho]
          have hmap : rest.map (regionOf (tempFiles.set p.backendidx { src with pos :=
              p.offset.toNat + ((src.data.drop p.offset.toNat).take p.length.toNat).length })) =
              rest.map (regionOf tempFiles) :=
            List.map_congr_left (fun q _ => regionOf_congr _ _ hdata q)
          rw [hmap, List.map_cons, commaJoined, hregion]
          split_ifs <;> simp
        · rintro ⟨q, hq, hpast⟩
          rcases List.mem_cons.mp hq with e | e
          · exfalso
            subst e
            obtain ⟨file, hf, h1, h2, h3⟩ := hpast
            rw [hfile] at hf
            cases hf
            rw [hlen] at hshort
            omega
          · exact hbad ⟨q, e, pastEnd_congr _ _ hdata.symm q hpast⟩

theorem commaJoined_pos (rs : List (List Nat)) :
    ∀ k, commaJoined (k + 1) rs = commaJoined 1 rs := by
  induction rs with
  | nil => intro k; rfl
  | cons r rs ih =>
    intro k
    simp only [commaJoined, Nat.succ_pos, gt_iff_lt, if_true, Nat.lt_one_iff, Nat.one_pos]
    rw [ih (k + 1), ih 1]

theorem intercalate_cons_eq (r : List Nat) (rs : List (List Nat)) :
    List.intercalate (str ",") (r :: rs) = r ++ commaJoined 1 rs := by
  induction rs generalizing r with
  | nil => simp [List.intercalate, commaJoined]
  | cons r' rs ih =>
    have h := ih r'
    simp only [List.intercalate, List.intersperse_cons_cons, List.flatten_cons] at h ⊢
    rw [h]
    simp only [commaJoined, Nat.one_pos, gt_iff_lt, if_true]
    rw [commaJoined_pos rs 1]
    simp

theorem commaJoined_zero (rs : List (List Nat)) :
    commaJoined 0 rs = List.intercalate (str ",") rs := by
  cases rs with
  | nil => simp [List.intercalate, commaJoined]
  | cons r rs =>
    rw [intercalate_cons_eq]
    simp [commaJoined]

/-- C9: for every list of result pointers whose byte ranges lie inside their backend's spill
file, writeFromPointers returns no error and writes exactly the byte '[' followed by the
referenced byte regions in list order with a single ',' between consecutive regions, followed
by ']' and a newline (so "[]" and a newline for the empty list); if the range of a pointer
(of the existing backends) extends past the end of its spill file, it returns an error. -/
theorem writeFromPointers_writes_regions {F : Type} (tempFiles : List File) (f : List Nat)
    (pointers : List (resultPointer F)) :
    ((∀ p ∈ pointers, InsideFile tempFiles p) →
      ∃ w, writeFromPointers tempFiles f pointers = some w ∧ w.err = false ∧
        w.out = f ++ str "[" ++
          List.intercalate (str ",") (pointers.map (regionOf tempFiles)) ++ str "]\n") ∧
    ((∀ p ∈ pointers, p.backendidx < tempFiles.length) →
      (∃ p ∈ pointers, PastEnd tempFiles p) →
      ∃ w, writeFromPointers tempFiles f pointers = some w ∧ w.err = true) ∧
    (∃ w, writeFromPointers tempFiles [] ([] : List (resultPointer F)) = some w ∧
      w.err = false ∧ w.out = str "[]\n") := by
  refine ⟨?_, ?_, ?_⟩
  · intro hin
    have hidx : ∀ p ∈ pointers, p.backendidx < tempFiles.length := by
      intro p hp
      obtain ⟨file, hf, -⟩ := hin p hp
      by_contra hge
      rw [List.getElem?_eq_none (by omega)] at hf
      cases hf
    obtain ⟨w, hw, -, hgood, -⟩ := loop_spec pointers tempFiles (f ++ str "[") 0 hidx
    obtain ⟨he, ho⟩ := hgood hin
    refine ⟨{ w with out := w.out ++ str "]\n" }, ?_, he, ?_⟩
    · simp [writeFromPointers, hw, he]
    · simp only [ho, commaJoined_zero]
  · intro hidx hbad
    obtain ⟨w, hw, -, -, hb⟩ := loop_spec pointers tempFiles (f ++ str "[") 0 hidx
    have he := hb hbad
    exact ⟨w, by simp [writeFromPointers, hw, he], he⟩
  · exact ⟨_, rfl, rfl, rfl⟩

/-- C9 at the spill files of the sample query: the pointers of the sample query give the
array of their three regions; a pointer that ends behind its file gives an error. -/
theorem writeFromPointers_writes_regions_witness :
    writeFromPointers sampleState.tempFiles [] sampleState.resultPointers =
      some { tempFiles := [{ data := [1, 2, 3, 4], pos := 4 }, { data := [5, 6, 7], pos := 3 }]
             out := str "[" ++ [1, 2] ++ str "," ++ [5, 6, 7] ++ str "," ++ [3, 4] ++ str "]\n"
             err := false } ∧
    (writeFromPointers sampleState.tempFiles []
      [({ backendidx := 1, ranking := ⟨0⟩, offset := 2, length := 2, pathHash := 0,
          packageName := [] } : resultPointer Fixed)]).map (fun w => w.err) = some true ∧
    (((∀ p ∈ sampleState.resultPointers, InsideFile sampleState.tempFiles p) →
      ∃ w, writeFromPointers sampleState.tempFiles [] sampleState.resultPointers = some w ∧
        w.err = false ∧
        w.out = [] ++ str "[" ++ List.intercalate (str ",")
          (sampleState.resultPointers.map (regionOf sampleState.tempFiles)) ++ str "]\n") ∧
    ((∀ p ∈ sampleState.resultPointers, p.backendidx < sampleState.tempFiles.length) →
      (∃ p ∈ sampleState.resultPointers, PastEnd sampleState.tempFiles p) →
      ∃ w, writeFromPointers sampleState.tempFiles [] sampleState.resultPointers = some w ∧
        w.err = true) ∧
    (∃ w, writeFromPointers sampleState.tempFiles [] ([] : List (resultPointer Fixed)) =
        some w ∧ w.err = false ∧ w.out = str "[]\n")) :=
  ⟨by decide, by decide,
    writeFromPointers_writes_regions sampleState.tempFiles [] sampleState.resultPointers⟩

/-! ## Spill files and result pointers -/

theorem write_at_end (file : File) (b : List Nat) (h : file.pos = file.data.length) :
    (file.write b).data = file.data ++ b ∧ (file.write b).pos = (file.data ++ b).length := by
  unfold File.write
  simp [h]

theorem ranked_local_files {F : Type} [GoFloat32 F] (g s : queryState F)
    (result ranked : Result F) (h : storeResult.ranked g result = some (ranked, s)) :
    s.tempFiles = g.tempFiles ∧ s.resultPointers = g.resultPointers := by
  unfold storeResult.ranked at h
  cases hp : sliceTo result.Path (stringsIndex result.Path (str "/")) with
  | none => simp [hp] at h
  | some pkg =>
    simp only [hp] at h
    split_ifs at h
    · simp only [Option.some.injEq, Prod.mk.injEq] at h
      rw [← h.2]
      exact ⟨rfl, rfl⟩
    · simp only [Option.some.injEq, Prod.mk.injEq] at h
      rw [← h.2]
      exact ⟨rfl, rfl⟩

/-- What one call of `storeResult` does to the spill files and the pointers. -/
theorem storeResult_files {F : Type} [GoFloat32 F] (encode : Result F → List Nat)
    (backendidx : Nat) (result ranked : Result F) (io : IOOutcome) (g s g' : queryState F)
    (hrk : storeResult.ranked g result = some (ranked, s))
    (h : storeResult encode backendidx result io g = some g') :
    ∃ file, g.tempFiles[backendidx]? = some file ∧
      (io = IOOutcome.ok →
        g'.tempFiles = g.tempFiles.set backendidx (file.write (encode ranked)) ∧
        g'.resultPointers = g.resultPointers ++
          [{ backendidx := backendidx
             ranking := ranked.Ranking
             offset := (file.pos : Int)
             length := ((file.write (encode ranked)).pos : Int) - (file.pos : Int)
             pathHash := fnv64 ranked.Path
             packageName := ranked.Package }]) ∧
      (io ≠ IOOutcome.ok →
        g'.resultPointers = g.resultPointers ∧
        (g'.tempFiles = g.tempFiles ∨
          ∃ bytes, g'.tempFiles = g.tempFiles.set backendidx (file.write bytes))) := by
  obtain ⟨hsf, hsp⟩ := ranked_local_files g s result ranked hrk
  have hct := consider_tempFiles g s ranked hsf
  have hcp := consider_resultPointers g s ranked hsp
  simp only [storeResult, hrk] at h
  unfold storeResult.spill at h
  rw [hct] at h
  cases hf : g.tempFiles[backendidx]? with
  | none => simp [hf] at h
  | some file =>
    refine ⟨file, rfl, ?_, ?_⟩
    · intro hio
      subst hio
      simp only [hf, Option.some.injEq] at h
      rw [← h]
      simp [hct, hcp]
    · intro hio
      cases io with
      | ok => exact absurd rfl hio
      | seekBeforeFails =>
        simp only [hf, Option.some.injEq] at h
        rw [← h]
        simp [failQuery, finishQuery, addEventMarshal, hct, hcp]
      | encodeFails written =>
        simp only [hf, Option.some.injEq] at h
        rw [← h]
        refine ⟨by simp [failQuery, finishQuery, addEventMarshal, hcp],
          Or.inr ⟨(encode ranked).take written, ?_⟩⟩
        simp only [failQuery, finishQuery, addEventMarshal, hct]
      | seekAfterFails =>
        simp only [hf, Option.some.injEq] at h
        rw [← h]
        refine ⟨by simp [failQuery, finishQuery, addEventMarshal, hcp],
          Or.inr ⟨encode ranked, ?_⟩⟩
        simp only [failQuery, finishQuery, addEventMarshal, hct]

theorem take_drop_append (data extra : List Nat) (off len : Nat)
    (h : off + len ≤ data.length) :
    ((data ++ extra).drop off).take len = (data.drop off).take len := by
  rw [List.drop_append_of_le_length (by omega),
    List.take_append_of_le_length (by rw [List.length_drop]; omega)]

theorem set_write_preserves {F : Type} (A : List File) (i : Nat) (file : File)
    (bytes : List Nat) (hA : AtEnd A) (hf : A[i]? = some file) :
    AtEnd (A.set i (file.write bytes)) ∧
    (A.set i (file.write bytes))[i]? = some (file.write bytes) ∧
    ∀ p : resultPointer F, InsideFile A p →
      InsideFile (A.set i (file.write bytes)) p ∧
      regionOf (A.set i (file.write bytes)) p = regionOf A p := by
  have hlt : i < A.length := by
    by_contra hge
    rw [List.getElem?_eq_none (by omega)] at hf
    cases hf
  have hmem : file ∈ A := List.getElem?_mem hf
  obtain ⟨hdata, hpos⟩ := write_at_end file bytes (hA file hmem)
  have hget : (A.set i (file.write bytes))[i]? = some (file.write bytes) := by
    simp [List.getElem?_set, hlt]
  refine ⟨?_, hget, ?_⟩
  · intro file' hfile'
    rcases List.mem_or_eq_of_mem_set hfile' with h | h
    · exact hA file' h
    · rw [h, hpos, hdata]
  · intro p hp
    obtain ⟨pf, hpf, h1, h2, h3⟩ := hp
    by_cases hi : i = p.backendidx
    · subst hi
      rw [hf] at hpf
      cases hpf
      constructor
      · refine ⟨file.write bytes, hget, h1, h2, ?_⟩
        rw [hdata, List.length_append]
        omega
      · have hlen : p.offset.toNat + p.length.toNat ≤ file.data.length := by omega
        simp only [regionOf, hget, hf, hdata]
        exact take_drop_append _ _ _ _ hlen
    · have hne : (A.set i (file.write bytes))[p.backendidx]? = A[p.backendidx]? := by
        simp [List.getElem?_set, hi]
      constructor
      · exact ⟨pf, hne.trans hpf, h1, h2, h3⟩
      · simp only [regionOf, hne]

theorem forall₂_exists_of_mem_left {α β : Type} {R : α → β → Prop} {l₁ : List α}
    {l₂ : List β} (h : List.Forall₂ R l₁ l₂) {a : α} (ha : a ∈ l₁) : ∃ b, b ∈ l₂ ∧ R a b := by
  induction h with
  | nil => cases ha
  | @cons x y xs ys hxy _ ih =>
    rcases List.mem_cons.mp ha with e | e
    · exact ⟨y, by simp, e ▸ hxy⟩
    · obtain ⟨b, hb, hab⟩ := ih e
      exact ⟨b, by simp [hb], hab⟩

theorem stored_cons {F : Type} (c : Call F) (calls : List (Call F)) :
    Call.stored (c :: calls) =
      Call.stored calls ++ (if c.io = IOOutcome.ok then [c] else []) := by
  unfold Call.stored
  rw [List.reverse_cons, List.filter_append]
  by_cases h : c.io = IOOutcome.ok <;> simp [h]

/-- In the states reached by `storeResult` the handles stand at the end of the spill files,
the pointers are the records of the calls that recorded one, and the byte ranges of the
pointers of one backend do not overlap. -/
theorem spill_invariant {F : Type} [GoFloat32 F] (encode : Result F → List Nat)
    (g : queryState F) (calls : List (Call F)) (h : Handled encode g calls) :
    AtEnd g.tempFiles ∧
    List.Forall₂ (PointsTo encode g.tempFiles) g.resultPointers (Call.stored calls) ∧
    g.resultPointers.Pairwise EndsBefore := by
  induction h with
  | fresh n =>
    refine ⟨?_, ?_, ?_⟩
    · intro file hfile
      simp only [freshQueryState] at hfile
      rw [List.eq_of_mem_replicate hfile]
      rfl
    · simp [freshQueryState, Call.stored]
    · simp [freshQueryState]
  | @store g g' s calls backendidx result ranked io _ hrk hst ih =>
    obtain ⟨hend, hpts, hdis⟩ := ih
    obtain ⟨file, hfile, hok, hfail⟩ := storeResult_files encode backendidx result ranked io
      g s g' hrk hst
    rw [stored_cons]
    by_cases hio : io = IOOutcome.ok
    · obtain ⟨hfiles, hptrs⟩ := hok hio
      obtain ⟨hend', hget, hpres⟩ := set_write_preserves (F := F) g.tempFiles backendidx file
        (encode ranked) hend hfile
      obtain ⟨hdata, hpos⟩ := write_at_end file (encode ranked)
        (hend file (List.getElem?_mem hfile))
      have hfpos : file.pos = file.data.length := hend file (List.getElem?_mem hfile)
      rw [hfiles, hptrs]
      simp only [hio, if_true]
      refine ⟨hend', ?_, ?_⟩
      · refine List.rel_append (hpts.imp ?_) ?_
        · intro p c hpc
          obtain ⟨a1, a2, a3, a4, a5⟩ := hpc
          exact ⟨a1, a2, (hpres p a3).1, a4, ((hpres p a3).2).trans a5⟩
        · refine List.Forall₂.cons ⟨rfl, rfl, ?_, ?_, ?_⟩ List.Forall₂.nil
          · refine ⟨file.write (encode ranked), hget, ?_, ?_, ?_⟩
            · simp
            · simp only [hpos, List.length_append, hfpos]; omega
            · simp only [hpos, hdata, List.length_append, hfpos]; omega
          · simp only [hpos, List.length_append, hfpos]; omega
          · simp only [regionOf, hget, hdata, hpos, hfpos, List.length_append]
            have e1 : ((file.data.length : Int)).toNat = file.data.length := by omega
            have e2 : (((file.data.length + (encode ranked).length : Nat) : Int) -
                (file.data.length : Int)).toNat = (encode ranked).length := by omega
            rw [e1, e2]
            simp
      · rw [List.pairwise_append]
        refine ⟨hdis, List.pairwise_singleton _ _, ?_⟩
        intro p hp q hq
        rw [List.mem_singleton] at hq
        subst hq
        intro hb
        obtain ⟨c, -, hpc⟩ := forall₂_exists_of_mem_left hpts hp
        obtain ⟨pf, hpf, -, -, h3⟩ := hpc.2.2.1
        simp only at hb
        rw [hb, hfile] at hpf
        cases hpf
        simp only [hfpos]
        exact h3
    · obtain ⟨hptrs, hfiles⟩ := hfail hio
      rw [hptrs]
      simp only [hio, if_false, List.append_nil]
      rcases hfiles with hsame | ⟨bytes, hset⟩
      · rw [hsame]
        exact ⟨hend, hpts, hdis⟩
      · obtain ⟨hend', -, hpres⟩ := set_write_preserves (F := F) g.tempFiles backendidx file
          bytes hend hfile
        rw [hset]
        refine ⟨hend', hpts.imp ?_, hdis⟩
        intro p c hpc
        obtain ⟨a1, a2, a3, a4, a5⟩ := hpc
        exact ⟨a1, a2, (hpres p a3).1, a4, ((hpres p a3).2).trans a5⟩

theorem storeResult_isSome {F : Type} [GoFloat32 F] (encode : Result F → List Nat)
    (backendidx : Nat) (result : Result F) (io : IOOutcome) (g : queryState F)
    (hpath : 47 ∈ result.Path) (hidx : backendidx < g.tempFiles.length) :
    ∃ ranked s g', storeResult.ranked g result = some (ranked, s) ∧
      storeResult encode backendidx result io g = some g' := by
  obtain ⟨pkg, rest, hpkg, -, -⟩ := slicePath_of_mem result.Path hpath
  have hsome : ∃ ranked s, storeResult.ranked g result = some (ranked, s) := by
    by_cases hfirst : g.FirstPathRank > GoFloat32.zero
    · exact ⟨_, _, ranked_of_first g result pkg hpkg hfirst⟩
    · exact ⟨_, _, ranked_of_not_first g result pkg hpkg hfirst⟩
  obtain ⟨ranked, s, hrk⟩ := hsome
  obtain ⟨hsf, -⟩ := ranked_local_files g s result ranked hrk
  have hct := consider_tempFiles g s ranked hsf
  obtain ⟨g', hg'⟩ := spill_isSome encode backendidx ranked io (storeResult.consider g s ranked)
    (by rw [hct]; exact hidx)
  exact ⟨ranked, s, g', hrk, by simp only [storeResult, hrk]; exact hg'⟩

theorem forall₂_last {α β : Type} {R : α → β → Prop} {a : α} {b : β} :
    ∀ {l₁ : List α} {l₂ : List β}, List.Forall₂ R (l₁ ++ [a]) (l₂ ++ [b]) → R a b
  | [], [], h => by
    simpa using h
  | [], y :: ys, h => by
    simp only [List.nil_append, List.cons_append, List.forall₂_cons] at h
    have := h.2.length_eq
    simp at this
  | x :: xs, [], h => by
    simp only [List.nil_append, List.cons_append, List.forall₂_cons] at h
    have := h.2.length_eq
    simp at this
  | x :: xs, y :: ys, h => by
    simp only [List.cons_append, List.forall₂_cons] at h
    exact forall₂_last h.2

/-- C10: in every state reached by storeResult calls executed one after another on a new
query, the recorded pointers are, in order, the records of the calls that succeeded: each has
the backendidx of its call and a byte range that lies inside that backend's spill file and
reads back as this call's JSON encoding of the result, and the ranges of one backend's
pointers are pairwise non-overlapping.  The next call (which returns for a path with a slash
and an existing backend) appends, when it succeeds, the encoding to the spill file of its
backend and a pointer whose offset is the file position before the write and whose
offset + length is the position after it. -/
theorem storeResult_pointers_address_encodings {F : Type} [GoFloat32 F]
    (encode : Result F → List Nat) (g : queryState F) (calls : List (Call F))
    (h : Handled encode g calls) :
    List.Forall₂ (PointsTo encode g.tempFiles) g.resultPointers (Call.stored calls) ∧
    g.resultPointers.Pairwise EndsBefore ∧
    (∀ (backendidx : Nat) (result : Result F), 47 ∈ result.Path →
      backendidx < g.tempFiles.length →
      ∃ ranked s g', storeResult.ranked g result = some (ranked, s) ∧
        storeResult encode backendidx result IOOutcome.ok g = some g') ∧
    ∀ (backendidx : Nat) (result ranked : Result F) (s g' : queryState F),
      storeResult.ranked g result = some (ranked, s) →
      storeResult encode backendidx result IOOutcome.ok g = some g' →
      ∃ file file' p, g.tempFiles[backendidx]? = some file ∧
        g'.tempFiles[backendidx]? = some file' ∧
        file'.data = file.data ++ encode ranked ∧
        g'.resultPointers = g.resultPointers ++ [p] ∧
        p.backendidx = backendidx ∧
        p.offset = (file.pos : Int) ∧
        p.offset + p.length = (file'.pos : Int) ∧
        p.length = ((encode ranked).length : Int) ∧
        regionOf g'.tempFiles p = encode ranked := by
  obtain ⟨hend, hpts, hdis⟩ := spill_invariant encode g calls h
  refine ⟨hpts, hdis, ?_, ?_⟩
  · intro backendidx result hpath hidx
    exact storeResult_isSome encode backendidx result IOOutcome.ok g hpath hidx
  · intro backendidx result ranked s g' hrk hst
    have hnext : Handled encode g'
        ({ backendidx := backendidx, ranked := ranked, io := IOOutcome.ok } :: calls) :=
      Handled.store h hrk hst
    obtain ⟨-, hpts', -⟩ := spill_invariant encode g' _ hnext
    obtain ⟨file, hfile, hok, -⟩ := storeResult_files encode backendidx result ranked
      IOOutcome.ok g s g' hrk hst
    obtain ⟨hfiles, hptrs⟩ := hok rfl
    have hfpos : file.pos = file.data.length := hend file (List.getElem?_mem hfile)
    obtain ⟨hdata, hpos⟩ := write_at_end file (encode ranked) hfpos
    obtain ⟨-, hget, -⟩ := set_write_preserves (F := F) g.tempFiles backendidx file
      (encode ranked) hend hfile
    rw [stored_cons, hptrs] at hpts'
    simp only [if_true] at hpts'
    have hlast := forall₂_last hpts'
    refine ⟨file, file.write (encode ranked), _, hfile, hfiles ▸ hget, hdata, hptrs, rfl, rfl,
      ?_, ?_, hlast.2.2.2.2⟩
    · simp
    · simp only [hpos, hfpos, List.length_append]; omega

/-- C10 after one call of storeResult on a new query. -/
theorem storeResult_pointers_address_encodings_witness :
    List.Forall₂ (PointsTo sampleEncode sampleStored.tempFiles) sampleStored.resultPointers
      (Call.stored sampleCalls) ∧
    sampleStored.resultPointers.Pairwise EndsBefore ∧
    (∀ (backendidx : Nat) (result : Result Fixed), 47 ∈ result.Path →
      backendidx < sampleStored.tempFiles.length →
      ∃ ranked s g', storeResult.ranked sampleStored result = some (ranked, s) ∧
        storeResult sampleEncode backendidx result IOOutcome.ok sampleStored = some g') ∧
    ∀ (backendidx : Nat) (result ranked : Result Fixed) (s g' : queryState Fixed),
      storeResult.ranked sampleStored result = some (ranked, s) →
      storeResult sampleEncode backendidx result IOOutcome.ok sampleStored = some g' →
      ∃ file file' p, sampleStored.tempFiles[backendidx]? = some file ∧
        g'.tempFiles[backendidx]? = some file' ∧
        file'.data = file.data ++ sampleEncode ranked ∧
        g'.resultPointers = sampleStored.resultPointers ++ [p] ∧
        p.backendidx = backendidx ∧
        p.offset = (file.pos : Int) ∧
        p.offset + p.length = (file'.pos : Int) ∧
        p.length = ((sampleEncode ranked).length : Int) ∧
        regionOf g'.tempFiles p = sampleEncode ranked :=
  storeResult_pointers_address_encodings sampleEncode sampleStored sampleCalls
    sampleStored_handled

/-! ## Packages of the recorded pointers -/

theorem mem_setInsert (m : List GoString) (k x : GoString) :
    x ∈ setInsert m k ↔ x ∈ m ∨ x = k := by
  unfold setInsert
  split_ifs with h
  · constructor
    · exact Or.inl
    · rintro (hx | hx)
      · exact hx
      · exact hx ▸ h
  · simp

theorem storeResult_allPackages {F : Type} [GoFloat32 F] (encode : Result F → List Nat)
    (backendidx : Nat) (result ranked : Result F) (io : IOOutcome) (g s g' : queryState F)
    (hrk : storeResult.ranked g result = some (ranked, s))
    (h : storeResult encode backendidx result io g = some g') :
    g'.allPackages =
      if io = IOOutcome.ok then setInsert g.allPackages ranked.Package else g.allPackages := by
  have hsa : s.allPackages = g.allPackages := by
    unfold storeResult.ranked at hrk
    cases hp : sliceTo result.Path (stringsIndex result.Path (str "/")) with
    | none => simp [hp] at hrk
    | some pkg =>
      simp only [hp] at hrk
      split_ifs at hrk
      · simp only [Option.some.injEq, Prod.mk.injEq] at hrk
        rw [← hrk.2]
      · simp only [Option.some.injEq, Prod.mk.injEq] at hrk
        rw [← hrk.2]
  have hca : (storeResult.consider g s ranked).allPackages = g.allPackages := by
    simp only [storeResult.consider, addEventMarshal]
    split_ifs <;> simp [hsa]
  simp only [storeResult, hrk] at h
  unfold storeResult.spill at h
  cases hf : (storeResult.consider g s ranked).tempFiles[backendidx]? with
  | none => simp [hf] at h
  | some file =>
    cases io <;> simp only [hf, Option.some.injEq] at h <;> rw [← h] <;>
      simp [failQuery, finishQuery, addEventMarshal, hca]

/-- In the states reached by `storeResult`, the package of every recorded pointer is in the
package set of the query. -/
theorem pointer_packages_recorded {F : Type} [GoFloat32 F] (encode : Result F → List Nat)
    (g : queryState F) (calls : List (Call F)) (h : Handled encode g calls) :
    ∀ p ∈ g.resultPointers, p.packageName ∈ g.allPackages := by
  induction h with
  | fresh n => simp [freshQueryState]
  | @store g g' s calls backendidx result ranked io _ hrk hst ih =>
    obtain ⟨file, -, hok, hfail⟩ := storeResult_files encode backendidx result ranked io
      g s g' hrk hst
    have hpk := storeResult_allPackages encode backendidx result ranked io g s g' hrk hst
    intro p hp
    by_cases hio : io = IOOutcome.ok
    · rw [hpk, if_pos hio, mem_setInsert]
      rw [(hok hio).2] at hp
      rcases List.mem_append.mp hp with hp' | hp'
      · exact Or.inl (ih p hp')
      · rw [List.mem_singleton] at hp'
        exact Or.inr (by rw [hp'])
    · rw [hpk, if_neg hio]
      rw [(hfail hio).1] at hp
      exact ih p hp

/-! ## The tie-breaker of the result pointers -/

theorem ranked_path {F : Type} [GoFloat32 F] (g s : queryState F) (result ranked : Result F)
    (h : storeResult.ranked g result = some (ranked, s)) : ranked.Path = result.Path := by
  unfold storeResult.ranked at h
  cases hp : sliceTo result.Path (stringsIndex result.Path (str "/")) with
  | none => simp [hp] at h
  | some pkg =>
    simp only [hp] at h
    split_ifs at h
    · simp only [Option.some.injEq, Prod.mk.injEq] at h
      rw [← h.1]
    · simp only [Option.some.injEq, Prod.mk.injEq] at h
      rw [← h.1]

theorem fnv64_append (data : GoString) (c : Nat) :
    fnv64 (data ++ [c]) = ((fnv64 data * 1099511628211) % 2 ^ 64) ^^^ c := by
  simp [fnv64, List.foldl_append]

theorem pointerLess_of_ranking_eq {F : Type} [GoFloat32 F] (a b : resultPointer F)
    (h : a.ranking = b.ranking) :
    (pointerByRanking.Less a b = true ↔ a.pathHash > b.pathHash) := by
  simp [pointerByRanking.Less, h]

/-- C13, as stated, fails: the hash that storeResult records for the path of the sample
result is the FNV-1 hash, which differs from the FNV-1a hash of that path; and with the
recorded hashes of the paths "b" and "a", two pointers of equal ranking 0.9 sort to a first,
then b (with FNV-1a hashes the order would be b, then a). -/
theorem pathHash_is_not_fnv1a_and_sorts_a_first :
    (storeResult sampleEncode 1 sampleResult IOOutcome.ok (freshQueryState Fixed 2)).map
        (fun g => g.resultPointers.map (fun p => p.pathHash)) =
      some [fnv64 sampleResult.Path] ∧
    fnv64 sampleResult.Path ≠ fnv64a sampleResult.Path ∧
    sortSort pointerByRanking.Less
        [pointerAt (⟨9⟩ : Fixed) (str "b"), pointerAt (⟨9⟩ : Fixed) (str "a")] =
      [pointerAt ⟨9⟩ (str "a"), pointerAt ⟨9⟩ (str "b")] ∧
    fnv64a (str "b") > fnv64a (str "a") := by
  decide

/-- C13, amended: the pathHash that a successful storeResult records for a result is the
64-bit FNV-1 hash of the result's Path (from the offset basis, for each byte: multiply by the
prime modulo 2 ^ 64, then xor the byte), so that pointers of equal ranking are ordered by the
FNV-1 hash of their path, descending; in particular two pointers of equal ranking for the
paths "b" and "a" sort to a first, then b. -/
theorem storeResult_records_fnv1_hash {F : Type} [GoFloat32 F] (encode : Result F → List Nat)
    (backendidx : Nat) (result ranked : Result F) (g s g' : queryState F)
    (hrk : storeResult.ranked g result = some (ranked, s))
    (hst : storeResult encode backendidx result IOOutcome.ok g = some g') :
    (∃ p, g'.resultPointers = g.resultPointers ++ [p] ∧ p.pathHash = fnv64 result.Path) ∧
    fnv64 [] = 14695981039346656037 ∧
    (∀ (data : GoString) (c : Nat),
      fnv64 (data ++ [c]) = ((fnv64 data * 1099511628211) % 2 ^ 64) ^^^ c) ∧
    (∀ a b : resultPointer F, a.ranking = b.ranking →
      (pointerByRanking.Less a b = true ↔ a.pathHash > b.pathHash)) ∧
    (∀ r : F, sortSort pointerByRanking.Less [pointerAt r (str "b"), pointerAt r (str "a")] =
      [pointerAt r (str "a"), pointerAt r (str "b")]) := by
  refine ⟨?_, rfl, fnv64_append, pointerLess_of_ranking_eq, ?_⟩
  · obtain ⟨file, -, hok, -⟩ := storeResult_files encode backendidx result ranked
      IOOutcome.ok g s g' hrk hst
    exact ⟨_, (hok rfl).2, by simp [ranked_path g s result ranked hrk]⟩
  · intro r
    have hab : pointerByRanking.Less (pointerAt r (str "a")) (pointerAt r (str "b")) = true := by
      rw [pointerLess_of_ranking_eq (pointerAt r (str "a")) (pointerAt r (str "b")) rfl]
      show fnv64 (str "a") > fnv64 (str "b")
      decide
    simp [sortSort, List.insertionSort, List.orderedInsert, hab]

/-- C13, amended, at the first call of storeResult of the sample query. -/
theorem storeResult_records_fnv1_hash_witness :
    (∃ p, sampleStored.resultPointers = (freshQueryState Fixed 2).resultPointers ++ [p] ∧
      p.pathHash = fnv64 sampleResult.Path) ∧
    fnv64 [] = 14695981039346656037 ∧
    (∀ (data : GoString) (c : Nat),
      fnv64 (data ++ [c]) = ((fnv64 data * 1099511628211) % 2 ^ 64) ^^^ c) ∧
    (∀ a b : resultPointer Fixed, a.ranking = b.ranking →
      (pointerByRanking.Less a b = true ↔ a.pathHash > b.pathHash)) ∧
    (∀ r : Fixed,
      sortSort pointerByRanking.Less [pointerAt r (str "b"), pointerAt r (str "a")] =
        [pointerAt r (str "a"), pointerAt r (str "b")]) :=
  storeResult_records_fnv1_hash sampleEncode 1 sampleResult sampleRanked
    (freshQueryState Fixed 2) { freshQueryState Fixed 2 with FirstPathRank := ⟨20⟩ }
    sampleStored (by decide) (by decide)

/-- C14, as stated, fails: after three calls of storeResult with the sample result (three
matches in one file), the second and the third recorded pointer are distinct, and neither is
Less than the other. -/
theorem recorded_pointers_can_tie :
    ∃ p q, sampleStoredThrice.resultPointers[1]? = some p ∧
      sampleStoredThrice.resultPointers[2]? = some q ∧ p ≠ q ∧
      pointerByRanking.Less p q = false ∧ pointerByRanking.Less q p = false :=
  ⟨_, _, rfl, rfl, by decide, by decide, by decide⟩

/-- C14, amended: sorting result pointers by (ranking DESC, path_hash DESC) is a strict weak
order whose ties are the pointers with equal ranking and equal pathHash: for every two result
pointers a and b, exactly one of Less(a, b) and Less(b, a) holds when they differ in ranking or
in pathHash, and neither holds when they agree in both. -/
theorem pointerLess_exactly_one_unless_tied {F : Type} [GoFloat32 F]
    (a b : resultPointer F) :
    ((a.ranking ≠ b.ranking ∨ a.pathHash ≠ b.pathHash) ↔
      ((pointerByRanking.Less a b = true ∧ pointerByRanking.Less b a = false) ∨
        (pointerByRanking.Less a b = false ∧ pointerByRanking.Less b a = true))) ∧
    ((a.ranking = b.ranking ∧ a.pathHash = b.pathHash) ↔
      (pointerByRanking.Less a b = false ∧ pointerByRanking.Less b a = false)) := by
  rw [pointerLess_eq_false a b, pointerLess_eq_false b a]
  have hab : pointerByRanking.Less a b = true ↔
      ¬ (b.ranking > a.ranking ∨ (b.ranking = a.ranking ∧ b.pathHash ≥ a.pathHash)) := by
    rw [← pointerLess_eq_false b a]; simp
  have hba : pointerByRanking.Less b a = true ↔
      ¬ (a.ranking > b.ranking ∨ (a.ranking = b.ranking ∧ a.pathHash ≥ b.pathHash)) := by
    rw [← pointerLess_eq_false a b]; simp
  rw [hab, hba]
  rcases lt_trichotomy a.ranking b.ranking with h | h | h
  · have h1 : a.ranking ≠ b.ranking := ne_of_lt h
    have h2 : ¬ a.ranking > b.ranking := not_lt.mpr (le_of_lt h)
    have h3 : b.ranking ≠ a.ranking := Ne.symm h1
    simp [h, h1, h2, h3]
  · rcases lt_trichotomy a.pathHash b.pathHash with k | k | k
    · have k1 : a.pathHash ≠ b.pathHash := ne_of_lt k
      simp [h, k1, Nat.not_le.mpr k, Nat.le_of_lt k]
    · simp [h, k]
    · have k1 : a.pathHash ≠ b.pathHash := Nat.ne_of_gt k
      simp [h, k1, Nat.not_le.mpr k, Nat.le_of_lt k]
  · have h1 : a.ranking ≠ b.ranking := ne_of_gt h
    have h2 : ¬ b.ranking > a.ranking := not_lt.mpr (le_of_lt h)
    have h3 : b.ranking ≠ a.ranking := Ne.symm h1
    simp [h, h1, h2, h3]

/-- C15 on a first result whose content ranking is 0 (path rank 2.0): storeResult leaves
FirstPathRank at 0, because the result does not enter the top 10 and the local copy of the
state is dropped; the second result (path rank 3.0, content ranking 7.0) is then handled as a
first one: its ranking 7.0 passes through instead of being blended to 3.0 + (2.0 * 0.1) * 7.0
= 4.4, and FirstPathRank becomes 3.0, not the path rank 2.0 of the first result. -/
theorem storeResult_drops_first_path_rank :
    (storeResult sampleEncode 0 sampleUnranked IOOutcome.ok (freshQueryState Fixed 1)).map
        (fun g => (g.FirstPathRank, g.resultPointers.map (fun p => p.ranking))) =
      some (⟨0⟩, [⟨0⟩]) ∧
    ((storeResult sampleEncode 0 sampleUnranked IOOutcome.ok (freshQueryState Fixed 1)).bind
        (storeResult sampleEncode 0 sampleSecond IOOutcome.ok)).map
        (fun g => (g.FirstPathRank, g.resultPointers.map (fun p => p.ranking))) =
      some (⟨30⟩, [⟨0⟩, ⟨70⟩]) ∧
    GoFloat32.add sampleSecond.PathRank
        (GoFloat32.mul (GoFloat32.mul sampleUnranked.PathRank GoFloat32.tenth)
          sampleSecond.Ranking) = (⟨44⟩ : Fixed) := by
  decide

/-! ## The end of a backend query -/

theorem writeToDisk_counters {F : Type} [GoFloat32 F] (queryid : GoString) (g : queryState F)
    (hwf : PackagesWellFormed g) :
    ∃ g', writeToDisk queryid g = some g' ∧ g'.filesTotal = g.filesTotal ∧
      g'.filesProcessed = g.filesProcessed := by
  by_cases hne : g.resultPointers = []
  · exact ⟨g, by simp [writeToDisk, hne], rfl, rfl⟩
  · obtain ⟨pv, bypkg, -, -, h⟩ := writeToDisk_eq queryid g hne hwf
    refine ⟨_, h, ?_, ?_⟩
    · unfold sendPaginationUpdate addEventMarshal
      split_ifs <;> rfl
    · unfold sendPaginationUpdate addEventMarshal
      split_ifs <;> rfl

theorem storeProgress_counters {F : Type} [GoFloat32 F] (backends : Nat) (queryid : GoString)
    (backendidx : Nat) (progress : Result F) (g : queryState F)
    (hbackends : g.filesTotal.length = backends)
    (htotal : backendidx < g.filesTotal.length)
    (hprocessed : backendidx < g.filesProcessed.length) (hwf : PackagesWellFormed g) :
    ∃ g', storeProgress backends queryid backendidx progress g = some g' ∧
      g'.filesTotal = g.filesTotal.set backendidx progress.FilesTotal ∧
      g'.filesProcessed = g.filesProcessed.set backendidx progress.FilesProcessed := by
  have hall := allSet_eq (g.filesTotal.set backendidx progress.FilesTotal) backends 0
    (by simp [hbackends])
  have h1 : ¬ g.filesTotal.length ≤ backendidx := by omega
  have h2 : ¬ g.filesProcessed.length ≤ backendidx := by omega
  have hwf' : PackagesWellFormed (recordProgress backendidx progress g) := hwf
  obtain ⟨w, hw, hwt, hwp⟩ := writeToDisk_counters queryid _ hwf'
  simp only [storeProgress, h1, h2, if_false, hall]
  split_ifs with ha hb hc
  · have hw' : writeToDisk queryid { g with
        filesTotal := g.filesTotal.set backendidx progress.FilesTotal
        filesProcessed := g.filesProcessed.set backendidx progress.FilesProcessed } =
        some w := hw
    rw [hw']
    exact ⟨_, rfl, by simp [finishQuery, addEventMarshal, hwt, recordProgress],
      by simp [finishQuery, addEventMarshal, hwp, recordProgress]⟩
  · exact absurd ha.2 hc
  · exact absurd ha.1 hb
  · exact ⟨_, rfl, rfl, rfl⟩
  · exact ⟨_, rfl, rfl, rfl⟩
  · exact ⟨_, rfl, rfl, rfl⟩

/-- C12: when queryBackend returns (after a connection failure, a write failure or any
messages handled), its deferred function runs on the state reached; if the backend's
filesProcessed differs from its filesTotal, it stores the synthesized progress (total, total),
with total = 0 when the total is still -1, and then emits an error event with ErrorType
backendunavailable; so after queryBackend has returned the backend's filesProcessed equals
its filesTotal, and in the case of the synthesized progress the total is not -1: the backend
no longer prevents finalization.  If the two counters agree, nothing is done. -/
theorem queryBackend_synthesizes_progress {F : Type} [GoFloat32 F] (backends : Nat)
    (queryid : GoString) (backendidx : Nat) (g : queryState F)
    (hbackends : g.filesTotal.length = backends)
    (htotal : backendidx < g.filesTotal.length)
    (hprocessed : backendidx < g.filesProcessed.length) (hwf : PackagesWellFormed g) :
    ∃ total processed g', g.filesTotal[backendidx]? = some total ∧
      g.filesProcessed[backendidx]? = some processed ∧
      queryBackend.deferred backends queryid backendidx g = some g' ∧
      (∀ (encode : Result F → List Nat) (conn : Connection F) (g0 : queryState F),
        queryBackend.body encode backends queryid backendidx conn g0 = some g →
        queryBackend encode backends queryid backendidx conn g0 = some g') ∧
      g'.filesProcessed[backendidx]? = g'.filesTotal[backendidx]? ∧
      (processed = total → g' = g) ∧
      (processed ≠ total →
        queryBackend.deferred backends queryid backendidx g =
          (storeProgress backends queryid backendidx (synthesizedProgress F total) g).map
            (fun stored => addEventMarshal stored (Event.error (str "backendunavailable"))) ∧
        g'.filesTotal[backendidx]? = some (if total = -1 then 0 else total) ∧
        g'.filesProcessed[backendidx]? = some (if total = -1 then 0 else total) ∧
        (if total = -1 then 0 else total) ≠ -1 ∧
        g'.events.getLast? = some (Event.error (str "backendunavailable"))) := by
  have ht : g.filesTotal[backendidx]? = some g.filesTotal[backendidx] :=
    List.getElem?_eq_getElem htotal
  have hp : g.filesProcessed[backendidx]? = some g.filesProcessed[backendidx] :=
    List.getElem?_eq_getElem hprocessed
  generalize g.filesTotal[backendidx] = total at ht
  generalize g.filesProcessed[backendidx] = processed at hp
  obtain ⟨stored, hstored, hst, hsp⟩ := storeProgress_counters backends queryid backendidx
    (synthesizedProgress F total) g hbackends htotal hprocessed hwf
  have hdef : queryBackend.deferred backends queryid backendidx g =
      if processed = total then some g
      else (storeProgress backends queryid backendidx (synthesizedProgress F total) g).map
        (fun stored => addEventMarshal stored (Event.error (str "backendunavailable"))) := by
    have key : ∀ (o : Option (queryState F)) (f : queryState F → queryState F),
        (match o with
          | none => none
          | some w => some (f w)) = o.map f := by
      intro o f; cases o <;> rfl
    simp only [queryBackend.deferred, ht, hp]
    by_cases heq : processed = total
    · rw [if_pos heq, if_pos heq]
    · rw [if_neg heq, if_neg heq]
      exact key _ _
  by_cases heq : processed = total
  · refine ⟨total, processed, g, ht, hp, by rw [hdef, if_pos heq], ?_, ?_, fun _ => rfl,
      fun hne => absurd heq hne⟩
    · intro encode conn g0 hbody
      simp only [queryBackend, hbody]
      rw [hdef, if_pos heq]
    · rw [ht, hp, heq]
  · have hres : queryBackend.deferred backends queryid backendidx g =
        some (addEventMarshal stored (Event.error (str "backendunavailable"))) := by
      rw [hdef, if_neg heq, hstored]
      rfl
    have hft : (addEventMarshal stored (Event.error (str "backendunavailable"))).filesTotal[
        backendidx]? = some (if total = -1 then 0 else total) := by
      show stored.filesTotal[backendidx]? = _
      rw [hst]
      simp [List.getElem?_set, htotal, synthesizedProgress]
    have hfp : (addEventMarshal stored (Event.error (str "backendunavailable"))).filesProcessed[
        backendidx]? = some (if total = -1 then 0 else total) := by
      show stored.filesProcessed[backendidx]? = _
      rw [hsp]
      simp [List.getElem?_set, hprocessed, synthesizedProgress]
    refine ⟨total, processed, _, ht, hp, hres, ?_, by rw [hft, hfp],
      fun he => absurd he heq, fun _ => ⟨?_, hft, hfp, ?_, ?_⟩⟩
    · intro encode conn g0 hbody
      simp only [queryBackend, hbody]
      exact hres
    · rw [hdef, if_neg heq]
    · split_ifs with h
      · decide
      · exact h
    · simp [addEventMarshal]

/-- C12 at the sample query, whose first backend has processed 0 files of an unknown
total. -/
theorem queryBackend_synthesizes_progress_witness :
    ∃ total processed g', sampleState.filesTotal[0]? = some total ∧
      sampleState.filesProcessed[0]? = some processed ∧
      queryBackend.deferred 2 (str "q") 0 sampleState = some g' ∧
      (∀ (encode : Result Fixed → List Nat) (conn : Connection Fixed)
        (g0 : queryState Fixed),
        queryBackend.body encode 2 (str "q") 0 conn g0 = some sampleState →
        queryBackend encode 2 (str "q") 0 conn g0 = some g') ∧
      g'.filesProcessed[0]? = g'.filesTotal[0]? ∧
      (processed = total → g' = sampleState) ∧
      (processed ≠ total →
        queryBackend.deferred 2 (str "q") 0 sampleState =
          (storeProgress 2 (str "q") 0 (synthesizedProgress Fixed total) sampleState).map
            (fun stored => addEventMarshal stored (Event.error (str "backendunavailable"))) ∧
        g'.filesTotal[0]? = some (if total = -1 then 0 else total) ∧
        g'.filesProcessed[0]? = some (if total = -1 then 0 else total) ∧
        (if total = -1 then 0 else total) ≠ -1 ∧
        g'.events.getLast? = some (Event.error (str "backendunavailable"))) :=
  queryBackend_synthesizes_progress 2 (str "q") 0 sampleState (by decide) (by decide)
    (by decide) sampleState_wellFormed

/-! ## The query registry -/

theorem mapDelete_length {V : Type} (m : List (GoString × V)) (k : GoString)
    (hnodup : (m.map Prod.fst).Nodup) (hk : k ∈ m.map Prod.fst) :
    (mapDelete m k).length + 1 = m.length := by
  induction m with
  | nil => simp at hk
  | cons kv rest ih =>
    obtain ⟨k0, v0⟩ := kv
    rw [List.map_cons, List.nodup_cons] at hnodup
    by_cases h0 : k0 = k
    · subst h0
      have hrest : mapDelete rest k0 = rest := by
        unfold mapDelete
        rw [List.filter_eq_self]
        intro a ha
        have hin : a.1 ∈ rest.map Prod.fst := List.mem_map_of_mem Prod.fst ha
        have : a.1 ≠ k0 := fun e => hnodup.1 (by rw [← e]; exact hin)
        simpa using this
      have : mapDelete ((k0, v0) :: rest) k0 = mapDelete rest k0 := by
        simp [mapDelete]
      rw [this, hrest]
      simp
    · have hk' : k ∈ rest.map Prod.fst := by
        rw [List.map_cons, List.mem_cons] at hk
        rcases hk with hk | hk
        · exact absurd hk.symm h0
        · exact hk
      have : mapDelete ((k0, v0) :: rest) k = (k0, v0) :: mapDelete rest k := by
        simp [mapDelete, h0]
      rw [this, List.length_cons, List.length_cons, ih hnodup.2 hk']

theorem mapDelete_keys {V : Type} (m : List (GoString × V)) (k k' : GoString) :
    k' ∈ (mapDelete m k).map Prod.fst ↔ k' ∈ m.map Prod.fst ∧ k' ≠ k := by
  simp only [mapDelete, List.mem_map, List.mem_filter, decide_eq_true_eq]
  constructor
  · rintro ⟨a, ⟨ha, hne⟩, rfl⟩
    exact ⟨⟨a, ha, rfl⟩, hne⟩
  · rintro ⟨⟨a, ha, rfl⟩, hne⟩
    exact ⟨a, ⟨ha, hne⟩, rfl⟩

theorem mapDelete_nodup {V : Type} (m : List (GoString × V)) (k : GoString)
    (hnodup : (m.map Prod.fst).Nodup) : ((mapDelete m k).map Prod.fst).Nodup :=
  List.Nodup.sublist (List.Sublist.map Prod.fst (List.filter_sublist m)) hnodup

theorem collect_eq {F : Type} [GoFloat32 F] (xs : List (GoString × registryEntry F)) :
    ∀ st : List (GoString × registryEntry F), (xs.map Prod.fst).Nodup →
      (st.map Prod.fst).Nodup →
      (∀ kv ∈ xs, kv.2.s.done = true → kv.1 ∈ st.map Prod.fst) →
      maybeStartQuery.collect xs st =
        st.filter (fun kv => decide (kv.1 ∉
          ((xs.filter (fun kv => kv.2.s.done)).map (fun kv => kv.1)).take (st.length - 9))) := by
  induction xs with
  | nil =>
    intro st _ _ _
    simp [maybeStartQuery.collect]
  | cons x rest ih =>
    obtain ⟨q, s⟩ := x
    intro st hx hst hmem
    rw [List.map_cons, List.nodup_cons] at hx
    unfold maybeStartQuery.collect
    by_cases hlen : st.length < 10
    · rw [if_pos hlen]
      have h0 : st.length - 9 = 0 := by omega
      rw [h0]
      simp
    · rw [if_neg hlen]
      by_cases hd : s.s.done = true
      · have hnd : ¬ ((!s.s.done) = true) := by simp [hd]
        rw [if_neg hnd]
        have hq : q ∈ st.map Prod.fst := hmem (q, s) (List.mem_cons_self _ _) hd
        have hl := mapDelete_length st q hst hq
        rw [ih (mapDelete st q) hx.2 (mapDelete_nodup st q hst)]
        · have e1 : (mapDelete st q).length - 9 = st.length - 10 := by omega
          have e2 : st.length - 9 = (st.length - 10) + 1 := by omega
          rw [e1, e2]
          have e3 : List.filter (fun kv : GoString × registryEntry F => kv.2.s.done)
              ((q, s) :: rest) =
              (q, s) :: List.filter (fun kv : GoString × registryEntry F => kv.2.s.done)
                rest := by
            simp [List.filter_cons, hd]
          rw [e3, List.map_cons, List.take_succ_cons]
          unfold mapDelete
          rw [List.filter_filter]
          apply List.filter_congr
          intro a _
          simp only [List.mem_cons, not_or, Bool.decide_and, ne_eq]
          rw [Bool.and_comm]
        · intro kv hkv hdone
          rw [mapDelete_keys]
          refine ⟨hmem kv (List.mem_cons_of_mem _ hkv) hdone, ?_⟩
          intro e
          have hin : kv.1 ∈ rest.map Prod.fst := List.mem_map_of_mem Prod.fst hkv
          exact hx.1 (by rw [← e]; exact hin)
      · have hnd : (!s.s.done) = true := by simp [hd]
        rw [if_pos hnd]
        rw [ih st hx.2 hst (fun kv hkv => hmem kv (List.mem_cons_of_mem _ hkv))]
        have e3 : List.filter (fun kv : GoString × registryEntry F => kv.2.s.done)
            ((q, s) :: rest) =
            List.filter (fun kv : GoString × registryEntry F => kv.2.s.done) rest := by
          simp [List.filter_cons, hd]
        rw [e3]

theorem collect_until {F : Type} [GoFloat32 F] (xs : List (GoString × registryEntry F)) :
    ∀ st : List (GoString × registryEntry F),
      (∀ kv ∈ st, kv.2.s.done = true → kv ∈ xs) →
      (maybeStartQuery.collect xs st).length < 10 ∨
        ∀ kv ∈ maybeStartQuery.collect xs st, kv.2.s.done = false := by
  induction xs with
  | nil =>
    intro st h
    right
    intro kv hkv
    simp only [maybeStartQuery.collect] at hkv
    cases hd : kv.2.s.done with
    | false => rfl
    | true => exact absurd (h kv hkv hd) (List.not_mem_nil _)
  | cons x rest ih =>
    obtain ⟨q, s⟩ := x
    intro st h
    unfold maybeStartQuery.collect
    by_cases hlen : st.length < 10
    · rw [if_pos hlen]
      exact Or.inl hlen
    · rw [if_neg hlen]
      by_cases hd : s.s.done = true
      · have hnd : ¬ ((!s.s.done) = true) := by simp [hd]
        rw [if_neg hnd]
        apply ih
        intro kv hkv hdone
        simp only [mapDelete, List.mem_filter, decide_eq_true_eq] at hkv
        rcases List.mem_cons.mp (h kv hkv.1 hdone) with e | e
        · exact absurd (by rw [e]) hkv.2
        · exact e
      · have hnd : (!s.s.done) = true := by simp [hd]
        rw [if_pos hnd]
        apply ih
        intro kv hkv hdone
        rcases List.mem_cons.mp (h kv hkv hdone) with e | e
        · rw [e] at hdone
          exact absurd hdone hd
        · exact e

theorem createFiles_ok {F : Type} (n : Nat) :
    ∀ (i : Nat) (s : queryState F),
      s.filesTotal = List.replicate i (-1) ++ List.replicate n 0 →
      s.tempFiles = List.replicate (i + n) { data := [], pos := 0 } →
      maybeStartQuery.createFiles none n i s =
        ({ s with filesTotal := List.replicate (i + n) (-1) }, true) := by
  induction n with
  | zero =>
    intro i s hft _
    simp only [maybeStartQuery.createFiles]
    rw [← show s.filesTotal = List.replicate (i + 0) (-1) by simpa using hft]
  | succ n ih =>
    intro i s hft htf
    simp only [maybeStartQuery.createFiles]
    rw [if_neg (by simp)]
    have hset : s.filesTotal.set i (-1) = List.replicate (i + 1) (-1) ++ List.replicate n 0 := by
      rw [hft]
      apply List.ext_getElem?
      intro j
      simp only [List.getElem?_set, List.getElem?_append, List.getElem?_replicate,
        List.length_append, List.length_replicate]
      by_cases h1 : i = j
      · subst h1
        simp
      · by_cases h2 : j < i
        · have : j < i + 1 := by omega
          simp [h1, h2, this]
        · have h3 : ¬ j < i + 1 := by omega
          simp only [h1, h2, h3, if_false]
          by_cases h4 : j - i < n + 1
          · have : j - (i + 1) < n := by omega
            simp [h4, this]
          · have : ¬ j - (i + 1) < n := by omega
            simp [h4, this]
    have htf' : s.tempFiles.set i { data := [], pos := 0 } = s.tempFiles := by
      rw [htf]
      apply List.ext_getElem?
      intro j
      simp only [List.getElem?_set, List.getElem?_replicate, List.length_replicate]
      by_cases h1 : i = j
      · subst h1
        simp
      · simp [h1]
    rw [htf', ih (i + 1) _ hset (by rw [htf]; congr 1; omega)]
    have : i + 1 + n = i + (n + 1) := by omega
    rw [this]

theorem createFiles_started {F : Type} [GoFloat32 F] (n : Nat) :
    maybeStartQuery.createFiles none n 0 (startedQueryState F n) = (freshQueryState F n, true) := by
  rw [createFiles_ok n 0 (startedQueryState F n) (by simp [startedQueryState])
    (by simp [startedQueryState, freshQueryState])]
  simp [startedQueryState, freshQueryState]


theorem maybeStartQuery_of_running {F : Type} [GoFloat32 F] (backends : Nat) (now : Int)
    (env : StartEnv) (queryid query : GoString) (state : List (GoString × registryEntry F))
    (e : registryEntry F) (he : mapGet? state queryid = some e)
    (hyoung : now - e.started ≤ thirtyMinutes) :
    maybeStartQuery backends now env queryid query state = Started.returned true state [] := by
  have : ¬ now - e.started > thirtyMinutes := not_lt.mpr hyoung
  simp [maybeStartQuery, he, this]

theorem maybeStartQuery_of_not_running {F : Type} [GoFloat32 F] (backends : Nat) (now : Int)
    (env : StartEnv) (queryid query : GoString) (state : List (GoString × registryEntry F))
    (h : ∀ e, mapGet? state queryid = some e → now - e.started > thirtyMinutes) :
    ∃ kept, kept = (if (mapGet? state queryid).isNone ∧ 10 ≤ state.length then
        maybeStartQuery.collect state state else state) ∧
      maybeStartQuery backends now env queryid query state =
        if env.mkdirFails then
          Started.blocked (mapSet kept queryid
            { started := now, query := query, s := startedQueryState F backends })
        else if env.spaceCheckFatal then Started.fatal
        else
          match maybeStartQuery.createFiles env.createFailsAt backends 0
              (startedQueryState F backends) with
          | (s, false) =>
            Started.blocked (mapSet kept queryid { started := now, query := query, s := s })
          | (s, true) =>
            if env.rewriteFatal then Started.fatal
            else Started.returned false
              (mapSet kept queryid { started := now, query := query, s := s })
              (List.range backends) := by
  refine ⟨_, rfl, ?_⟩
  cases he : mapGet? state queryid with
  | none =>
    simp only [maybeStartQuery, he]
    by_cases hlen : 10 ≤ state.length <;> simp [hlen]
  | some e =>
    have := h e he
    simp only [maybeStartQuery, he]
    simp [this]

theorem maybeStartQuery_starts {F : Type} [GoFloat32 F] (backends : Nat) (now : Int)
    (queryid query : GoString) (state : List (GoString × registryEntry F))
    (h : ∀ e, mapGet? state queryid = some e → now - e.started > thirtyMinutes) :
    maybeStartQuery backends now StartEnv.ok queryid query state =
      Started.returned false
        (mapSet
          (if (mapGet? state queryid).isNone ∧ 10 ≤ state.length then
            maybeStartQuery.collect state state else state)
          queryid { started := now, query := query, s := freshQueryState F backends })
        (List.range backends) := by
  obtain ⟨kept, hkept, hrun⟩ :=
    maybeStartQuery_of_not_running backends now StartEnv.ok queryid query state h
  rw [hrun, ← hkept]
  simp [StartEnv.ok, createFiles_started]


theorem collect_of_small {F : Type} [GoFloat32 F]
    (xs st : List (GoString × registryEntry F)) (h : st.length < 10) :
    maybeStartQuery.collect xs st = st := by
  cases xs with
  | nil => rfl
  | cons x rest =>
    obtain ⟨q, s⟩ := x
    simp [maybeStartQuery.collect, h]

/-- C11 when the directory of the query cannot be created, on an empty registry: the entry of
the query is stored with every filesTotal still 0 (not -1), and the call never returns: it
calls failQuery while it holds stateMu, and finishQuery waits for stateMu. -/
theorem maybeStartQuery_blocks_when_mkdir_fails :
    maybeStartQuery 2 100 { StartEnv.ok with mkdirFails := true } (str "q") (str "x")
        ([] : List (GoString × registryEntry Fixed)) =
      Started.blocked
        [(str "q", { started := 100, query := str "x", s := startedQueryState Fixed 2 })] ∧
    (startedQueryState Fixed 2).filesTotal = [0, 0] ∧
    (∀ running st bs,
      maybeStartQuery 2 100 { StartEnv.ok with mkdirFails := true } (str "q") (str "x")
        ([] : List (GoString × registryEntry Fixed)) ≠ Started.returned running st bs) := by
  refine ⟨by decide, by decide, ?_⟩
  intro running st bs h
  have e : maybeStartQuery 2 100 { StartEnv.ok with mkdirFails := true } (str "q") (str "x")
        ([] : List (GoString × registryEntry Fixed)) =
      Started.blocked
        [(str "q", { started := 100, query := str "x", s := startedQueryState Fixed 2 })] := by
    decide
  rw [e] at h
  cases h

/-- C16, as stated, fails: in the sample registry of ten queries the finished query b
(started at 2) is iterated before the finished query a (started at 1); starting a new query
removes b and keeps a, a completed query that was started earlier. -/
theorem gc_keeps_older_done_query :
    maybeStartQuery 2 100 StartEnv.ok (str "new") (str "x") sampleRegistry =
      Started.returned false
        (mapSet (mapDelete sampleRegistry (str "b")) (str "new")
          { started := 100, query := str "x", s := freshQueryState Fixed 2 }) [0, 1] ∧
    mapGet? sampleRegistry (str "b") = some (sampleEntry 2 true) ∧
    mapGet? sampleRegistry (str "a") = some (sampleEntry 1 true) ∧
    (sampleEntry 1 true).s.done = true ∧
    (sampleEntry 1 true).started < (sampleEntry 2 true).started ∧
    mapGet? (mapSet (mapDelete sampleRegistry (str "b")) (str "new")
      { started := 100, query := str "x", s := freshQueryState Fixed 2 }) (str "b") = none ∧
    mapGet? (mapSet (mapDelete sampleRegistry (str "b")) (str "new")
      { started := 100, query := str "x", s := freshQueryState Fixed 2 }) (str "a") =
        some (sampleEntry 1 true) := by
  decide

/-- C16, amended: the garbage collection that maybeStartQuery runs when a new query starts
removes only queries whose done flag is set, and removes them in the iteration order of the
registry, whatever their start times: the queries removed are the first len(state) - 9
finished queries in iteration order (all finished ones if there are fewer), so that afterwards
fewer than 10 queries remain or no finished query is left. -/
theorem maybeStartQuery_collects_in_iteration_order {F : Type} [GoFloat32 F]
    (state : List (GoString × registryEntry F)) (hnodup : (state.map Prod.fst).Nodup) :
    maybeStartQuery.collect state state =
      state.filter (fun kv => decide (kv.1 ∉ collected state)) ∧
    (∀ kv ∈ state, kv ∉ maybeStartQuery.collect state state → kv.2.s.done = true) ∧
    ((maybeStartQuery.collect state state).length < 10 ∨
      ∀ kv ∈ maybeStartQuery.collect state state, kv.2.s.done = false) ∧
    (∀ (backends : Nat) (now : Int) (queryid query : GoString),
      mapGet? state queryid = none →
      maybeStartQuery backends now StartEnv.ok queryid query state =
        Started.returned false
          (mapSet (maybeStartQuery.collect state state) queryid
            { started := now, query := query, s := freshQueryState F backends })
          (List.range backends)) := by
  have heq : maybeStartQuery.collect state state =
      state.filter (fun kv => decide (kv.1 ∉ collected state)) :=
    collect_eq state state hnodup hnodup
      (fun kv hkv _ => List.mem_map_of_mem Prod.fst hkv)
  refine ⟨heq, ?_, collect_until state state (fun kv hkv _ => hkv), ?_⟩
  · intro kv hkv hnot
    rw [heq, List.mem_filter] at hnot
    have hin : kv.1 ∈ collected state := by
      by_contra hc
      exact hnot ⟨hkv, by simpa using hc⟩
    have hin' := List.mem_of_mem_take hin
    rw [List.mem_map] at hin'
    obtain ⟨kv', hkv', hk⟩ := hin'
    rw [List.mem_filter] at hkv'
    have : kv' = kv := List.inj_on_of_nodup_map hnodup hkv'.1 hkv hk
    rw [← this]
    exact hkv'.2
  · intro backends now queryid query hnone
    rw [maybeStartQuery_starts backends now queryid query state
      (fun e he => by rw [hnone] at he; cases he)]
    by_cases hlen : 10 ≤ state.length
    · simp [hnone, hlen]
    · rw [collect_of_small state state (by omega)]
      simp [hlen]

/-- C16, amended, at the sample registry. -/
theorem maybeStartQuery_collects_in_iteration_order_witness :
    (sampleRegistry.map Prod.fst).Nodup ∧
    maybeStartQuery.collect sampleRegistry sampleRegistry =
      sampleRegistry.filter (fun kv => decide (kv.1 ∉ collected sampleRegistry)) ∧
    (∀ kv ∈ sampleRegistry, kv ∉ maybeStartQuery.collect sampleRegistry sampleRegistry →
      kv.2.s.done = true) ∧
    ((maybeStartQuery.collect sampleRegistry sampleRegistry).length < 10 ∨
      ∀ kv ∈ maybeStartQuery.collect sampleRegistry sampleRegistry, kv.2.s.done = false) ∧
    (∀ (backends : Nat) (now : Int) (queryid query : GoString),
      mapGet? sampleRegistry queryid = none →
      maybeStartQuery backends now StartEnv.ok queryid query sampleRegistry =
        Started.returned false
          (mapSet (maybeStartQuery.collect sampleRegistry sampleRegistry) queryid
            { started := now, query := query, s := freshQueryState Fixed backends })
          (List.range backends)) :=
  ⟨by decide, maybeStartQuery_collects_in_iteration_order sampleRegistry (by decide)⟩


/-! ## Space management -/

theorem exists_shift_to (B c : Nat) (h0 : 0 < c) (h : c < 2 ^ (B + 1)) :
    ∃ t, t ≤ B ∧ 2 ^ B ≤ c * 2 ^ t ∧ c * 2 ^ t < 2 ^ (B + 1) := by
  have hne : c ≠ 0 := Nat.pos_iff_ne_zero.mp h0
  have hL1 : 2 ^ c.log2 ≤ c := Nat.log2_self_le hne
  have hL2 : c < 2 ^ (c.log2 + 1) := Nat.lt_log2_self
  have hL3 : c.log2 < B + 1 := (Nat.log2_lt hne).mpr h
  refine ⟨B - c.log2, by omega, ?_, ?_⟩
  · calc 2 ^ B = 2 ^ c.log2 * 2 ^ (B - c.log2) := by
          rw [← Nat.pow_add]; congr 1; omega
      _ ≤ c * 2 ^ (B - c.log2) := Nat.mul_le_mul_right _ hL1
  · calc c * 2 ^ (B - c.log2) < 2 ^ (c.log2 + 1) * 2 ^ (B - c.log2) :=
          Nat.mul_lt_mul_of_pos_right hL2 (Nat.two_pow_pos _)
      _ = 2 ^ (B + 1) := by rw [← Nat.pow_add]; congr 1; omega

theorem fifth_eq : fifth = { mant := 7205759403792794, exp := -55 } := by
  decide

/-- The `float64` product of `0.2` and `n` (scaled by `A`), truncated to an integer, is the
floor of `n / 5`. -/
theorem roundQuot_fifth (n A : Nat) (h0 : 0 < n) (h : n < 2 ^ 52) (hA : 0 < A) :
    ∃ (t m : Nat), roundQuot (7205759403792794 * (n * A)) (2 ^ 55 * A) =
        { mant := m, exp := -(t : Int) } ∧ 0 < t ∧ m / 2 ^ t = n / 5 := by
  have hc0 : 0 < 7205759403792794 * n := Nat.mul_pos (by decide) h0
  have hc1 : 7205759403792794 * n < 2 ^ (107 + 1) := by
    have : 7205759403792794 * n < 7205759403792794 * 2 ^ 52 :=
      Nat.mul_lt_mul_of_pos_left h (by decide)
    have e : (7205759403792794 : Nat) * 2 ^ 52 < 2 ^ (107 + 1) := by decide
    omega
  obtain ⟨t0, ht0, h1, h2⟩ := exists_shift_to 107 _ hc0 hc1
  have hcancel : ∀ s : Nat, (2 ^ 52 * (2 ^ 55 * A) ≤ 7205759403792794 * (n * A) * 2 ^ s ∧
      7205759403792794 * (n * A) * 2 ^ s < 2 ^ 53 * (2 ^ 55 * A)) ↔
      (2 ^ 107 ≤ 7205759403792794 * n * 2 ^ s ∧ 7205759403792794 * n * 2 ^ s < 2 ^ 108) := by
    intro s
    have e1 : 2 ^ 52 * (2 ^ 55 * A) = 2 ^ 107 * A := by
      rw [← Nat.mul_assoc, ← Nat.pow_add]
    have e2 : 7205759403792794 * (n * A) * 2 ^ s = (7205759403792794 * n * 2 ^ s) * A := by
      ring
    have e3 : 2 ^ 53 * (2 ^ 55 * A) = 2 ^ 108 * A := by
      rw [← Nat.mul_assoc, ← Nat.pow_add]
    rw [e1, e2, e3]
    constructor
    · rintro ⟨a, b⟩
      exact ⟨Nat.le_of_mul_le_mul_right a hA, Nat.lt_of_mul_lt_mul_right b⟩
    · rintro ⟨a, b⟩
      exact ⟨Nat.mul_le_mul_right A a, Nat.mul_lt_mul_of_pos_right b hA⟩
  obtain ⟨t, hfind⟩ := findShift_complete
    (fun s => decide (2 ^ 52 * (2 ^ 55 * A) ≤ 7205759403792794 * (n * A) * 2 ^ s ∧
      7205759403792794 * (n * A) * 2 ^ s < 2 ^ 53 * (2 ^ 55 * A)))
    1075 0 t0 (Nat.zero_le _) (by omega) (decide_eq_true ((hcancel t0).mpr ⟨h1, h2⟩))
  have hsound := findShift_sound _ _ _ _ hfind
  have hU := (hcancel t).mp (of_decide_eq_true hsound)
  have hnA : 7205759403792794 * (n * A) ≠ 0 :=
    Nat.pos_iff_ne_zero.mp (Nat.mul_pos (by decide) (Nat.mul_pos h0 hA))
  refine ⟨t, rneDiv (7205759403792794 * (n * A) * 2 ^ t) (2 ^ 55 * A),
    roundQuot_up _ _ t hnA hfind, ?_, ?_⟩
  · rcases Nat.eq_zero_or_pos t with ht | ht
    · subst ht
      simp only [Nat.pow_zero, Nat.mul_one] at hU
      omega
    · exact ht
  · generalize hT : 2 ^ t = T at hU ⊢
    have hb := rneDiv_bounds (7205759403792794 * (n * A) * T) (2 ^ 55 * A)
      (Nat.mul_pos (Nat.two_pow_pos _) hA)
    generalize hm : rneDiv (7205759403792794 * (n * A) * T) (2 ^ 55 * A) = m at hb
    have hb1 : 2 * (2 ^ 55 * m) ≤ 2 * (7205759403792794 * (n * T)) + 2 ^ 55 := by
      have e1 : 2 * (2 ^ 55 * A * m) = (2 * (2 ^ 55 * m)) * A := by ring
      have e2 : 2 * (7205759403792794 * (n * A) * T) + 2 ^ 55 * A =
          (2 * (7205759403792794 * (n * T)) + 2 ^ 55) * A := by ring
      rw [e1, e2] at hb
      exact Nat.le_of_mul_le_mul_right hb.1 hA
    have hb2 : 2 * (7205759403792794 * (n * T)) ≤ 2 * (2 ^ 55 * m) + 2 ^ 55 := by
      have e1 : 2 * (2 ^ 55 * A * m) + 2 ^ 55 * A = (2 * (2 ^ 55 * m) + 2 ^ 55) * A := by ring
      have e2 : 2 * (7205759403792794 * (n * A) * T) =
          (2 * (7205759403792794 * (n * T))) * A := by ring
      rw [e1, e2] at hb
      exact Nat.le_of_mul_le_mul_right hb.2 hA
    have hU1 : 2 ^ 107 ≤ 7205759403792794 * (n * T) := by
      rw [← Nat.mul_assoc]; exact hU.1
    have hdm := Nat.div_add_mod n 5
    have hr := Nat.mod_lt n (show 0 < 5 by decide)
    generalize hk : n / 5 = k at hdm
    generalize hrr : n % 5 = r at hdm hr
    have hn : n * T = 5 * (k * T) + r * T := by rw [← hdm]; ring
    have hrT : r * T ≤ 4 * T := Nat.mul_le_mul_right T (by omega)
    have hnT : n * T ≤ (2 ^ 52 - 1) * T := Nat.mul_le_mul_right T (by omega)
    have e55 : (2 : Nat) ^ 55 = 36028797018963968 := by decide
    have e107 : (2 : Nat) ^ 107 = 162259276829213363391578010288128 := by decide
    have e52 : (2 : Nat) ^ 52 - 1 = 4503599627370495 := by decide
    rw [e55] at hb1 hb2
    rw [e107] at hU1
    rw [e52] at hnT
    have key : k * T ≤ m ∧ m < k * T + T := by
      generalize n * T = NT at hn hnT hU1 hb1 hb2
      generalize k * T = KT at hn ⊢
      generalize r * T = RT at hn hrT
      omega
    exact Nat.div_eq_of_lt_le key.1 (by rw [Nat.succ_mul]; exact key.2)

theorem headroom_eq (total : Nat) (h : total < 2 ^ 52) : headroom total = total / 5 := by
  by_cases h0 : total = 0
  · subst h0
    decide
  · have hpos : 0 < total := Nat.pos_of_ne_zero h0
    obtain ⟨s, hs⟩ := float64_exact total hpos (by omega)
    obtain ⟨t, m, hq, ht, hm⟩ := roundQuot_fifth total (2 ^ s) hpos h (Nat.two_pow_pos _)
    have hmul : fifth.mul (float64 total) = { mant := m, exp := -(t : Int) } := by
      rw [hs, fifth_eq]
      unfold Float64.mul
      simp only
      have e1 : (-(55 : Int) + -(s : Int)).toNat = 0 := by omega
      have e2 : (-(-(55 : Int) + -(s : Int))).toNat = 55 + s := by omega
      rw [e1, e2, Nat.pow_zero, Nat.mul_one, Nat.pow_add]
      exact hq
    unfold headroom
    rw [hmul]
    have hneg : ¬ (0 : Int) ≤ -(t : Int) := by omega
    unfold Float64.toInt
    simp only [hneg, if_false, Int.natAbs_neg, Int.natAbs_ofNat, Int.toNat_ofNat]
    exact hm


theorem byModTimeLess_eq_false (a b : FileInfo) :
    ByModTime.Less b a = false ↔ a.modTime ≤ b.modTime := by
  simp [ByModTime.Less]

theorem directories_cons_dir (info : FileInfo) (rest : List FileInfo)
    (h : info.isDir = true) : directories (info :: rest) = info.name :: directories rest := by
  simp [directories, List.filter_cons, h]

theorem directories_cons_file (info : FileInfo) (rest : List FileInfo)
    (h : info.isDir = false) : directories (info :: rest) = directories rest := by
  simp [directories, List.filter_cons, h]

theorem availableAfter_eq (env : SpaceEnv) (removed : List GoString) (a t : Nat)
    (h : fsBytes env removed = some (a, t)) : availableAfter env removed = a := by
  simp [availableAfter, h]

theorem fsBytes_isSome (env : SpaceEnv) (removed : List GoString)
    (h : (env.statfs removed).isSome = true) : ∃ a t, fsBytes env removed = some (a, t) := by
  unfold fsBytes
  cases hs : env.statfs removed with
  | none => rw [hs] at h; cases h
  | some stat => exact ⟨_, _, rfl⟩

theorem cleanup_loop_spec (env : SpaceEnv) (headroom : Nat)
    (hrm : ∀ name, env.removeFails name = false)
    (hstat : ∀ removed, (env.statfs removed).isSome = true) :
    ∀ (l : List FileInfo) (deleted : List GoString),
      ∃ k, k ≤ (directories l).length ∧
        ensureEnoughSpaceAvailable.loop env headroom l deleted =
          { deleted := deleted ++ (directories l).take k, returned := true } ∧
        (∀ j, 1 ≤ j → j < k →
          availableAfter env (deleted ++ (directories l).take j) < headroom) ∧
        (k = (directories l).length ∨
          (1 ≤ k ∧ headroom ≤ availableAfter env (deleted ++ (directories l).take k))) ∧
        (directories l ≠ [] → 1 ≤ k) := by
  intro l
  induction l with
  | nil =>
    intro deleted
    refine ⟨0, by simp [directories], by simp [ensureEnoughSpaceAvailable.loop], ?_,
      Or.inl (by simp [directories]), fun h => absurd (by simp [directories]) h⟩
    intro j h1 h2
    omega
  | cons info rest ih =>
    intro deleted
    unfold ensureEnoughSpaceAvailable.loop
    cases hd : info.isDir with
    | false =>
      rw [directories_cons_file info rest hd]
      simpa using ih deleted
    | true =>
      rw [directories_cons_dir info rest hd]
      simp only [Bool.not_true, Bool.false_eq_true, if_false, hrm]
      obtain ⟨a, t, hfs⟩ := fsBytes_isSome env (deleted ++ [info.name]) (hstat _)
      have hav := availableAfter_eq env _ a t hfs
      simp only [hfs]
      by_cases hge : a ≥ headroom
      · rw [if_pos hge]
        refine ⟨1, by simp, by simp, ?_, Or.inr ⟨le_refl 1, ?_⟩, fun _ => le_refl 1⟩
        · intro j h1 h2
          omega
        · simpa [hav] using hge
      · rw [if_neg hge]
        obtain ⟨k, hk, hloop, hbefore, hend, -⟩ := ih (deleted ++ [info.name])
        refine ⟨k + 1, by simpa using hk, ?_, ?_, ?_, fun _ => by omega⟩
        · rw [hloop]
          simp [List.append_assoc]
        · intro j h1 h2
          rcases Nat.lt_or_ge 1 j with hj | hj
          · obtain ⟨i, rfl⟩ : ∃ i, j = i + 1 := ⟨j - 1, by omega⟩
            have := hbefore i (by omega) (by omega)
            simpa [List.append_assoc] using this
          · have hj1 : j = 1 := by omega
            subst hj1
            simpa [hav] using hge
        · rcases hend with hend | ⟨h1, hend⟩
          · exact Or.inl (by simp [hend])
          · refine Or.inr ⟨by omega, ?_⟩
            simpa [List.append_assoc] using hend

/-- C17: ensureEnoughSpaceAvailable, when the file system operations succeed, returns and
deletes nothing when the available bytes are at least the headroom uint64(0.2 * float64(total)),
which is the floor of total / 5 for totals below 2 ^ 52 bytes (so nothing is deleted when the
available bytes are at least 20% of the total); otherwise the directories it deletes are a
prefix of the directories under the results path ordered by ascending modification time,
ending at the first deletion after which the available bytes reach the headroom (or with all
directories deleted), and every deleted entry is a directory. -/
theorem ensureEnoughSpaceAvailable_deletes_oldest_first (env : SpaceEnv)
    (available total : Nat) (infos : List FileInfo)
    (hfs : fsBytes env [] = some (available, total))
    (hdir : env.readdir = some infos)
    (hrm : ∀ name, env.removeFails name = false)
    (hstat : ∀ removed, (env.statfs removed).isSome = true) :
    (total < 2 ^ 52 → headroom total = total / 5) ∧
    (headroom total ≤ available →
      ensureEnoughSpaceAvailable env = { deleted := [], returned := true }) ∧
    (total < 2 ^ 52 → total ≤ 5 * available →
      ensureEnoughSpaceAvailable env = { deleted := [], returned := true }) ∧
    (available < headroom total →
      ∃ k, k ≤ (directories (sortSort ByModTime.Less infos)).length ∧
        ensureEnoughSpaceAvailable env =
          { deleted := (directories (sortSort ByModTime.Less infos)).take k
            returned := true } ∧
        (∀ j, 1 ≤ j → j < k →
          availableAfter env ((directories (sortSort ByModTime.Less infos)).take j) <
            headroom total) ∧
        (k = (directories (sortSort ByModTime.Less infos)).length ∨
          (1 ≤ k ∧ headroom total ≤
            availableAfter env ((directories (sortSort ByModTime.Less infos)).take k))) ∧
        (directories (sortSort ByModTime.Less infos) ≠ [] → 1 ≤ k)) ∧
    (sortSort ByModTime.Less infos).Pairwise (fun a b => a.modTime ≤ b.modTime) ∧
    (sortSort ByModTime.Less infos).Perm infos ∧
    (∀ name ∈ (ensureEnoughSpaceAvailable env).deleted,
      ∃ info ∈ infos, info.name = name ∧ info.isDir = true) := by
  have hnone : headroom total ≤ available →
      ensureEnoughSpaceAvailable env = { deleted := [], returned := true } := by
    intro hle
    simp [ensureEnoughSpaceAvailable, hfs, hle]
  have hsome : available < headroom total →
      ensureEnoughSpaceAvailable env =
        ensureEnoughSpaceAvailable.loop env (headroom total)
          (sortSort ByModTime.Less infos) [] := by
    intro hlt
    have : ¬ available ≥ headroom total := by omega
    simp [ensureEnoughSpaceAvailable, hfs, hdir, this]
  have hmem : ∀ name ∈ directories (sortSort ByModTime.Less infos),
      ∃ info ∈ infos, info.name = name ∧ info.isDir = true := by
    intro name hname
    simp only [directories, List.mem_map, List.mem_filter] at hname
    obtain ⟨info, ⟨hin, hd⟩, hn⟩ := hname
    exact ⟨info, (sortSort_perm ByModTime.Less infos).mem_iff.mp hin, hn, hd⟩
  refine ⟨headroom_eq total, hnone, ?_, ?_, ?_, sortSort_perm _ _, ?_⟩
  · intro hlt h5
    apply hnone
    rw [headroom_eq total hlt]
    omega
  · intro hlt
    obtain ⟨k, hk, hloop, hbefore, hend, hne⟩ := cleanup_loop_spec env (headroom total) hrm
      hstat (sortSort ByModTime.Less infos) []
    refine ⟨k, hk, ?_, ?_, ?_, hne⟩
    · rw [hsome hlt, hloop]
      simp
    · simpa using hbefore
    · simpa using hend
  · have hs := sortSort_sorted ByModTime.Less
      (fun a b => by
        simp only [ByModTime.Less, decide_eq_false_iff_not, not_lt]
        exact le_total _ _)
      (fun a b c h1 h2 => by
        simp only [ByModTime.Less, decide_eq_false_iff_not, not_lt] at h1 h2 ⊢
        exact le_trans h1 h2)
      infos
    exact hs.imp (fun {a b} h => (byModTimeLess_eq_false a b).mp h)
  · intro name hname
    by_cases hle : headroom total ≤ available
    · rw [hnone hle] at hname
      cases hname
    · obtain ⟨k, -, hloop, -⟩ := cleanup_loop_spec env (headroom total) hrm
        hstat (sortSort ByModTime.Less infos) []
      rw [hsome (by omega), hloop] at hname
      simp only [List.nil_append] at hname
      exact hmem name (List.mem_of_mem_take hname)

/-- C17 at the sample results path: 10% available; the directories old and mid are removed,
the directory new and the file are kept. -/
theorem ensureEnoughSpaceAvailable_deletes_oldest_first_witness :
    ensureEnoughSpaceAvailable sampleSpace =
      { deleted := [str "old", str "mid"], returned := true } ∧
    directories (sortSort ByModTime.Less sampleInfos) =
      [str "old", str "mid", str "new"] ∧
    ((4096000 < 2 ^ 52 → headroom 4096000 = 4096000 / 5) ∧
    (headroom 4096000 ≤ 409600 →
      ensureEnoughSpaceAvailable sampleSpace = { deleted := [], returned := true }) ∧
    (4096000 < 2 ^ 52 → 4096000 ≤ 5 * 409600 →
      ensureEnoughSpaceAvailable sampleSpace = { deleted := [], returned := true }) ∧
    (409600 < headroom 4096000 →
      ∃ k, k ≤ (directories (sortSort ByModTime.Less sampleInfos)).length ∧
        ensureEnoughSpaceAvailable sampleSpace =
          { deleted := (directories (sortSort ByModTime.Less sampleInfos)).take k
            returned := true } ∧
        (∀ j, 1 ≤ j → j < k →
          availableAfter sampleSpace ((directories (sortSort ByModTime.Less sampleInfos)).take j) <
            headroom 4096000) ∧
        (k = (directories (sortSort ByModTime.Less sampleInfos)).length ∨
          (1 ≤ k ∧ headroom 4096000 ≤
            availableAfter sampleSpace ((directories (sortSort ByModTime.Less sampleInfos)).take k))) ∧
        (directories (sortSort ByModTime.Less sampleInfos) ≠ [] → 1 ≤ k)) ∧
    (sortSort ByModTime.Less sampleInfos).Pairwise
        (fun a b => a.modTime ≤ b.modTime) ∧
    (sortSort ByModTime.Less sampleInfos).Perm
      sampleInfos ∧
    (∀ name ∈ (ensureEnoughSpaceAvailable sampleSpace).deleted,
      ∃ info ∈ sampleInfos,
        info.name = name ∧ info.isDir = true)) :=
  ⟨by decide, by decide,
    ensureEnoughSpaceAvailable_deletes_oldest_first sampleSpace 409600 4096000 _
      (by decide) rfl (fun _ => rfl) (fun _ => rfl)⟩


/-! ## The importer -/

theorem countP_set {α : Type} (p : α → Bool) (b : α) :
    ∀ (l : List α) (i : Nat) (a : α), l[i]? = some a →
      (l.set i b).countP p + (if p a then 1 else 0) =
        l.countP p + (if p b then 1 else 0)
  | [], i, a, h => by simp at h
  | x :: rest, 0, a, h => by
    simp only [List.getElem?_cons_zero, Option.some.injEq] at h
    subst h
    simp only [List.set_cons_zero, List.countP_cons]
    omega
  | x :: rest, i + 1, a, h => by
    simp only [List.getElem?_cons_succ] at h
    have ih := countP_set p b rest i a h
    simp only [List.set_cons_succ, List.countP_cons]
    omega

theorem reachable_of_run (actions : List MergeAction) :
    ∀ s s', Reachable s → server.run actions s = some s' → Reachable s' := by
  induction actions with
  | nil =>
    intro s s' hs h
    simp only [server.run, Option.some.injEq] at h
    rw [← h]
    exact hs
  | cons a rest ih =>
    intro s s' hs h
    unfold server.run at h
    cases hstep : s.step a with
    | none => rw [hstep] at h; cases h
    | some s1 =>
      rw [hstep] at h
      exact ih s1 s' (Reachable.step s a s1 hs hstep) h

theorem reachable_holders (s : server) (h : Reachable s) :
    s.merges.countP MergeCall.holds = s.mergesem ∧ s.mergesem ≤ 1 := by
  induction h with
  | new => exact ⟨rfl, by decide⟩
  | step s a s' _ hstep ih =>
    obtain ⟨ih1, ih2⟩ := ih
    cases a with
    | request =>
      simp only [server.step, Option.some.injEq] at hstep
      rw [← hstep]
      unfold server.Merge.select
      by_cases hroom : s.mergesem < 1
      · rw [if_pos hroom]
        have e : (s.merges ++ [MergeCall.acquired]).countP MergeCall.holds =
            s.merges.countP MergeCall.holds + 1 := by
          simp [List.countP_append, MergeCall.holds]
        exact ⟨by simp only; omega, by simp only; omega⟩
      · rw [if_neg hroom]
        have e : (s.merges ++ [MergeCall.replied (some mergeBusy)]).countP MergeCall.holds =
            s.merges.countP MergeCall.holds := by
          simp [List.countP_append, MergeCall.holds]
        exact ⟨by simp only; omega, by simp only; omega⟩
    | start i =>
      simp only [server.step] at hstep
      split_ifs at hstep with hi
      simp only [Option.some.injEq] at hstep
      rw [← hstep]
      have := countP_set MergeCall.holds MergeCall.merging s.merges i _ hi
      simp only [MergeCall.holds, if_true] at this
      exact ⟨by simp only; omega, ih2⟩
    | mergeReturns i err =>
      simp only [server.step] at hstep
      split_ifs at hstep with hi
      simp only [Option.some.injEq] at hstep
      rw [← hstep]
      have := countP_set MergeCall.holds (MergeCall.merged err) s.merges i _ hi
      simp only [MergeCall.holds, if_true] at this
      exact ⟨by simp only; omega, ih2⟩
    | release i =>
      simp only [server.step] at hstep
      cases hi : s.merges[i]? with
      | none => rw [hi] at hstep; cases hstep
      | some c =>
        rw [hi] at hstep
        cases c with
        | acquired => cases hstep
        | merging => cases hstep
        | replied e => cases hstep
        | merged err =>
          simp only at hstep
          split_ifs at hstep with hpos
          simp only [Option.some.injEq] at hstep
          rw [← hstep]
          have := countP_set MergeCall.holds (MergeCall.replied err) s.merges i _ hi
          simp only [MergeCall.holds, if_true, Bool.false_eq_true, if_false] at this
          exact ⟨by simp only; omega, by simp only; omega⟩

theorem holders_pos_of_mem (l : List MergeCall) (i : Nat) (c : MergeCall)
    (h : l[i]? = some c) (hc : c.holds = true) : 0 < l.countP MergeCall.holds :=
  List.countP_pos_iff.mpr ⟨c, List.getElem?_mem h, hc⟩

/-- C18: in every reachable state of an importer server at most one mergeToShard is running
(the calls that hold the semaphore are as many as the elements of mergesem, at most 1); a Merge
request that arrives while another Merge holds the semaphore returns the error at once (the
step is taken, the channel is unchanged and no mergeToShard is started); and a call whose
mergeToShard has returned, with or without an error, releases the semaphore when it
returns. -/
theorem merge_runs_at_most_once (s : server) (h : Reachable s) :
    s.merges.countP (fun c => decide (c = MergeCall.merging)) ≤ 1 ∧
    s.merges.countP MergeCall.holds = s.mergesem ∧ s.mergesem ≤ 1 ∧
    (0 < s.merges.countP MergeCall.holds →
      s.step MergeAction.request =
        some { s with merges := s.merges ++ [MergeCall.replied (some mergeBusy)] }) ∧
    (s.merges.countP MergeCall.holds = 0 →
      s.step MergeAction.request =
        some { mergesem := 1, merges := s.merges ++ [MergeCall.acquired] }) ∧
    (∀ i err, s.merges[i]? = some (MergeCall.merged err) →
      s.step (MergeAction.release i) =
        some { mergesem := 0, merges := s.merges.set i (MergeCall.replied err) }) := by
  obtain ⟨h1, h2⟩ := reachable_holders s h
  refine ⟨?_, h1, h2, ?_, ?_, ?_⟩
  · calc s.merges.countP (fun c => decide (c = MergeCall.merging))
        ≤ s.merges.countP MergeCall.holds := by
          apply List.countP_mono_left
          intro c _ hc
          have : c = MergeCall.merging := by simpa using hc
          rw [this]
          rfl
      _ ≤ 1 := by omega
  · intro hpos
    have : ¬ s.mergesem < 1 := by omega
    simp [server.step, server.Merge.select, this]
  · intro hzero
    have h0 : s.mergesem = 0 := by omega
    simp [server.step, server.Merge.select, h0]
  · intro i err hi
    have hpos := holders_pos_of_mem s.merges i _ hi rfl
    have h1' : s.mergesem = 1 := by omega
    simp [server.step, hi, h1']

/-- C18 at the sample importer, reached by a request, the start of its mergeToShard, and a
second request. -/
theorem merge_runs_at_most_once_witness :
    sampleServer.merges.countP (fun c => decide (c = MergeCall.merging)) ≤ 1 ∧
    sampleServer.merges.countP MergeCall.holds = sampleServer.mergesem ∧
    sampleServer.mergesem ≤ 1 ∧
    (0 < sampleServer.merges.countP MergeCall.holds →
      sampleServer.step MergeAction.request =
        some { sampleServer with
          merges := sampleServer.merges ++ [MergeCall.replied (some mergeBusy)] }) ∧
    (sampleServer.merges.countP MergeCall.holds = 0 →
      sampleServer.step MergeAction.request =
        some { mergesem := 1, merges := sampleServer.merges ++ [MergeCall.acquired] }) ∧
    (∀ i err, sampleServer.merges[i]? = some (MergeCall.merged err) →
      sampleServer.step (MergeAction.release i) =
        some { mergesem := 0,
               merges := sampleServer.merges.set i (MergeCall.replied err) }) :=
  merge_runs_at_most_once sampleServer
    (reachable_of_run [MergeAction.request, MergeAction.start 0, MergeAction.request]
      server.new sampleServer Reachable.new (by decide))


/-! ## The command line tool -/

/-- C19 for a query that does not compile as a regular expression: search returns the
non-nil error of regexp.Compile, but main, which does not assign the result of search to err,
reports nothing and ends with status 0; the error of the command du, which main does assign,
is reported with status 1. -/
theorem main_drops_search_error (env : DcsEnv) (args : List GoString) (flags : searchFlags)
    (e : GoString) (hparse : env.parse args = some flags) (hidx : flags.idx ≠ [])
    (hquery : flags.query ≠ []) (hcompile : env.compile flags.query = some e) :
    search env args = Ended.returned (some (DcsError.regexpCompile flags.query e)) ∧
    main env (str "search") args = { status := 0, reported := none } ∧
    (∀ err, env.du args = some err →
      main env (str "du") args = { status := 1, reported := some err }) := by
  have hs : search env args = Ended.returned (some (DcsError.regexpCompile flags.query e)) := by
    simp [search, hparse, hidx, hquery, hcompile]
  refine ⟨hs, ?_, ?_⟩
  · have h1 : ¬ str "search" = str "du" := by decide
    have h2 : ¬ str "search" = str "raw" := by decide
    simp only [main, h1, h2, if_false, if_true, hs]
  · intro err hdu
    simp only [main, if_true, hdu]

/-- C19 at the command line `dcs search -idx=/srv/dcs/full -query=(`. -/
theorem main_drops_search_error_witness :
    search sampleDcs [str "-idx=/srv/dcs/full", str "-query=("] =
      Ended.returned (some (DcsError.regexpCompile (str "(") (str "missing closing )"))) ∧
    main sampleDcs (str "search") [str "-idx=/srv/dcs/full", str "-query=("] =
      { status := 0, reported := none } ∧
    (∀ err, sampleDcs.du [str "-idx=/srv/dcs/full", str "-query=("] = some err →
      main sampleDcs (str "du") [str "-idx=/srv/dcs/full", str "-query=("] =
        { status := 1, reported := some err }) :=
  main_drops_search_error sampleDcs [str "-idx=/srv/dcs/full", str "-query=("]
    { idx := str "/srv/dcs/full", query := str "(", pos := false } (str "missing closing )")
    (by decide) (by decide) (by decide) (by decide)


/-! ## The importer: indexPackage -/

theorem mapGet?_mapDelete {V : Type} (m : List (GoString × V)) (k k' : GoString) :
    mapGet? (mapDelete m k) k' = if k = k' then none else mapGet? m k' := by
  induction m with
  | nil => simp [mapDelete, mapGet?]
  | cons kv rest ih =>
    obtain ⟨k0, v0⟩ := kv
    unfold mapDelete at ih ⊢
    by_cases h0 : k0 = k
    · subst h0
      by_cases h1 : k0 = k'
      · simpa [List.filter_cons, h1] using ih
      · simpa [List.filter_cons, mapGet?, h1] using ih
    · by_cases h1 : k = k'
      · subst h1
        simpa [List.filter_cons, mapGet?, h0] using ih
      · by_cases h2 : k0 = k'
        · subst h2
          simp [List.filter_cons, mapGet?, h0, h1]
        · simpa [List.filter_cons, mapGet?, h0, h1, h2] using ih

theorem mapGet?_setFile (m : List (GoString × List Nat)) (k k' : GoString)
    (o : Option (List Nat)) :
    mapGet? (setFile m k o) k' = if k = k' then o else mapGet? m k' := by
  cases o with
  | none => simp [setFile, mapGet?_mapDelete]
  | some content => simp [setFile, mapGet?_mapSet]

theorem tmpIndexPath_ne (pkg : GoString) : pkg ++ str ".tmp" ≠ pkg := by
  intro h
  have := congrArg List.length h
  simp [str] at this

theorem onSkip_idx (path : GoString) (entry : WalkEntry) (fs : Shard) :
    (indexPackage.onSkip path entry fs).1.idx = fs.idx := by
  unfold indexPackage.onSkip
  cases entry.removeFails with
  | some err => rfl
  | none =>
    simp only
    split_ifs <;> rfl

theorem onAccept_idx (stripLen : Nat) (path : GoString) (entry : WalkEntry) (fs : Shard) :
    (indexPackage.onAccept stripLen path entry fs).1.idx = fs.idx := by
  unfold indexPackage.onAccept
  cases entry.copyFault with
  | none => rfl
  | some fault => cases fault <;> rfl

theorem AddDir_idx (stripPrefix : GoString) (stripLen : Nat) (walk : List WalkEntry) :
    ∀ fs : Shard, (AddDir stripPrefix indexPackage.onSkip (indexPackage.onAccept stripLen)
      walk fs).1.idx = fs.idx := by
  induction walk with
  | nil => intro fs; rfl
  | cons entry rest ih =>
    intro fs
    unfold AddDir
    have hstep : ((if entry.ignored then indexPackage.onSkip
        else indexPackage.onAccept stripLen) (stripPrefix ++ entry.rel) entry fs).1.idx =
        fs.idx := by
      split_ifs
      · exact onSkip_idx _ _ _
      · exact onAccept_idx _ _ _ _
    generalize (if entry.ignored then indexPackage.onSkip
        else indexPackage.onAccept stripLen) (stripPrefix ++ entry.rel) entry fs = r at hstep
    obtain ⟨fs1, e1⟩ := r
    cases e1 with
    | some err => exact hstep
    | none =>
      simp only
      rw [ih fs1]
      exact hstep


theorem indexPackage_eq (env : IndexEnv) (pkg : GoString) (fs : Shard) :
    indexPackage env pkg fs =
      match env.mkdirAll with
      | some err => (fs, some err)
      | none =>
        match env.create.err with
        | some err =>
          ({ fs with idx := setFile fs.idx (pkg ++ str ".tmp") env.create.out }, some err)
        | none =>
          match indexPackage.added env pkg fs with
          | (fs1, some err) => (fs1, some err)
          | (fs1, none) =>
            match env.addDir.err with
            | some err =>
              ({ fs1 with idx := setFile fs1.idx (pkg ++ str ".tmp") env.addDir.out },
                some err)
            | none =>
              match env.flush.err with
              | some err =>
                ({ fs1 with idx := setFile (setFile fs1.idx (pkg ++ str ".tmp")
                    env.addDir.out) (pkg ++ str ".tmp") env.flush.out }, some err)
              | none =>
                match env.rename with
                | some err =>
                  ({ fs1 with idx := setFile (setFile fs1.idx (pkg ++ str ".tmp")
                      env.addDir.out) (pkg ++ str ".tmp") env.flush.out }, some err)
                | none =>
                  match mapGet? (setFile (setFile fs1.idx (pkg ++ str ".tmp")
                      env.addDir.out) (pkg ++ str ".tmp") env.flush.out)
                      (pkg ++ str ".tmp") with
                  | none =>
                    ({ fs1 with idx := setFile (setFile fs1.idx (pkg ++ str ".tmp")
                        env.addDir.out) (pkg ++ str ".tmp") env.flush.out },
                      some (str "rename: no such file or directory"))
                  | some content =>
                    ({ fs1 with idx := mapDelete (mapSet (setFile (setFile fs1.idx
                        (pkg ++ str ".tmp") env.addDir.out) (pkg ++ str ".tmp")
                        env.flush.out) pkg content) (pkg ++ str ".tmp") }, none) := by
  rfl


theorem added_idx (env : IndexEnv) (pkg : GoString) (fs : Shard) :
    (indexPackage.added env pkg fs).1.idx = setFile fs.idx (pkg ++ str ".tmp") env.create.out :=
  AddDir_idx _ _ env.walk _

/-- C20: indexPackage changes no file of idx other than idx/pkg.tmp and idx/pkg; when it
returns an error, idx/pkg is exactly as before the call; when it returns no error, MkdirAll,
Create, AddDir (with its callbacks), Flush and the rename have all succeeded, idx/pkg is the
file that Flush left at idx/pkg.tmp, and idx/pkg.tmp is gone; and an error of Create, of AddDir
or of Flush is the error that indexPackage returns. -/
theorem indexPackage_publishes_by_rename (env : IndexEnv) (pkg : GoString) (fs : Shard) :
    (∀ name, name ≠ pkg ++ str ".tmp" → name ≠ pkg →
      mapGet? (indexPackage env pkg fs).1.idx name = mapGet? fs.idx name) ∧
    ((indexPackage env pkg fs).2 ≠ none →
      mapGet? (indexPackage env pkg fs).1.idx pkg = mapGet? fs.idx pkg) ∧
    ((indexPackage env pkg fs).2 = none →
      env.mkdirAll = none ∧ env.create.err = none ∧
      (indexPackage.added env pkg fs).2 = none ∧ env.addDir.err = none ∧
      env.flush.err = none ∧ env.rename = none ∧ env.flush.out ≠ none ∧
      mapGet? (indexPackage env pkg fs).1.idx pkg = env.flush.out ∧
      mapGet? (indexPackage env pkg fs).1.idx (pkg ++ str ".tmp") = none) ∧
    (env.mkdirAll = none → ∀ e, env.create.err = some e →
      (indexPackage env pkg fs).2 = some e) ∧
    (env.mkdirAll = none → env.create.err = none →
      ∀ e, (indexPackage.added env pkg fs).2 = some e ∨
          ((indexPackage.added env pkg fs).2 = none ∧ env.addDir.err = some e) →
        (indexPackage env pkg fs).2 = some e) ∧
    (env.mkdirAll = none → env.create.err = none →
      (indexPackage.added env pkg fs).2 = none → env.addDir.err = none →
      ∀ e, env.flush.err = some e → (indexPackage env pkg fs).2 = some e) := by
  have hne := tmpIndexPath_ne pkg
  have hadd := added_idx env pkg fs
  rw [indexPackage_eq]
  cases h1 : env.mkdirAll with
  | some e1 => simp
  | none =>
    cases h2 : env.create.err with
    | some e2 =>
      simp only [mapGet?_setFile]
      refine ⟨?_, ?_, ?_, ?_, ?_, ?_⟩
      · intro name hn1 hn2
        rw [if_neg (fun h => hn1 h.symm)]
      · intro _
        rw [if_neg hne]
      · intro h; cases h
      · intro _ e he
        cases he
        rfl
      · intro _ h; cases h
      · intro _ h; cases h
    | none =>
      cases h3 : indexPackage.added env pkg fs with
      | mk fs1 e3 =>
        rw [h3] at hadd
        simp only at hadd
        cases e3 with
        | some e =>
          simp only [hadd, mapGet?_setFile]
          refine ⟨?_, ?_, ?_, ?_, ?_, ?_⟩
          · intro name hn1 hn2
            rw [if_neg (fun h => hn1 h.symm)]
          · intro _
            rw [if_neg hne]
          · intro h; cases h
          · intro _ e' he; cases he
          · intro _ _ e' he
            rcases he with he | ⟨he, _⟩
            · exact he
            · cases he
          · intro _ _ h; cases h
        | none =>
          cases h4 : env.addDir.err with
          | some e4 =>
            simp only [hadd, mapGet?_setFile]
            refine ⟨?_, ?_, ?_, ?_, ?_, ?_⟩
            · intro name hn1 hn2
              rw [if_neg (fun h => hn1 h.symm), if_neg (fun h => hn1 h.symm)]
            · intro _
              rw [if_neg hne, if_neg hne]
            · intro h; cases h
            · intro _ e' he; cases he
            · intro _ _ e' he
              rcases he with he | ⟨_, he⟩
              · cases he
              · exact he
            · intro _ _ _ h; cases h
          | none =>
            cases h5 : env.flush.err with
            | some e5 =>
              simp only [hadd, mapGet?_setFile]
              refine ⟨?_, ?_, ?_, ?_, ?_, ?_⟩
              · intro name hn1 hn2
                simp only [if_neg (fun h : pkg ++ str ".tmp" = name => hn1 h.symm)]
              · intro _
                simp only [if_neg hne]
              · intro h; cases h
              · intro _ e' he; cases he
              · intro _ _ e' he
                rcases he with he | ⟨_, he⟩ <;> cases he
              · intro _ _ _ _ e' he
                exact he
            | none =>
              cases h6 : env.rename with
              | some e6 =>
                simp only [hadd, mapGet?_setFile]
                refine ⟨?_, ?_, ?_, ?_, ?_, ?_⟩
                · intro name hn1 hn2
                  simp only [if_neg (fun h : pkg ++ str ".tmp" = name => hn1 h.symm)]
                · intro _
                  simp only [if_neg hne]
                · intro h; cases h
                · intro _ e' he; cases he
                · intro _ _ e' he
                  rcases he with he | ⟨_, he⟩ <;> cases he
                · intro _ _ _ _ e' he
                  cases he
              | none =>
                cases h7 : env.flush.out with
                | none =>
                  simp only [hadd, mapGet?_setFile, eq_self_iff_true, if_true]
                  refine ⟨?_, ?_, ?_, ?_, ?_, ?_⟩
                  · intro name hn1 hn2
                    simp only [if_neg (fun h : pkg ++ str ".tmp" = name => hn1 h.symm)]
                  · intro _
                    simp only [if_neg hne]
                  · intro h; cases h
                  · intro _ e' he; cases he
                  · intro _ _ e' he
                    rcases he with he | ⟨_, he⟩ <;> cases he
                  · intro _ _ _ _ e' he
                    cases he
                | some content =>
                  simp only [hadd, mapGet?_setFile, mapGet?_mapDelete, mapGet?_mapSet,
                    eq_self_iff_true, if_true]
                  refine ⟨?_, ?_, ?_, ?_, ?_, ?_⟩
                  · intro name hn1 hn2
                    simp only [if_neg (fun h : pkg ++ str ".tmp" = name => hn1 h.symm),
                      if_neg (fun h : pkg = name => hn2 h.symm)]
                  · intro h
                    exact absurd rfl h
                  · intro _
                    simp [hne]
                  · intro _ e' he; cases he
                  · intro _ _ e' he
                    rcases he with he | ⟨_, he⟩ <;> cases he
                  · intro _ _ _ _ e' he
                    cases he

/-- C20 at the sample shard when Flush fails after writing part of the index: the error of
Flush is returned and the published index of the package is as before. -/
theorem indexPackage_publishes_by_rename_witness :
    (indexPackage { sampleIndexing with
        flush := { err := some (str "no space left on device"), out := some [4] } }
      (str "i3-wm_4.7.2-1") sampleShard).2 = some (str "no space left on device") ∧
    mapGet? (indexPackage { sampleIndexing with
        flush := { err := some (str "no space left on device"), out := some [4] } }
      (str "i3-wm_4.7.2-1") sampleShard).1.idx (str "i3-wm_4.7.2-1") = some [1, 2, 3] ∧
    mapGet? (indexPackage sampleIndexing (str "i3-wm_4.7.2-1") sampleShard).1.idx
      (str "i3-wm_4.7.2-1") = some [4, 5] ∧
    ((indexPackage sampleIndexing (str "i3-wm_4.7.2-1") sampleShard).2 ≠ none →
      mapGet? (indexPackage sampleIndexing (str "i3-wm_4.7.2-1") sampleShard).1.idx
        (str "i3-wm_4.7.2-1") = mapGet? sampleShard.idx (str "i3-wm_4.7.2-1")) :=
  ⟨by decide, by decide, by decide,
    (indexPackage_publishes_by_rename sampleIndexing (str "i3-wm_4.7.2-1") sampleShard).2.1⟩


/-! ## The importer: GarbageCollect -/

theorem found_iff (pkg : GoString) (names : List GoString) :
    server.GarbageCollect.found pkg names = true ↔ pkg ∈ names := by
  induction names with
  | nil => simp [server.GarbageCollect.found]
  | cons name rest ih =>
    unfold server.GarbageCollect.found
    by_cases h : name = pkg
    · simp [h]
    · have h' : ¬ pkg = name := fun e => h e.symm
      simp [h, h', ih]

theorem topName_eq (path : GoString) :
    ∀ pkg, topName path = pkg → path = pkg ∨ (pkg ++ str "/").isPrefixOf path = true := by
  induction path with
  | nil =>
    intro pkg h
    left
    simpa [topName] using h
  | cons c cs ih =>
    intro pkg h
    by_cases hc : c = 47
    · subst hc
      have : pkg = [] := by simpa [topName] using h.symm
      subst this
      right
      simp [str_slash, List.isPrefixOf]
    · have hp : pkg = c :: topName cs := by
        simpa [topName, List.takeWhile_cons, hc] using h.symm
      subst hp
      rcases ih (topName cs) rfl with e | e
      · left
        rw [← e]
      · right
        simpa [List.isPrefixOf] using e

/-- C21 for a package that is listed under shard/src and has no index file shard/idx/pkg,
when no file operation fails by itself: GarbageCollect removes shard/src/pkg (no path of the
package is left, so the package is no longer listed), but it does not return success: it
returns the error of os.Remove for the missing index file. -/
theorem GarbageCollect_fails_without_index (env : CollectEnv) (pkg : GoString) (fs : Shard)
    (hpkg : pkg ≠ []) (hopen : env.openFails = none) (hread : env.readdirnames = none)
    (hremove : env.removeAll = none) (hlisted : ∃ kv ∈ fs.src, topName kv.1 = pkg)
    (hidx : mapGet? fs.idx pkg = none) :
    packageNames env fs = Except.ok (fs.src.map (fun kv => topName kv.1)).dedup ∧
    pkg ∈ (fs.src.map (fun kv => topName kv.1)).dedup ∧
    (server.GarbageCollect env pkg fs).2 = some (removeMissing pkg) ∧
    (server.GarbageCollect env pkg fs).2 ≠ none ∧
    (∀ kv ∈ (server.GarbageCollect env pkg fs).1.src, topName kv.1 ≠ pkg) ∧
    (server.GarbageCollect env pkg fs).1.idx = fs.idx := by
  have hnames : packageNames env fs =
      Except.ok (fs.src.map (fun kv => topName kv.1)).dedup := by
    simp only [packageNames, hopen, hread]
  have hmem : pkg ∈ (fs.src.map (fun kv => topName kv.1)).dedup := by
    obtain ⟨kv, hkv, e⟩ := hlisted
    rw [List.mem_dedup, List.mem_map]
    exact ⟨kv, hkv, e⟩
  have hfound : server.GarbageCollect.found pkg
      (fs.src.map (fun kv => topName kv.1)).dedup = true := (found_iff _ _).mpr hmem
  have hsrc : (server.GarbageCollect env pkg fs).1.src = fs.src.filter
      (fun kv => !(decide (kv.1 = pkg) || (pkg ++ str "/").isPrefixOf kv.1)) := by
    simp only [server.GarbageCollect, if_neg hpkg, hnames, hfound, hremove, hidx]
    rfl
  have herr : (server.GarbageCollect env pkg fs).2 = some (removeMissing pkg) := by
    simp only [server.GarbageCollect, if_neg hpkg, hnames, hfound, hremove, hidx]
    rfl
  have hsame : (server.GarbageCollect env pkg fs).1.idx = fs.idx := by
    simp only [server.GarbageCollect, if_neg hpkg, hnames, hfound, hremove, hidx]
    rfl
  refine ⟨hnames, hmem, herr, by rw [herr]; simp, ?_, hsame⟩
  intro kv hkv htop
  rw [hsrc] at hkv
  simp only [List.mem_filter, Bool.not_eq_true', Bool.or_eq_false_iff,
    decide_eq_false_iff_not] at hkv
  rcases topName_eq kv.1 pkg htop with e | e
  · exact hkv.2.1 e
  · rw [hkv.2.2] at e
    cases e

/-- C21 at the sample shard whose package i3-wm_4.7.2-1 is unpacked but not indexed. -/
theorem GarbageCollect_fails_without_index_witness :
    sampleNotIndexed.src = [(str "i3-wm_4.7.2-1/main.c", [105, 51])] ∧
    sampleNotIndexed.idx = [] ∧
    server.GarbageCollect CollectEnv.ok (str "i3-wm_4.7.2-1") sampleNotIndexed =
      ({ sampleNotIndexed with src := [] },
        some (str "remove idx/i3-wm_4.7.2-1: no such file or directory")) ∧
    (packageNames CollectEnv.ok sampleNotIndexed =
      Except.ok (sampleNotIndexed.src.map (fun kv => topName kv.1)).dedup ∧
    str "i3-wm_4.7.2-1" ∈ (sampleNotIndexed.src.map (fun kv => topName kv.1)).dedup ∧
    (server.GarbageCollect CollectEnv.ok (str "i3-wm_4.7.2-1") sampleNotIndexed).2 =
      some (removeMissing (str "i3-wm_4.7.2-1")) ∧
    (server.GarbageCollect CollectEnv.ok (str "i3-wm_4.7.2-1") sampleNotIndexed).2 ≠ none ∧
    (∀ kv ∈ (server.GarbageCollect CollectEnv.ok (str "i3-wm_4.7.2-1") sampleNotIndexed).1.src,
      topName kv.1 ≠ str "i3-wm_4.7.2-1") ∧
    (server.GarbageCollect CollectEnv.ok (str "i3-wm_4.7.2-1") sampleNotIndexed).1.idx =
      sampleNotIndexed.idx) :=
  ⟨by decide, by decide, by decide,
    GarbageCollect_fails_without_index CollectEnv.ok (str "i3-wm_4.7.2-1") sampleNotIndexed
      (by decide) rfl rfl rfl
      ⟨(str "i3-wm_4.7.2-1/main.c", [105, 51]), by decide, by decide⟩ (by decide)⟩


/-! ## The bounds of the slice expressions -/

theorem stringsIndex_single_not_mem (c : Nat) (s : GoString) (h : c ∉ s) :
    stringsIndex s [c] = -1 := by
  simp [stringsIndex, stringsIndexFrom_single_not_mem _ _ _ h]

theorem sliceTo_neg_one (s : GoString) : sliceTo s (-1) = none := by
  simp [sliceTo]

theorem slicePath_eq_some {path pkg : GoString}
    (h : sliceTo path (stringsIndex path (str "/")) = some pkg) :
    ∃ rest, path = pkg ++ 47 :: rest ∧ 47 ∉ pkg := by
  by_cases hm : 47 ∈ path
  · obtain ⟨p, rest, e, hp, hn⟩ := slicePath_of_mem path hm
    rw [e] at h
    cases h
    exact ⟨rest, hp, hn⟩
  · rw [slicePath_not_mem path hm] at h
    cases h

theorem ranked_package {F : Type} [GoFloat32 F] (g s : queryState F) (result ranked : Result F)
    (h : storeResult.ranked g result = some (ranked, s)) :
    sliceTo result.Path (stringsIndex result.Path (str "/")) = some ranked.Package := by
  unfold storeResult.ranked at h
  cases hp : sliceTo result.Path (stringsIndex result.Path (str "/")) with
  | none => simp [hp] at h
  | some pkg =>
    simp only [hp] at h
    split_ifs at h
    · simp only [Option.some.injEq, Prod.mk.injEq] at h
      rw [← h.1]
    · simp only [Option.some.injEq, Prod.mk.injEq] at h
      rw [← h.1]

theorem storeResult_of_no_slash {F : Type} [GoFloat32 F] (encode : Result F → List Nat)
    (backendidx : Nat) (result : Result F) (io : IOOutcome) (g : queryState F)
    (h : 47 ∉ result.Path) : storeResult encode backendidx result io g = none := by
  have : storeResult.ranked g result = none := by
    simp [storeResult.ranked, slicePath_not_mem result.Path h]
  simp [storeResult, this]

theorem packageVersionsLoop_none (pkgs : List GoString) :
    ∀ pv : List (GoString × GoString), (∃ pkg ∈ pkgs, 95 ∉ pkg) →
      packageVersionsLoop pkgs pv = none := by
  induction pkgs with
  | nil =>
    intro pv h
    obtain ⟨pkg, hpkg, -⟩ := h
    cases hpkg
  | cons p rest ih =>
    intro pv h
    by_cases hp : 95 ∈ p
    · have hrest : ∃ pkg ∈ rest, 95 ∉ pkg := by
        obtain ⟨pkg, hpkg, hn⟩ := h
        rcases List.mem_cons.mp hpkg with e | e
        · rw [e] at hn
          exact absurd hp hn
        · exact ⟨pkg, e, hn⟩
      obtain ⟨name, version, e, -, -⟩ := splitPackage_of_mem p hp
      simp only [packageVersionsLoop, e]
      cases mapGet? pv name with
      | none => exact ih _ hrest
      | some best =>
        by_cases hv : version > best
        · simp only [hv, if_true]; exact ih _ hrest
        · simp only [hv, if_false]; exact ih _ hrest
    · simp [packageVersionsLoop, splitPackage_not_mem p hp]

theorem writeToDisk_of_no_underscore {F : Type} [GoFloat32 F] (queryid : GoString)
    (g : queryState F) (hne : g.resultPointers ≠ []) (h : ∃ pkg ∈ g.allPackages, 95 ∉ pkg) :
    writeToDisk queryid g = none := by
  have hlen : ¬ g.resultPointers.length = 0 := by
    intro e
    exact hne (List.length_eq_zero.mp e)
  simp [writeToDisk, hlen, packageVersionsLoop_none g.allPackages [] h]

theorem handled_paths {F : Type} [GoFloat32 F] (encode : Result F → List Nat)
    (g : queryState F) (calls : List (Call F)) (h : Handled encode g calls) :
    ∀ c ∈ calls,
      sliceTo c.ranked.Path (stringsIndex c.ranked.Path (str "/")) = some c.ranked.Package := by
  induction h with
  | fresh n => intro c hc; cases hc
  | @store g g' s calls backendidx result ranked io _ hrk hst ih =>
    intro c hc
    rcases List.mem_cons.mp hc with e | e
    · subst e
      simp only
      rw [ranked_path g s result ranked hrk]
      exact ranked_package g s result ranked hrk
    · exact ih c e

theorem handled_wellFormed {F : Type} [GoFloat32 F] (encode : Result F → List Nat)
    (g : queryState F) (calls : List (Call F)) (h : Handled encode g calls)
    (hpkg : ∀ c ∈ calls, 95 ∈ c.ranked.Package) : PackagesWellFormed g := by
  have hall : ∀ pkg ∈ g.allPackages, 95 ∈ pkg := by
    induction h with
    | fresh n => simp [freshQueryState]
    | @store g g' s calls backendidx result ranked io _ hrk hst ih =>
      have hpk := storeResult_allPackages encode backendidx result ranked io g s g' hrk hst
      have ih' := ih (fun c hc => hpkg c (List.mem_cons_of_mem _ hc))
      intro pkg hmem
      rw [hpk] at hmem
      by_cases hio : io = IOOutcome.ok
      · rw [if_pos hio, mem_setInsert] at hmem
        rcases hmem with hmem | hmem
        · exact ih' pkg hmem
        · rw [hmem]
          exact hpkg _ (List.mem_cons_self _ _)
      · rw [if_neg hio] at hmem
        exact ih' pkg hmem
  exact ⟨hall, fun p hp => hall _ (pointer_packages_recorded encode g calls h p hp)⟩


theorem splitsAt_of_eq (c : Nat) (before after : GoString) (h : c ∉ before) :
    SplitsAt c (before ++ c :: after) before after := by
  have hidx : stringsIndex (before ++ c :: after) [c] = (before.length : Int) := by
    simp [stringsIndex, stringsIndexFrom_single_append c before after 0 h]
  refine ⟨rfl, h, hidx, ?_, ?_⟩
  · rw [hidx]
    omega
  · rw [hidx]
    simp only [List.length_append, List.length_cons]
    omega

theorem splitPackage_splitsAt {pkg name version : GoString}
    (h : splitPackage pkg = some (name, version)) : SplitsAt 95 pkg name version := by
  obtain ⟨e, hn⟩ := splitPackage_eq_some h
  rw [e]
  exact splitsAt_of_eq 95 name version hn

theorem slicePath_splitsAt {path pkg : GoString}
    (h : sliceTo path (stringsIndex path (str "/")) = some pkg) :
    ∃ rest, SplitsAt 47 path pkg rest := by
  obtain ⟨rest, e, hn⟩ := slicePath_eq_some h
  refine ⟨rest, ?_⟩
  rw [e]
  exact splitsAt_of_eq 47 pkg rest hn

/-- C22: in the states reached by storeResult calls on results whose package part (the Path
before its first '/') contains a '_', every slice expression was in bounds: Package is the
prefix of Path before its first '/', and name and version are the parts of Package before and
after its first '_'; storeResult returns for a next result whose Path contains a '/', and
writeToDisk returns, every package and every pointer's package splitting at its first '_'.
For a Path without '/' the index is -1 and storeResult panics; for a package without '_' the
index is -1, the slicing fails, and writeToDisk panics when it reaches the package. -/
theorem slices_in_bounds_with_separators {F : Type} [GoFloat32 F]
    (encode : Result F → List Nat) (queryid : GoString) (g : queryState F)
    (calls : List (Call F)) (h : Handled encode g calls)
    (hpkg : ∀ c ∈ calls, 95 ∈ c.ranked.Package) :
    (∀ c ∈ calls, ∃ rest name version,
      sliceTo c.ranked.Path (stringsIndex c.ranked.Path (str "/")) = some c.ranked.Package ∧
      SplitsAt 47 c.ranked.Path c.ranked.Package rest ∧
      splitPackage c.ranked.Package = some (name, version) ∧
      SplitsAt 95 c.ranked.Package name version) ∧
    (∀ (backendidx : Nat) (result : Result F) (io : IOOutcome),
      47 ∈ result.Path → backendidx < g.tempFiles.length →
      ∃ ranked s g' rest, storeResult.ranked g result = some (ranked, s) ∧
        storeResult encode backendidx result io g = some g' ∧
        sliceTo result.Path (stringsIndex result.Path (str "/")) = some ranked.Package ∧
        SplitsAt 47 result.Path ranked.Package rest) ∧
    (∃ g', writeToDisk queryid g = some g') ∧
    (∀ pkg ∈ g.allPackages, ∃ name version,
      splitPackage pkg = some (name, version) ∧ SplitsAt 95 pkg name version) ∧
    (∀ p ∈ g.resultPointers, ∃ name version,
      splitPackage p.packageName = some (name, version) ∧
      SplitsAt 95 p.packageName name version) ∧
    (∀ (backendidx : Nat) (result : Result F) (io : IOOutcome), 47 ∉ result.Path →
      stringsIndex result.Path (str "/") = -1 ∧
      sliceTo result.Path (stringsIndex result.Path (str "/")) = none ∧
      storeResult encode backendidx result io g = none) ∧
    (∀ pkg : GoString, 95 ∉ pkg →
      stringsIndex pkg (str "_") = -1 ∧ sliceTo pkg (stringsIndex pkg (str "_")) = none ∧
      splitPackage pkg = none) ∧
    (∀ g0 : queryState F, g0.resultPointers ≠ [] → (∃ pkg ∈ g0.allPackages, 95 ∉ pkg) →
      writeToDisk queryid g0 = none) := by
  have hwf := handled_wellFormed encode g calls h hpkg
  have hsplit : ∀ pkg : GoString, 95 ∈ pkg → ∃ name version,
      splitPackage pkg = some (name, version) ∧ SplitsAt 95 pkg name version := by
    intro pkg hmem
    obtain ⟨name, version, e, -, -⟩ := splitPackage_of_mem pkg hmem
    exact ⟨name, version, e, splitPackage_splitsAt e⟩
  refine ⟨?_, ?_, ?_, fun pkg hmem => hsplit pkg (hwf.1 pkg hmem),
    fun p hp => hsplit _ (hwf.2 p hp), ?_, ?_, ?_⟩
  · intro c hc
    have hslice := handled_paths encode g calls h c hc
    obtain ⟨rest, hrest⟩ := slicePath_splitsAt hslice
    obtain ⟨name, version, e, hs⟩ := hsplit _ (hpkg c hc)
    exact ⟨rest, name, version, hslice, hrest, e, hs⟩
  · intro backendidx result io hpath hidx
    obtain ⟨ranked, s, g', hrk, hst⟩ := storeResult_isSome encode backendidx result io g
      hpath hidx
    have hslice := ranked_package g s result ranked hrk
    obtain ⟨rest, hrest⟩ := slicePath_splitsAt hslice
    exact ⟨ranked, s, g', rest, hrk, hst, hslice, hrest⟩
  · obtain ⟨g', hg', -, -⟩ := writeToDisk_counters queryid g hwf
    exact ⟨g', hg'⟩
  · intro backendidx result io hpath
    refine ⟨?_, slicePath_not_mem result.Path hpath,
      storeResult_of_no_slash encode backendidx result io g hpath⟩
    rw [str_slash]
    exact stringsIndex_single_not_mem 47 result.Path hpath
  · intro pkg hmem
    have hidx : stringsIndex pkg (str "_") = -1 := by
      rw [str_underscore]
      exact stringsIndex_single_not_mem 95 pkg hmem
    refine ⟨hidx, ?_, splitPackage_not_mem pkg hmem⟩
    rw [hidx]
    exact sliceTo_neg_one pkg
  · intro g0 hne hbad
    exact writeToDisk_of_no_underscore queryid g0 hne hbad

/-- C22 at the state after the first call of storeResult of the sample query, whose result
has the path foo_9/a.c. -/
theorem slices_in_bounds_with_separators_witness :
    (∀ c ∈ sampleCalls, ∃ rest name version,
      sliceTo c.ranked.Path (stringsIndex c.ranked.Path (str "/")) = some c.ranked.Package ∧
      SplitsAt 47 c.ranked.Path c.ranked.Package rest ∧
      splitPackage c.ranked.Package = some (name, version) ∧
      SplitsAt 95 c.ranked.Package name version) ∧
    (∀ (backendidx : Nat) (result : Result Fixed) (io : IOOutcome),
      47 ∈ result.Path → backendidx < sampleStored.tempFiles.length →
      ∃ ranked s g' rest, storeResult.ranked sampleStored result = some (ranked, s) ∧
        storeResult sampleEncode backendidx result io sampleStored = some g' ∧
        sliceTo result.Path (stringsIndex result.Path (str "/")) = some ranked.Package ∧
        SplitsAt 47 result.Path ranked.Package rest) ∧
    (∃ g', writeToDisk (str "q") sampleStored = some g') ∧
    (∀ pkg ∈ sampleStored.allPackages, ∃ name version,
      splitPackage pkg = some (name, version) ∧ SplitsAt 95 pkg name version) ∧
    (∀ p ∈ sampleStored.resultPointers, ∃ name version,
      splitPackage p.packageName = some (name, version) ∧
      SplitsAt 95 p.packageName name version) ∧
    (∀ (backendidx : Nat) (result : Result Fixed) (io : IOOutcome), 47 ∉ result.Path →
      stringsIndex result.Path (str "/") = -1 ∧
      sliceTo result.Path (stringsIndex result.Path (str "/")) = none ∧
      storeResult sampleEncode backendidx result io sampleStored = none) ∧
    (∀ pkg : GoString, 95 ∉ pkg →
      stringsIndex pkg (str "_") = -1 ∧ sliceTo pkg (stringsIndex pkg (str "_")) = none ∧
      splitPackage pkg = none) ∧
    (∀ g0 : queryState Fixed, g0.resultPointers ≠ [] →
      (∃ pkg ∈ g0.allPackages, 95 ∉ pkg) → writeToDisk (str "q") g0 = none) :=
  slices_in_bounds_with_separators sampleEncode (str "q") sampleStored sampleCalls
    sampleStored_handled (by decide)


end Dcs
